import Mathlib

/-!
# Divi translation server: tokenizer, sessions, marker protocol, reassembly

A shallow embedding of `tokenizer.go` and of the session logic of
`mcp_server.go`.  Go strings are byte sequences, so a string is a list of
byte values; `len` is the list length and slicing is `drop`/`take`.
-/

namespace DiviTranslation

/-! ## Strings -/

/-- A Go string: its bytes, in order. -/
abbrev Str := List Nat

/-- The bytes of a string literal of the source (its UTF-8 encoding). -/
def utf8 (s : String) : Str :=
  s.data.flatMap (fun c => (String.utf8EncodeChar c).map UInt8.toNat)

/-- Go slice expression `s[a:b]` for `a ≤ b ≤ len(s)`. -/
def slice (s : Str) (a b : Nat) : Str := (s.drop a).take (b - a)

/-- Go `strings.Index(s, sub)`: offset of the first occurrence of `sub` in
`s`; `none` stands for `-1`. -/
def stringsIndex (sub : Str) : Str → Option Nat
  | [] => if sub.isPrefixOf [] then some 0 else none
  | c :: t =>
    if sub.isPrefixOf (c :: t) then some 0
    else (stringsIndex sub t).map (· + 1)

/-- Go `strings.IndexByte(s, c)`; `none` stands for `-1`. -/
def stringsIndexByte (c : Nat) : Str → Option Nat
  | [] => none
  | b :: t => if b = c then some 0 else (stringsIndexByte c t).map (· + 1)

/-- Go `strings.HasPrefix`. -/
def hasPrefix (s p : Str) : Bool := p.isPrefixOf s

/-- Go `strings.HasSuffix`. -/
def hasSuffix (s p : Str) : Bool := p.isSuffixOf s

/-! ## tokenizer.go -/

/-- Token of `tokenizer.go`: `Kind` is the string "shortcode" or "text". -/
structure Token where
  Kind : Str
  Value : Str
deriving DecidableEq, Repr

/-- The kind string "text". -/
def kindText : Str := utf8 "text"

/-- The kind string "shortcode". -/
def kindShortcode : Str := utf8 "shortcode"

/-- The opening delimiter "[et_". -/
def openDelim : Str := utf8 "[et_"

/-- The closing delimiter "[/et_". -/
def closeDelim : Str := utf8 "[/et_"

/-- The offset `idx` chosen in the loop body of `tokenize` from `openIdx`
and `closeIdx` (`none` is `-1`). -/
def firstDelim (openIdx closeIdx : Option Nat) : Option Nat :=
  match openIdx, closeIdx with
  | some o, some c => if o < c then some o else some c
  | some o, none => some o
  | none, some c => some c
  | none, none => none

/-- The `for i < len(input)` loop of `tokenize`, with the loop variables `i`
and `tokens` as arguments; one unit of fuel is spent per iteration. -/
def tokenizeLoop (input : Str) : Nat → Nat → List Token → List Token
  | 0, _, tokens => tokens
  | fuel + 1, i, tokens =>
    if i < input.length then
      let openIdx := stringsIndex openDelim (input.drop i)
      let closeIdx := stringsIndex closeDelim (input.drop i)
      match firstDelim openIdx closeIdx with
      | none =>
        if i < input.length then tokens ++ [⟨kindText, input.drop i⟩] else tokens
      | some rel =>
        let idx := rel + i
        let tokens1 :=
          if idx > i then tokens ++ [⟨kindText, slice input i idx⟩] else tokens
        match stringsIndexByte 93 (input.drop idx) with
        | none => tokens1 ++ [⟨kindText, input.drop idx⟩]
        | some e =>
          let stop := e + idx
          tokenizeLoop input fuel (stop + 1)
            (tokens1 ++ [⟨kindShortcode, slice input idx (stop + 1)⟩])
    else tokens

/-- Function `tokenize`: every iteration that continues advances `i` by at
least one byte, so `len(input) + 1` units of fuel are never used up. -/
def tokenize (input : Str) : List Token :=
  tokenizeLoop input (input.length + 1) 0 []

/-- Function `rebuild`: writes every token value to a builder, in order. -/
def rebuild (tokens : List Token) : Str :=
  tokens.foldl (fun b t => b ++ t.Value) []

/-- The UTF-8 encodings of the code points for which Go's `unicode.IsSpace`
holds: U+0009..U+000D, U+0020, U+0085, U+00A0, U+1680, U+2000..U+200A,
U+2028, U+2029, U+202F, U+205F, U+3000. -/
def spaceRunes : List Str :=
  [[9], [10], [11], [12], [13], [32], [194, 133], [194, 160], [225, 154, 128],
   [226, 128, 128], [226, 128, 129], [226, 128, 130], [226, 128, 131],
   [226, 128, 132], [226, 128, 133], [226, 128, 134], [226, 128, 135],
   [226, 128, 136], [226, 128, 137], [226, 128, 138], [226, 128, 168],
   [226, 128, 169], [226, 128, 175], [226, 129, 159], [227, 128, 128]]

/-- Go `strings.TrimLeftFunc(s, unicode.IsSpace)`: drops leading white-space
runes one at a time (a rune that is not white space, or an invalid byte,
stops the loop). -/
def trimLeftLoop : Nat → Str → Str
  | 0, s => s
  | fuel + 1, s =>
    match spaceRunes.find? (fun w => w.isPrefixOf s) with
    | some w => trimLeftLoop fuel (s.drop w.length)
    | none => s

/-- Go `strings.TrimRightFunc(s, unicode.IsSpace)`: drops trailing
white-space runes one at a time. -/
def trimRightLoop : Nat → Str → Str
  | 0, s => s
  | fuel + 1, s =>
    match spaceRunes.find? (fun w => w.isSuffixOf s) with
    | some w => trimRightLoop fuel (s.take (s.length - w.length))
    | none => s

/-- Go `strings.TrimSpace`: leading, then trailing white space removed. -/
def trimSpace (s : Str) : Str :=
  let l := trimLeftLoop s.length s
  trimRightLoop l.length l

/-- Go `strings.NewReplacer(pairs...).Replace(s)` for non-empty old strings:
scanning left to right, at each position the first pair (in argument order)
whose old string starts there is replaced and skipped; otherwise the byte is
copied. -/
def replacerReplace (pairs : List (Str × Str)) : Nat → Str → Str
  | 0, s => s
  | _ + 1, [] => []
  | fuel + 1, c :: t =>
    match pairs.find? (fun p => p.1.isPrefixOf (c :: t)) with
    | some p => p.2 ++ replacerReplace pairs fuel ((c :: t).drop p.1.length)
    | none => c :: replacerReplace pairs fuel t

/-- The three patterns removed by `dropEmptyPTags`. -/
def emptyPTags : List Str :=
  [utf8 "<p></p>", utf8 "<p>\u00a0</p>", utf8 "<p>&nbsp;</p>"]

/-- Function `dropEmptyPTags`: a replacer with the pairs (pattern, ""). -/
def dropEmptyPTags (s : Str) : Str :=
  replacerReplace (emptyPTags.map (fun p => (p, []))) s.length s

/-- Function `chunkTokens`: the state of the range loop is
`(chunks, current, textLen)`; `limit` is a Go `int` and may be negative. -/
def chunkTokensLoop (limit : Int) :
    List Token → List (List Token) → List Token → Nat → List (List Token)
  | [], chunks, current, _ =>
    if current.length > 0 then chunks ++ [current] else chunks
  | t :: ts, chunks, current, textLen =>
    let add := if t.Kind = kindText then t.Value.length else 0
    if ((textLen + add : Nat) : Int) > limit ∧ current.length > 0 then
      chunkTokensLoop limit ts (chunks ++ [current]) [t] add
    else
      chunkTokensLoop limit ts chunks (current ++ [t]) (textLen + add)

/-- Function `chunkTokens`. -/
def chunkTokens (tokens : List Token) (limit : Int) : List (List Token) :=
  chunkTokensLoop limit tokens [] [] 0

/-- The cumulative length of the values of the text tokens of a chunk. -/
def chunkTextLen (chunk : List Token) : Nat :=
  (chunk.map (fun t => if t.Kind = kindText then t.Value.length else 0)).sum

/-! ## Formatting (`fmt.Sprintf` verbs used by the server) -/

/-- Decimal digits of `n`, most significant first, in front of `acc`. -/
def digitsLoop : Nat → Nat → Str → Str
  | 0, _, acc => acc
  | fuel + 1, n, acc =>
    if n < 10 then (48 + n) :: acc
    else digitsLoop fuel (n / 10) ((48 + n % 10) :: acc)

/-- The verb `%d` applied to a non-negative integer. -/
def fmtD (n : Nat) : Str := digitsLoop (n + 1) n []

/-- The verb `%03d` applied to a non-negative integer: decimal, padded
with zeros on the left to at least three digits. -/
def fmtD03 (n : Nat) : Str :=
  List.replicate (3 - (fmtD n).length) 48 ++ fmtD n

/-- The opening marker `fmt.Sprintf("{{CHUNK_%03d}}", n)`. -/
def chunkMarker (n : Nat) : Str :=
  utf8 "\x7b\x7bCHUNK_" ++ fmtD03 n ++ utf8 "\x7d\x7d"

/-- The closing marker `fmt.Sprintf("{{/CHUNK_%03d}}", n)`. -/
def chunkEndMarker (n : Nat) : Str :=
  utf8 "\x7b\x7b/CHUNK_" ++ fmtD03 n ++ utf8 "\x7d\x7d"

/-! ## mcp_server.go: sessions -/

/-- The constant `maxCharsPerPart`. -/
def maxCharsPerPart : Nat := 30000

/-- The struct `TranslationSession` (legacy, one chunk at a time). -/
structure TranslationSession where
  SourceType : Str
  InputPath : Str
  OutputPath : Str
  PostID : Int
  BackupPath : Str
  TargetLang : Str
  Tokens : List Token
  TextChunks : List Str
  ChunkIndices : List Nat
  Translations : List Str
  CurrentChunk : Nat
  TotalChunks : Nat
deriving DecidableEq, Repr

/-- The struct `BulkTranslationSession`. -/
structure BulkTranslationSession where
  SourceType : Str
  InputPath : Str
  OutputPath : Str
  PostID : Int
  BackupPath : Str
  TargetLang : Str
  Tokens : List Token
  ChunkIndices : List Nat
  TotalChunks : Nat
  Parts : Nat
  CurrentPart : Nat
  PartRanges : List (Nat × Nat)
  Translations : List Str
deriving DecidableEq, Repr

/-- The fields of `MCPServer` that the handlers read and write; `wpDB` tells
whether the lazily opened WordPress connection is present. -/
structure MCPServer where
  session : Option TranslationSession
  bulkSession : Option BulkTranslationSession
  wpDB : Bool
deriving DecidableEq, Repr

/-- The test `t.Kind == "text" && strings.TrimSpace(t.Value) != ""` of both
session initialisers. -/
def isUnit (t : Token) : Bool :=
  decide (t.Kind = kindText) && decide (trimSpace t.Value ≠ [])

/-- The loop `for i, t := range tokens` of `initSession` and
`initBulkSession` collecting `chunkIndices`; `i` is the index of the head. -/
def collectChunkIndices : List Token → Nat → List Nat
  | [], _ => []
  | t :: ts, i =>
    if isUnit t then i :: collectChunkIndices ts (i + 1)
    else collectChunkIndices ts (i + 1)

/-- The same loop of `initSession` collecting `textChunks`. -/
def collectTextChunks : List Token → List Str
  | [] => []
  | t :: ts =>
    if isUnit t then t.Value :: collectTextChunks ts else collectTextChunks ts

/-- Function `initSession`: the new value of the server. -/
def initSession (s : MCPServer) (content targetLang sourceType inputPath outputPath : Str)
    (postID : Int) (backupPath : Str) : MCPServer :=
  let tokens := tokenize content
  let textChunks := collectTextChunks tokens
  let chunkIndices := collectChunkIndices tokens 0
  if textChunks.length = 0 then { s with session := none }
  else
    { s with session := some {
        SourceType := sourceType
        InputPath := inputPath
        OutputPath := outputPath
        PostID := postID
        BackupPath := backupPath
        TargetLang := targetLang
        Tokens := tokens
        TextChunks := textChunks
        ChunkIndices := chunkIndices
        Translations := List.replicate textChunks.length []
        CurrentChunk := 0
        TotalChunks := textChunks.length } }

/-- The value read by `tokens[idx].Value`; every index used comes from an
enumeration of `tokens`, so the lookup is in range. -/
def tokenValue (tokens : List Token) (idx : Nat) : Str :=
  match tokens[idx]? with
  | some t => t.Value
  | none => []

/-- The loop of `initBulkSession` summing `len(tokens[idx].Value)`. -/
def totalLength (tokens : List Token) (chunkIndices : List Nat) : Nat :=
  chunkIndices.foldl (fun total idx => total + (tokenValue tokens idx).length) 0

/-- The choice of `parts` in `initBulkSession`. -/
def numberOfParts (totalLen : Nat) : Nat :=
  if totalLen > maxCharsPerPart * 2 then 3
  else if totalLen > maxCharsPerPart then 2
  else 1

/-- The loop of `initBulkSession` filling `partRanges` for `p = 0..parts-1`;
`n` is `len(chunkIndices)`. -/
def computePartRanges (n parts : Nat) : List (Nat × Nat) :=
  let chunksPerPart := (n + parts - 1) / parts
  (List.range parts).map (fun p =>
    let start := p * chunksPerPart
    let stop := start + chunksPerPart
    (start, if stop > n then n else stop))

/-- Function `initBulkSession`: the new value of the server. -/
def initBulkSession (s : MCPServer) (content targetLang sourceType inputPath outputPath : Str)
    (postID : Int) (backupPath : Str) : MCPServer :=
  let tokens := tokenize content
  let chunkIndices := collectChunkIndices tokens 0
  if chunkIndices.length = 0 then { s with bulkSession := none }
  else
    let totalLen := totalLength tokens chunkIndices
    let parts := numberOfParts totalLen
    let partRanges := computePartRanges chunkIndices.length parts
    { s with bulkSession := some {
        SourceType := sourceType
        InputPath := inputPath
        OutputPath := outputPath
        PostID := postID
        BackupPath := backupPath
        TargetLang := targetLang
        Tokens := tokens
        ChunkIndices := chunkIndices
        TotalChunks := chunkIndices.length
        Parts := parts
        CurrentPart := 0
        PartRanges := partRanges
        Translations := List.replicate chunkIndices.length [] } }

/-- Unit position `k` lies in the half-open range of part `p`. -/
def inPart (b : BulkTranslationSession) (p k : Nat) : Bool :=
  match b.PartRanges[p]? with
  | some r => decide (r.1 ≤ k) && decide (k < r.2)
  | none => false

/-- The server before any call: no session, no connection. -/
def idleServer : MCPServer := ⟨none, none, false⟩

/-- The total `T` of the partitioning policy: the sum of the byte lengths of
the text values of the units of the document. -/
def unitsTotal (content : Str) : Nat :=
  (((tokenize content).filter isUnit).map (fun t => t.Value.length)).sum

/-- The number of units of the document. -/
def unitsCount (content : Str) : Nat := ((tokenize content).filter isUnit).length

/-- The ranges form a contiguous chain of half-open ranges over `[0, total)`:
the first starts at 0, each satisfies start ≤ end ≤ total, each one after the
first starts where the previous one ended, and the last ends at `total`. -/
def WellChained (total : Nat) (ranges : List (Nat × Nat)) : Prop :=
  (∀ r, ranges.head? = some r → r.1 = 0) ∧
  (∀ r, r ∈ ranges → r.1 ≤ r.2 ∧ r.2 ≤ total) ∧
  (∀ p r r2, ranges[p]? = some r → ranges[p + 1]? = some r2 → r2.1 = r.2) ∧
  (∀ r, ranges.getLast? = some r → r.2 = total)

/-- A document made of one unit of 60001 bytes. -/
def oneHugeUnit : Str := List.replicate 60001 120

/-- A document made of one unit of 50000 bytes. -/
def oneLargeUnit : Str := List.replicate 50000 120

/-- A small document: one shortcode pair around "Hello", then "World". -/
def demoContent : Str := utf8 "[et_pb_text]Hello[/et_pb_text]World"

/-- The bulk session that `initBulkSession` creates for `demoContent`. -/
def demoBulk : BulkTranslationSession where
  SourceType := utf8 "file"
  InputPath := utf8 "in.txt"
  OutputPath := utf8 "out.txt"
  PostID := 0
  BackupPath := []
  TargetLang := utf8 "es"
  Tokens := [⟨kindShortcode, utf8 "[et_pb_text]"⟩, ⟨kindText, utf8 "Hello"⟩,
    ⟨kindShortcode, utf8 "[/et_pb_text]"⟩, ⟨kindText, utf8 "World"⟩]
  ChunkIndices := [1, 3]
  TotalChunks := 2
  Parts := 1
  CurrentPart := 0
  PartRanges := [(0, 2)]
  Translations := [[], []]

/-! ## mcp_server.go: the bulk marker protocol -/

/-- What a call of `parseBulkTranslation` ends with: `ok` is the `nil`
error, the two `NotFound` cases are the two `fmt.Errorf` returns, and
`panic` is a Go run-time panic (slice bounds or index out of range), which
nothing in the server recovers from. -/
inductive ParseOutcome where
  | ok
  | markerNotFound (marker : Str)
  | endMarkerNotFound (endMarker : Str)
  | panic
deriving DecidableEq, Repr

/-- The text of the error returned by `parseBulkTranslation`. -/
def ParseOutcome.errorText : ParseOutcome → Str
  | .ok => []
  | .markerNotFound marker =>
    utf8 "marcador " ++ marker ++ utf8 " no encontrado en la traduccion"
  | .endMarkerNotFound endMarker =>
    utf8 "marcador de cierre " ++ endMarker ++ utf8 " no encontrado"
  | .panic => []

/-- The two `if` statements of `parseBulkTranslation` that put back a leading
and a trailing line break of the original text. -/
def restoreEdges (original translated : Str) : Str :=
  let t1 :=
    if hasPrefix original [10] && !hasPrefix translated [10] then [10] ++ translated
    else translated
  if hasSuffix original [10] && !hasSuffix t1 [10] then t1 ++ [10] else t1

/-- One iteration of the loop of `parseBulkTranslation`, for unit index `i`. -/
def parseUnit (text : Str) (session : BulkTranslationSession) (i : Nat) :
    BulkTranslationSession × ParseOutcome :=
  let marker := chunkMarker (i + 1)
  let endMarker := chunkEndMarker (i + 1)
  match stringsIndex marker text with
  | none => (session, .markerNotFound marker)
  | some startIdx =>
    match stringsIndex endMarker text with
    | none => (session, .endMarkerNotFound endMarker)
    | some endIdx =>
      let contentStart := startIdx + marker.length
      if contentStart > endIdx ∨ endIdx > text.length then (session, .panic)
      else
        let translated := trimSpace (slice text contentStart endIdx)
        match session.ChunkIndices[i]? with
        | none => (session, .panic)
        | some chunkIdx =>
          match session.Tokens[chunkIdx]? with
          | none => (session, .panic)
          | some tok =>
            let stored := restoreEdges tok.Value translated
            if i < session.Translations.length then
              ({ session with Translations := session.Translations.set i stored }, .ok)
            else (session, .panic)

/-- The loop `for i := partRange[0]; i < partRange[1]; i++` over the listed
unit indices; it stops at the first iteration that does not end normally. -/
def parseUnits (text : Str) : List Nat → BulkTranslationSession →
    BulkTranslationSession × ParseOutcome
  | [], session => (session, .ok)
  | i :: rest, session =>
    match parseUnit text session i with
    | (session1, .ok) => parseUnits text rest session1
    | r => r

/-- Function `parseBulkTranslation`: the session after the call (it is
mutated in place) and how the call ended. -/
def parseBulkTranslation (session : BulkTranslationSession) (text : Str) :
    BulkTranslationSession × ParseOutcome :=
  match session.PartRanges[session.CurrentPart]? with
  | none => (session, .panic)
  | some partRange =>
    parseUnits text (List.range' partRange.1 (partRange.2 - partRange.1)) session

/-- The block written for one unit by `generateBulkExtractResponse`:
`fmt.Sprintf("\n{{CHUNK_%03d}}\n%s\n{{/CHUNK_%03d}}\n", n, text, n)`. -/
def chunkBlock (n : Nat) (text : Str) : Str :=
  [10] ++ chunkMarker n ++ [10] ++ text ++ [10] ++ chunkEndMarker n ++ [10]

/-- The blocks of the units `i` of a list, in order, the text of unit `i`
being `body i`; unit `i` carries the number `i + 1`. -/
def chunkBlocks (body : Nat → Str) : List Nat → Str
  | [] => []
  | i :: rest => chunkBlock (i + 1) (body i) ++ chunkBlocks body rest

/-- A text that was submitted for the units of the half-open range
`[a, b)`: any header, then one block per unit in increasing order. -/
def bulkPayload (header : Str) (body : Nat → Str) (a b : Nat) : Str :=
  header ++ chunkBlocks body (List.range' a (b - a))

/-- The session invariant that the handlers rely on: the current part
exists, no part range reaches past the units, every unit has a token and a
translation slot. -/
def BulkTranslationSession.Valid (b : BulkTranslationSession) : Prop :=
  b.CurrentPart < b.PartRanges.length ∧
  (∀ r, r ∈ b.PartRanges → r.2 ≤ b.ChunkIndices.length) ∧
  (∀ idx, idx ∈ b.ChunkIndices → idx < b.Tokens.length) ∧
  b.Translations.length = b.ChunkIndices.length

/-! ## mcp_server.go: handlers -/

/-- The verb `%d` applied to an `int64`. -/
def fmtInt (z : Int) : Str :=
  if z < 0 then 45 :: fmtD z.natAbs else fmtD z.natAbs

/-- Function `getSourceDescription`. -/
def getSourceDescription (session : BulkTranslationSession) : Str :=
  if session.SourceType = utf8 "wordpress" then
    utf8 "WordPress Post ID " ++ fmtInt session.PostID
  else session.InputPath

/-- The instructions common to both headers of `generateBulkExtractResponse`,
from "INSTRUCCIONES:" to the line before "TEXTO A TRADUCIR". -/
def bulkInstructions (targetLang : Str) : Str :=
  utf8 "\n\nINSTRUCCIONES:\n1. Traduce TODO el texto a " ++ targetLang ++
  utf8 "\n2. CONSERVA los marcadores \x7b\x7bCHUNK_XXX\x7d\x7d y \x7b\x7b/CHUNK_XXX\x7d\x7d exactamente igual\n3. NO traduzcas atributos HTML (class, style, href, src, id, data-*)\n4. SI traduce atributos \"title\" y \"alt\"\n5. Conserva la estructura HTML y saltos de linea\n6. Cuando termines, usa \"submit_bulk_translation\" con el texto traducido\n\n"

/-- The header written first by `generateBulkExtractResponse`. -/
def bulkHeader (session : BulkTranslationSession) (partRange : Nat × Nat) : Str :=
  if session.Parts = 1 then
    utf8 "EXTRACCION COMPLETADA - TEXTO PARA TRADUCIR\n============================================\nOrigen: " ++
    getSourceDescription session ++ utf8 "\nIdioma destino: " ++ session.TargetLang ++
    utf8 "\nTotal de bloques: " ++ fmtD session.TotalChunks ++
    bulkInstructions session.TargetLang ++
    utf8 "TEXTO A TRADUCIR:\n=================\n"
  else
    utf8 "EXTRACCION COMPLETADA - PARTE " ++ fmtD (session.CurrentPart + 1) ++ utf8 " de " ++
    fmtD session.Parts ++ utf8 "\n======================================\nOrigen: " ++
    getSourceDescription session ++ utf8 "\nIdioma destino: " ++ session.TargetLang ++
    utf8 "\nBloques en esta parte: " ++ fmtD (partRange.1 + 1) ++ utf8 "-" ++
    fmtD partRange.2 ++ utf8 " de " ++ fmtD session.TotalChunks ++ utf8 " total" ++
    bulkInstructions session.TargetLang ++
    utf8 "TEXTO A TRADUCIR (PARTE " ++ fmtD (session.CurrentPart + 1) ++
    utf8 "):\n============================\n"

/-- The loop of `generateBulkExtractResponse` writing one block per unit of
the list; `none` is an index-out-of-range panic. -/
def extractBlocks (session : BulkTranslationSession) : List Nat → Option Str
  | [] => some []
  | i :: rest =>
    match session.ChunkIndices[i]? with
    | none => none
    | some chunkIdx =>
      match session.Tokens[chunkIdx]? with
      | none => none
      | some tok =>
        match extractBlocks session rest with
        | none => none
        | some tail => some (chunkBlock (i + 1) tok.Value ++ tail)

/-- Function `generateBulkExtractResponse`; `none` is a run-time panic. -/
def generateBulkExtractResponse (session : BulkTranslationSession) : Option Str :=
  match session.PartRanges[session.CurrentPart]? with
  | none => none
  | some partRange =>
    match extractBlocks session (List.range' partRange.1 (partRange.2 - partRange.1)) with
    | none => none
    | some blocks => some (bulkHeader session partRange ++ blocks)

/-- What the external collaborators answer during one call: the result of
`os.ReadFile`, whether `NewWordPressDB` connects, the post content and backup
path returned by `ReadPostForTranslation`, and whether `os.WriteFile` and
`UpdatePostContent` succeed. -/
structure Env where
  readFile : Option Str
  connect : Bool
  readPost : Option (Str × Str)
  writeFile : Bool
  updatePost : Bool
deriving DecidableEq, Repr

/-- The response written by a handler, by kind; the payload is the part of
the response text that depends on the session. -/
inductive Reply where
  | argumentMissing
  | readFailed
  | connectFailed
  | emptyDocument
  | noSession
  | firstChunk (total : Nat) (text : Str)
  | nextChunk (received total : Nat) (text : Str)
  | extracted (payload : Str)
  | partReceived (part : Nat) (payload : Str)
  | parseFailed (err : ParseOutcome)
  | saveFailed
  | completed (totalChunks : Nat)
deriving DecidableEq, Repr

/-- The effect of one call: the server afterwards, the response, and the
document text handed to `os.WriteFile` or `UpdatePostContent`, if any. -/
structure Step where
  server : MCPServer
  reply : Reply
  written : Option Str
deriving DecidableEq, Repr

/-- Function `getWordPressDB`: the server afterwards and whether a connection
is returned. -/
def getWordPressDB (s : MCPServer) (env : Env) : MCPServer × Bool :=
  if s.wpDB then (s, true)
  else if env.connect then ({ s with wpDB := true }, true)
  else (s, false)

/-- The loop `for i, idx := range ChunkIndices` of `saveTranslatedFile` and
`saveToWordPress`: `Tokens[idx].Value = Translations[i]`; `i` is the index of
the head and `none` an index-out-of-range panic. -/
def applyTranslations (translations : List Str) :
    List Nat → Nat → List Token → Option (List Token)
  | [], _, tokens => some tokens
  | idx :: rest, i, tokens =>
    match translations[i]?, tokens[idx]? with
    | some tr, some tok =>
      applyTranslations translations rest (i + 1) (tokens.set idx { tok with Value := tr })
    | _, _ => none

/-- The same loop in `saveBulkToFile` and `saveBulkToWordPress`, which
writes only non-empty translations. -/
def applyBulkTranslations (translations : List Str) :
    List Nat → Nat → List Token → Option (List Token)
  | [], _, tokens => some tokens
  | idx :: rest, i, tokens =>
    match translations[i]? with
    | none => none
    | some tr =>
      if tr ≠ [] then
        match tokens[idx]? with
        | some tok =>
          applyBulkTranslations translations rest (i + 1)
            (tokens.set idx { tok with Value := tr })
        | none => none
      else applyBulkTranslations translations rest (i + 1) tokens

/-- Function `saveTranslatedFile`, on the session held by the server. -/
def saveTranslatedFile (s : MCPServer) (session : TranslationSession) (env : Env) :
    Option Step :=
  match applyTranslations session.Translations session.ChunkIndices 0 session.Tokens with
  | none => none
  | some tokens =>
    let result := dropEmptyPTags (rebuild tokens)
    if env.writeFile then
      some ⟨{ s with session := none }, .completed session.TotalChunks, some result⟩
    else
      some ⟨{ s with session := some { session with Tokens := tokens } }, .saveFailed,
        some result⟩

/-- Function `saveToWordPress`, on the session held by the server. -/
def saveToWordPress (s : MCPServer) (session : TranslationSession) (env : Env) :
    Option Step :=
  match applyTranslations session.Translations session.ChunkIndices 0 session.Tokens with
  | none => none
  | some tokens =>
    let result := dropEmptyPTags (rebuild tokens)
    let s1 : MCPServer := { s with session := some { session with Tokens := tokens } }
    match getWordPressDB s1 env with
    | (s2, false) => some ⟨s2, .saveFailed, none⟩
    | (s2, true) =>
      if env.updatePost then
        some ⟨{ s2 with session := none }, .completed session.TotalChunks, some result⟩
      else some ⟨s2, .saveFailed, some result⟩

/-- Function `handleSubmitTranslation` with argument `translatedText`;
`none` is a run-time panic. -/
def handleSubmitTranslation (s : MCPServer) (translatedText : Str) (env : Env) :
    Option Step :=
  match s.session with
  | none => some ⟨s, .noSession, none⟩
  | some session =>
    if translatedText = [] then some ⟨s, .argumentMissing, none⟩
    else if session.CurrentChunk < session.Translations.length then
      let session1 : TranslationSession :=
        { session with
          Translations := session.Translations.set session.CurrentChunk translatedText
          CurrentChunk := session.CurrentChunk + 1 }
      if session1.CurrentChunk ≥ session1.TotalChunks then
        if session1.SourceType = utf8 "wordpress" then saveToWordPress s session1 env
        else saveTranslatedFile s session1 env
      else
        match session1.TextChunks[session1.CurrentChunk]? with
        | none => none
        | some nextChunk =>
          some ⟨{ s with session := some session1 },
            .nextChunk session1.CurrentChunk session1.TotalChunks nextChunk, none⟩
    else none

/-- The end of both start handlers: the response after `initSession`. -/
def replyAfterInit (s : MCPServer) : Option Step :=
  match s.session with
  | none => some ⟨s, .emptyDocument, none⟩
  | some session =>
    match session.TextChunks[0]? with
    | none => none
    | some chunk => some ⟨s, .firstChunk session.TotalChunks chunk, none⟩

/-- Function `handleStartTranslation` with its three arguments. -/
def handleStartTranslation (s : MCPServer) (inputPath outputPath targetLang : Str)
    (env : Env) : Option Step :=
  if inputPath = [] ∨ outputPath = [] ∨ targetLang = [] then
    some ⟨s, .argumentMissing, none⟩
  else
    match env.readFile with
    | none => some ⟨s, .readFailed, none⟩
    | some data =>
      replyAfterInit (initSession s data targetLang (utf8 "file") inputPath outputPath 0 [])

/-- Function `handleStartWordPressTranslation` with its two arguments. -/
def handleStartWordPressTranslation (s : MCPServer) (postID : Int) (targetLang : Str)
    (env : Env) : Option Step :=
  if postID = 0 ∨ targetLang = [] then some ⟨s, .argumentMissing, none⟩
  else
    match getWordPressDB s env with
    | (s1, false) => some ⟨s1, .connectFailed, none⟩
    | (s1, true) =>
      match env.readPost with
      | none => some ⟨s1, .readFailed, none⟩
      | some (content, backupPath) =>
        replyAfterInit
          (initSession s1 content targetLang (utf8 "wordpress") [] [] postID backupPath)

/-- Function `saveBulkToFile`, on the session held by the server. -/
def saveBulkToFile (s : MCPServer) (session : BulkTranslationSession) (env : Env) :
    Option Step :=
  match applyBulkTranslations session.Translations session.ChunkIndices 0 session.Tokens with
  | none => none
  | some tokens =>
    let result := dropEmptyPTags (rebuild tokens)
    if env.writeFile then
      some ⟨{ s with bulkSession := none }, .completed session.TotalChunks, some result⟩
    else
      some ⟨{ s with bulkSession := some { session with Tokens := tokens } }, .saveFailed,
        some result⟩

/-- Function `saveBulkToWordPress`, on the session held by the server. -/
def saveBulkToWordPress (s : MCPServer) (session : BulkTranslationSession) (env : Env) :
    Option Step :=
  match applyBulkTranslations session.Translations session.ChunkIndices 0 session.Tokens with
  | none => none
  | some tokens =>
    let result := dropEmptyPTags (rebuild tokens)
    let s1 : MCPServer := { s with bulkSession := some { session with Tokens := tokens } }
    match getWordPressDB s1 env with
    | (s2, false) => some ⟨s2, .saveFailed, none⟩
    | (s2, true) =>
      if env.updatePost then
        some ⟨{ s2 with bulkSession := none }, .completed session.TotalChunks, some result⟩
      else some ⟨s2, .saveFailed, some result⟩

/-- Function `handleSubmitBulkTranslation` with argument `translatedText`;
`none` is a run-time panic. -/
def handleSubmitBulkTranslation (s : MCPServer) (translatedText : Str) (env : Env) :
    Option Step :=
  match s.bulkSession with
  | none => some ⟨s, .noSession, none⟩
  | some session =>
    if translatedText = [] then some ⟨s, .argumentMissing, none⟩
    else
      match parseBulkTranslation session translatedText with
      | (_, .panic) => none
      | (session1, .ok) =>
        let session2 : BulkTranslationSession :=
          { session1 with CurrentPart := session1.CurrentPart + 1 }
        if session2.CurrentPart < session2.Parts then
          match generateBulkExtractResponse session2 with
          | none => none
          | some response =>
            some ⟨{ s with bulkSession := some session2 },
              .partReceived session2.CurrentPart response, none⟩
        else if session2.SourceType = utf8 "wordpress" then
          saveBulkToWordPress s session2 env
        else saveBulkToFile s session2 env
      | (session1, err) =>
        some ⟨{ s with bulkSession := some session1 }, .parseFailed err, none⟩

/-- The end of both extract handlers: the response after `initBulkSession`. -/
def replyAfterBulkInit (s : MCPServer) : Option Step :=
  match s.bulkSession with
  | none => some ⟨s, .emptyDocument, none⟩
  | some session =>
    match generateBulkExtractResponse session with
    | none => none
    | some response => some ⟨s, .extracted response, none⟩

/-- Function `handleExtractDiviText` with its three arguments. -/
def handleExtractDiviText (s : MCPServer) (inputPath outputPath targetLang : Str)
    (env : Env) : Option Step :=
  if inputPath = [] ∨ outputPath = [] ∨ targetLang = [] then
    some ⟨s, .argumentMissing, none⟩
  else
    match env.readFile with
    | none => some ⟨s, .readFailed, none⟩
    | some data =>
      replyAfterBulkInit
        (initBulkSession s data targetLang (utf8 "file") inputPath outputPath 0 [])

/-- Function `handleExtractWordPressText` with its two arguments. -/
def handleExtractWordPressText (s : MCPServer) (postID : Int) (targetLang : Str)
    (env : Env) : Option Step :=
  if postID = 0 ∨ targetLang = [] then some ⟨s, .argumentMissing, none⟩
  else
    match getWordPressDB s env with
    | (s1, false) => some ⟨s1, .connectFailed, none⟩
    | (s1, true) =>
      match env.readPost with
      | none => some ⟨s1, .readFailed, none⟩
      | some (content, backupPath) =>
        replyAfterBulkInit
          (initBulkSession s1 content targetLang (utf8 "wordpress") [] [] postID backupPath)

/-- A server holding the bulk session `demoBulk`. -/
def demoServer : MCPServer := ⟨none, some demoBulk, false⟩

/-- Every collaborator succeeds; the file read returns `demoContent`. -/
def demoEnv : Env := ⟨some demoContent, true, none, true, true⟩

/-- The session with its translation slots blanked: two sessions with the
same `frame` differ at most in `Translations`. -/
def BulkTranslationSession.frame (b : BulkTranslationSession) : BulkTranslationSession :=
  { b with Translations := [] }

/-- A submitted text in which the closing marker of unit 1 comes before its
opening marker, and the markers of unit 2 are absent. -/
def reversedMarkers : Str := chunkEndMarker 1 ++ chunkMarker 1

/-- A submitted text that holds the block of unit 1 only. -/
def firstBlockOnly : Str := chunkMarker 1 ++ utf8 "Hola" ++ chunkEndMarker 1

/-- The original text of unit `i` of a bulk session:
`session.Tokens[session.ChunkIndices[i]].Value`. -/
def originalText (b : BulkTranslationSession) (i : Nat) : Str :=
  match b.ChunkIndices[i]? with
  | some chunkIdx => tokenValue b.Tokens chunkIdx
  | none => []

/-- The number written by a string of decimal digits. -/
def decodeDigits (s : Str) : Nat := s.foldl (fun a b => a * 10 + (b - 48)) 0

/-- A header for a submitted text. -/
def demoHeader : Str := utf8 "TEXTO TRADUCIDO:\n"

/-- Replacement bodies for the two units of `demoBulk`. -/
def demoBodies (i : Nat) : Str := if i = 0 then utf8 "  Hola " else utf8 "Mundo\n"

/-! ## Legacy flow: a start call followed by submit calls -/

/-- The texts of the units of a document, in order. -/
def unitTexts (content : Str) : List Str :=
  ((tokenize content).filter isUnit).map (fun t => t.Value)

/-- The tokens in which the value of the i-th unit is replaced by the i-th
text and every other token is kept; a unit without a text is kept. -/
def substituteUnits : List Token → List Str → List Token
  | [], _ => []
  | t :: ts, texts =>
    if isUnit t then
      match texts with
      | x :: xs => { t with Value := x } :: substituteUnits ts xs
      | [] => t :: substituteUnits ts []
    else t :: substituteUnits ts texts

/-- A sequence of `submit_translation` calls, each with the submitted text
and the answers of the collaborators during that call; the result lists the
effect of every call, `none` if one of them panics. -/
def runSubmits (s : MCPServer) : List (Str × Env) → Option (List Step)
  | [] => some []
  | (text, env) :: rest =>
    match handleSubmitTranslation s text env with
    | none => none
    | some st =>
      match runSubmits st.server rest with
      | none => none
      | some steps => some (st :: steps)

/-- A legacy session on the document `content` has just been started: the
step `st` is the effect of `handleStartTranslation` on a file holding
`content`, or of `handleStartWordPressTranslation` on a post holding it, and
the response shows the first chunk. -/
def LegacyStarted (content : Str) (st : Step) : Prop :=
  (∃ total chunk, st.reply = .firstChunk total chunk) ∧
  ((∃ s inputPath outputPath targetLang env, env.readFile = some content ∧
      handleStartTranslation s inputPath outputPath targetLang env = some st) ∨
   (∃ s postID targetLang env backupPath, env.readPost = some (content, backupPath) ∧
      handleStartWordPressTranslation s postID targetLang env = some st))

/-- The document of Scenario A. -/
def helloDoc : Str := utf8 "[et_pb_text]Hello[/et_pb_text]"

/-- The collaborators during the start call of Scenario A: the file read
returns `helloDoc`. -/
def helloEnv : Env := ⟨some helloDoc, false, none, true, true⟩

/-- The effect of `start_divi_translation` on `helloDoc` from the idle
server. -/
def helloStart : Step :=
  ⟨initSession idleServer helloDoc (utf8 "es") (utf8 "file") (utf8 "in.txt") (utf8 "out.txt") 0 [],
    .firstChunk 1 (utf8 "Hello"), none⟩

/-! ## Reassembly at finalization -/

/-- The tokens in which the value of the i-th unit is the i-th translation
when that translation is not empty, and every other token (a unit with an
empty or missing translation, a token that is not a unit) is kept. -/
def mergeUnits : List Token → List Str → List Token
  | [], _ => []
  | t :: ts, translations =>
    if isUnit t then
      match translations with
      | x :: xs => (if x ≠ [] then { t with Value := x } else t) :: mergeUnits ts xs
      | [] => t :: mergeUnits ts []
    else t :: mergeUnits ts translations

/-- The unit bookkeeping of a bulk session before finalization:
`ChunkIndices` lists the units of `Tokens` and there is one translation slot
per unit. -/
def BulkTranslationSession.Aligned (b : BulkTranslationSession) : Prop :=
  b.ChunkIndices = collectChunkIndices b.Tokens 0 ∧
  b.Translations.length = b.ChunkIndices.length

/-- The same bookkeeping for a legacy session. -/
def TranslationSession.Aligned (t : TranslationSession) : Prop :=
  t.ChunkIndices = collectChunkIndices t.Tokens 0 ∧
  t.Translations.length = t.ChunkIndices.length

/-- Token list `ts2` has the tokens of `ts1` in the same number and order,
with the same kinds, and differs from it at most in the values of units. -/
def SameStructure (ts1 ts2 : List Token) : Prop :=
  List.Forall₂ (fun t1 t2 => t2.Kind = t1.Kind ∧ (isUnit t1 = false → t2 = t1)) ts1 ts2

/-- The session `demoBulk` after its single part was submitted with a
translation for unit 1 and none for unit 2. -/
def demoBulkDone : BulkTranslationSession :=
  { demoBulk with Translations := [utf8 "Hola", []], CurrentPart := 1 }

/-- Every collaborator fails. -/
def failEnv : Env := ⟨none, false, none, false, false⟩

/-- A submitted text with a block for each of the two units of `demoBulk`. -/
def demoPayload : Str := bulkPayload demoHeader demoBodies 0 2

/-! ## White-space edges -/

/-- The stored translation as the specification words it: `pre ++ T ++ post`
where `pre` is a line break if the original starts with one and `T` does
not, and `post` is a line break if the original ends with one and `T` does
not. -/
def edgesAsClaimed (original trimmed : Str) : Str :=
  (if hasPrefix original [10] && !hasPrefix trimmed [10] then [10] else []) ++ trimmed ++
  (if hasSuffix original [10] && !hasSuffix trimmed [10] then [10] else [])

/-- A document whose single unit starts and ends with a line break. -/
def edgeDoc : Str := utf8 "[et_pb_text]\nHello\n[/et_pb_text]"

/-- The bulk session that `initBulkSession` creates for `edgeDoc`. -/
def edgeBulk : BulkTranslationSession where
  SourceType := utf8 "file"
  InputPath := utf8 "in.txt"
  OutputPath := utf8 "out.txt"
  PostID := 0
  BackupPath := []
  TargetLang := utf8 "es"
  Tokens := [⟨kindShortcode, utf8 "[et_pb_text]"⟩, ⟨kindText, utf8 "\nHello\n"⟩,
    ⟨kindShortcode, utf8 "[/et_pb_text]"⟩]
  ChunkIndices := [1]
  TotalChunks := 1
  Parts := 1
  CurrentPart := 0
  PartRanges := [(0, 1)]
  Translations := [[]]

/-- A submitted text whose body for unit 1 is a single blank. -/
def blankBody : Str := chunkMarker 1 ++ utf8 " " ++ chunkEndMarker 1

/-- A document whose shortcode carries an empty paragraph in an attribute. -/
def tagDoc : Str := utf8 "[et_pb_text title=\"<p></p>\"]Hello"

/-- The collaborators during the start call on `tagDoc`. -/
def tagEnv : Env := ⟨some tagDoc, false, none, true, true⟩

/-- The legacy session on `helloDoc` when its only unit has been submitted. -/
def helloSessionDone : TranslationSession where
  SourceType := utf8 "file"
  InputPath := utf8 "in.txt"
  OutputPath := utf8 "out.txt"
  PostID := 0
  BackupPath := []
  TargetLang := utf8 "es"
  Tokens := tokenize helloDoc
  TextChunks := [utf8 "Hello"]
  ChunkIndices := [1]
  Translations := [utf8 "Hola"]
  CurrentChunk := 1
  TotalChunks := 1

/-- A document of `n` units: the block "x[et_]" written `n` times. -/
def unitBlocks : Nat → Str
  | 0 => []
  | n + 1 => utf8 "x[et_]" ++ unitBlocks n

/-- The tokens of `unitBlocks n`: the unit "x" and the shortcode "[et_]",
`n` times. -/
def unitBlockTokens : Nat → List Token
  | 0 => []
  | n + 1 => ⟨kindText, utf8 "x"⟩ :: ⟨kindShortcode, utf8 "[et_]"⟩ :: unitBlockTokens n

/-- The collaborators of a WordPress session on `helloDoc` whose update
fails: the connection opens and the post is read, `UpdatePostContent` fails. -/
def wpFailEnv : Env := ⟨none, true, some (helloDoc, utf8 "backup.html"), false, false⟩

/-- Replacement bodies of one blank. -/
def blankBodies (_ : Nat) : Str := utf8 " "

/-- Replacement bodies with a blank on either side of the text. -/
def paddedBodies (_ : Nat) : Str := utf8 " Hola "

/-! ## Lemmas: strings -/

theorem stringsIndex_le (sub : Str) : ∀ (s : Str) (k : Nat),
    stringsIndex sub s = some k → k ≤ s.length := by
  intro s
  induction s with
  | nil =>
    intro k h
    simp only [stringsIndex] at h
    split at h
    · cases h; simp
    · cases h
  | cons c t ih =>
    intro k h
    simp only [stringsIndex] at h
    split at h
    · cases h; simp
    · cases hr : stringsIndex sub t with
      | none => simp [hr] at h
      | some j =>
        simp [hr] at h
        have := ih j hr
        subst h
        simp
        exact this

theorem stringsIndexByte_lt (c : Nat) : ∀ (s : Str) (k : Nat),
    stringsIndexByte c s = some k → k < s.length := by
  intro s
  induction s with
  | nil => intro k h; simp [stringsIndexByte] at h
  | cons b t ih =>
    intro k h
    simp only [stringsIndexByte] at h
    split at h
    · cases h; simp
    · cases hr : stringsIndexByte c t with
      | none => simp [hr] at h
      | some j =>
        simp [hr] at h
        have := ih j hr
        subst h
        simp
        exact this

theorem firstDelim_some {o c : Option Nat} {k : Nat} (h : firstDelim o c = some k) :
    o = some k ∨ c = some k := by
  unfold firstDelim at h
  split at h
  · split at h
    · left; exact congrArg _ (Option.some.inj h)
    · right; exact congrArg _ (Option.some.inj h)
  · left; exact h
  · right; exact h
  · cases h

theorem slice_append_drop (s : Str) {a b : Nat} (hab : a ≤ b) :
    slice s a b ++ s.drop b = s.drop a := by
  have h : s.drop b = (s.drop a).drop (b - a) := by
    rw [List.drop_drop]; congr 1; omega
  rw [slice, h, List.take_append_drop]

/-! ## Lemmas: tokenizer -/

theorem rebuild_foldl (acc : Str) (tokens : List Token) :
    tokens.foldl (fun b t => b ++ t.Value) acc
      = acc ++ tokens.foldl (fun b t => b ++ t.Value) [] := by
  induction tokens generalizing acc with
  | nil => simp
  | cons t ts ih =>
    simp only [List.foldl_cons, List.nil_append]
    rw [ih (acc ++ t.Value), ih t.Value, List.append_assoc]

theorem rebuild_append (xs ys : List Token) :
    rebuild (xs ++ ys) = rebuild xs ++ rebuild ys := by
  unfold rebuild
  rw [List.foldl_append, rebuild_foldl]

theorem rebuild_singleton (t : Token) : rebuild [t] = t.Value := by
  simp [rebuild]

theorem rebuild_nil : rebuild [] = [] := rfl

theorem rebuild_tokenizeLoop (input : Str) : ∀ (fuel i : Nat) (tokens : List Token),
    i ≤ input.length → input.length - i < fuel →
    rebuild (tokenizeLoop input fuel i tokens) = rebuild tokens ++ input.drop i := by
  intro fuel
  induction fuel with
  | zero => intro i tokens _ h; omega
  | succ fuel ih =>
    intro i tokens hi hfuel
    unfold tokenizeLoop
    by_cases hlt : i < input.length
    · simp only [hlt, if_true]
      cases hd : firstDelim (stringsIndex openDelim (input.drop i))
          (stringsIndex closeDelim (input.drop i)) with
      | none => simp [rebuild_append, rebuild_singleton]
      | some rel =>
        have hrel : rel ≤ (input.drop i).length := by
          rcases firstDelim_some hd with h | h
          · exact stringsIndex_le _ _ _ h
          · exact stringsIndex_le _ _ _ h
        rw [List.length_drop] at hrel
        have hpre : rebuild (if rel + i > i then tokens ++ [⟨kindText, slice input i (rel + i)⟩]
            else tokens) ++ input.drop (rel + i) = rebuild tokens ++ input.drop i := by
          by_cases hpos : rel + i > i
          · simp only [hpos, if_true, rebuild_append, rebuild_singleton, List.append_assoc]
            rw [slice_append_drop input (by omega)]
          · have : rel = 0 := by omega
            simp [this]
        simp only []
        cases he : stringsIndexByte 93 (input.drop (rel + i)) with
        | none =>
          simp only [rebuild_append, rebuild_singleton]
          exact hpre
        | some e =>
          have hel := stringsIndexByte_lt _ _ _ he
          rw [List.length_drop] at hel
          simp only []
          rw [ih (e + (rel + i) + 1) _ (by omega) (by omega)]
          rw [rebuild_append, rebuild_singleton, List.append_assoc,
            slice_append_drop input (by omega)]
          exact hpre
    · have : input.length ≤ i := by omega
      simp [hlt, List.drop_eq_nil_of_le this]

/-! ## Lemmas: bulk session initialisation -/

theorem numberOfParts_cases (t : Nat) :
    numberOfParts t = 1 ∨ numberOfParts t = 2 ∨ numberOfParts t = 3 := by
  unfold numberOfParts
  split
  · right; right; rfl
  · split
    · right; left; rfl
    · left; rfl

theorem computePartRanges_one (n : Nat) : computePartRanges n 1 = [(0, n)] := by
  simp [computePartRanges, List.range_succ]

theorem computePartRanges_two (n : Nat) :
    computePartRanges n 2
      = [(0, if (n + 1) / 2 > n then n else (n + 1) / 2),
         ((n + 1) / 2, if (n + 1) / 2 + (n + 1) / 2 > n then n
            else (n + 1) / 2 + (n + 1) / 2)] := by
  simp [computePartRanges, List.range_succ]

theorem computePartRanges_three (n : Nat) :
    computePartRanges n 3
      = [(0, if (n + 2) / 3 > n then n else (n + 2) / 3),
         ((n + 2) / 3, if (n + 2) / 3 + (n + 2) / 3 > n then n
            else (n + 2) / 3 + (n + 2) / 3),
         (2 * ((n + 2) / 3), if 2 * ((n + 2) / 3) + (n + 2) / 3 > n then n
            else 2 * ((n + 2) / 3) + (n + 2) / 3)] := by
  simp [computePartRanges, List.range_succ]

theorem initBulkSession_some {s : MCPServer}
    {content targetLang sourceType inputPath outputPath : Str} {postID : Int}
    {backupPath : Str} {b : BulkTranslationSession}
    (h : (initBulkSession s content targetLang sourceType inputPath outputPath postID
      backupPath).bulkSession = some b) :
    (collectChunkIndices (tokenize content) 0).length ≠ 0 ∧
    b.Tokens = tokenize content ∧
    b.ChunkIndices = collectChunkIndices (tokenize content) 0 ∧
    b.TotalChunks = (collectChunkIndices (tokenize content) 0).length ∧
    b.Parts = numberOfParts (totalLength (tokenize content)
      (collectChunkIndices (tokenize content) 0)) ∧
    b.CurrentPart = 0 ∧
    b.PartRanges = computePartRanges b.TotalChunks b.Parts ∧
    b.Translations = List.replicate b.TotalChunks [] := by
  unfold initBulkSession at h
  by_cases hz : (collectChunkIndices (tokenize content) 0).length = 0
  · simp [hz] at h
  · simp only [hz, if_false] at h
    have hb := Option.some.inj h
    subst hb
    exact ⟨hz, rfl, rfl, rfl, rfl, rfl, rfl, rfl⟩

theorem inPart_iff (b : BulkTranslationSession) (p k : Nat) :
    inPart b p k = true ↔ ∃ r, b.PartRanges[p]? = some r ∧ r.1 ≤ k ∧ k < r.2 := by
  unfold inPart
  cases b.PartRanges[p]? with
  | none => simp
  | some r => simp


theorem isPrefixOf_cons_of_ne (c a : Nat) (r t : Str) (h : a ≠ c) :
    (c :: r).isPrefixOf (a :: t) = false := by
  simp [List.isPrefixOf, Ne.symm h]

theorem stringsIndex_none_of_not_mem (c : Nat) (r : Str) : ∀ (s : Str), c ∉ s →
    stringsIndex (c :: r) s = none := by
  intro s
  induction s with
  | nil => intro _; simp [stringsIndex, List.isPrefixOf]
  | cons a t ih =>
    intro h
    have ha : a ≠ c := fun e => h (by simp [e])
    have ht : c ∉ t := fun e => h (List.mem_cons_of_mem _ e)
    simp [stringsIndex, isPrefixOf_cons_of_ne c a r t ha, ih ht]

theorem openDelim_eq : openDelim = [91, 101, 116, 95] := by decide

theorem closeDelim_eq : closeDelim = [91, 47, 101, 116, 95] := by decide

theorem tokenize_plain (s : Str) (hs : s ≠ []) (h : 91 ∉ s) :
    tokenize s = [⟨kindText, s⟩] := by
  have hlen : 0 < s.length := List.length_pos.mpr hs
  unfold tokenize tokenizeLoop
  simp only [hlen, if_true, List.drop_zero]
  rw [openDelim_eq, closeDelim_eq, stringsIndex_none_of_not_mem 91 _ s h,
    stringsIndex_none_of_not_mem 91 _ s h]
  simp [firstDelim]

theorem trimLeftLoop_plain (fuel b : Nat) (t : Str) (h1 : 32 < b) (h2 : b < 128) :
    trimLeftLoop fuel (b :: t) = b :: t := by
  cases fuel with
  | zero => rfl
  | succ f =>
    have : spaceRunes.find? (fun w => w.isPrefixOf (b :: t)) = none := by
      rw [List.find?_eq_none]
      intro w hw
      simp only [spaceRunes, List.mem_cons, List.mem_singleton] at hw
      rcases hw with rfl | rfl | rfl | rfl | rfl | rfl | rfl | rfl | rfl | rfl | rfl | rfl | rfl
        | rfl | rfl | rfl | rfl | rfl | rfl | rfl | rfl | rfl | rfl | rfl | rfl | hw
      all_goals first
        | (simp [List.isPrefixOf]; omega)
        | simp at hw
    simp [trimLeftLoop, this]

theorem trimRightLoop_plain (fuel c : Nat) (t : Str) (h1 : 32 < c) (h2 : c < 128) :
    trimRightLoop fuel (t ++ [c]) = t ++ [c] := by
  cases fuel with
  | zero => rfl
  | succ f =>
    have : spaceRunes.find? (fun w => w.isSuffixOf (t ++ [c])) = none := by
      rw [List.find?_eq_none]
      intro w hw
      simp only [spaceRunes, List.mem_cons, List.mem_singleton] at hw
      rcases hw with rfl | rfl | rfl | rfl | rfl | rfl | rfl | rfl | rfl | rfl | rfl | rfl | rfl
        | rfl | rfl | rfl | rfl | rfl | rfl | rfl | rfl | rfl | rfl | rfl | rfl | hw
      all_goals first
        | (simp [List.isSuffixOf, List.isPrefixOf]; omega)
        | simp at hw
    simp [trimRightLoop, this]

theorem trimSpace_plain (b c : Nat) (m : Str) (hb1 : 32 < b) (hb2 : b < 128)
    (hc1 : 32 < c) (hc2 : c < 128) :
    trimSpace (b :: (m ++ [c])) = b :: (m ++ [c]) := by
  unfold trimSpace
  simp only [trimLeftLoop_plain _ b _ hb1 hb2]
  rw [← List.cons_append, trimRightLoop_plain _ c _ hc1 hc2]

theorem totalLength_acc (tokens : List Token) (l : List Nat) (a : Nat) :
    l.foldl (fun total idx => total + (tokenValue tokens idx).length) a
      = a + totalLength tokens l := by
  unfold totalLength
  induction l generalizing a with
  | nil => simp
  | cons i l ih => simp only [List.foldl_cons]; rw [ih, ih (0 + _)]; omega

theorem totalLength_cons (tokens : List Token) (i : Nat) (l : List Nat) :
    totalLength tokens (i :: l) = (tokenValue tokens i).length + totalLength tokens l := by
  rw [totalLength, List.foldl_cons, totalLength_acc]; omega

theorem tokenValue_append (pre : List Token) (t : Token) (ts : List Token) :
    tokenValue (pre ++ t :: ts) pre.length = t.Value := by
  have h : (pre ++ t :: ts)[pre.length]? = some t := by
    rw [List.getElem?_append_right (Nat.le_refl _)]
    simp
  simp [tokenValue, h]

theorem collectChunkIndices_length (ts : List Token) : ∀ i,
    (collectChunkIndices ts i).length = (ts.filter isUnit).length := by
  induction ts with
  | nil => intro i; rfl
  | cons t ts ih =>
    intro i
    by_cases hu : isUnit t = true
    · simp [collectChunkIndices, hu, ih]
    · simp [collectChunkIndices, hu, ih]

theorem totalLength_collect (ts : List Token) : ∀ pre : List Token,
    totalLength (pre ++ ts) (collectChunkIndices ts pre.length)
      = ((ts.filter isUnit).map (fun t => t.Value.length)).sum := by
  induction ts with
  | nil => intro pre; simp [collectChunkIndices, totalLength]
  | cons t ts ih =>
    intro pre
    have hstep := ih (pre ++ [t])
    simp only [List.append_assoc, List.singleton_append, List.length_append,
      List.length_singleton] at hstep
    by_cases hu : isUnit t = true
    · simp only [collectChunkIndices, hu, if_true, totalLength_cons, tokenValue_append,
        List.filter_cons_of_pos, List.map_cons, List.sum_cons, hstep]
    · simp only [collectChunkIndices, hu, List.filter_cons_of_neg,
        hstep, Bool.false_eq_true, if_false, not_false_eq_true]

theorem totalLength_tokenize (content : Str) :
    totalLength (tokenize content) (collectChunkIndices (tokenize content) 0)
      = unitsTotal content := by
  have := totalLength_collect (tokenize content) []
  simpa [unitsTotal] using this

theorem tokenize_replicate (n : Nat) :
    tokenize (List.replicate (n + 2) 120) = [⟨kindText, List.replicate (n + 2) 120⟩] := by
  apply tokenize_plain
  · simp [List.replicate_succ]
  · simp [List.mem_replicate]

theorem isUnit_replicate (n : Nat) :
    isUnit ⟨kindText, List.replicate (n + 2) 120⟩ = true := by
  have h : List.replicate (n + 2) 120 = 120 :: (List.replicate n 120 ++ [120]) := by
    rw [List.replicate_succ, List.replicate_succ']
  have ht := trimSpace_plain 120 120 (List.replicate n 120) (by omega) (by omega)
    (by omega) (by omega)
  simp only [isUnit, decide_True, Bool.true_and, decide_eq_true_eq]
  rw [h, ht]
  simp

theorem unitsTotal_replicate (n : Nat) : unitsTotal (List.replicate (n + 2) 120) = n + 2 := by
  simp [unitsTotal, tokenize_replicate, isUnit_replicate]

theorem unitsCount_replicate (n : Nat) : unitsCount (List.replicate (n + 2) 120) = 1 := by
  simp [unitsCount, tokenize_replicate, isUnit_replicate]

theorem initBulkSession_of_units (s : MCPServer)
    (content targetLang sourceType inputPath outputPath : Str) (postID : Int)
    (backupPath : Str) (hunits : 1 ≤ unitsCount content) :
    ∃ b, (initBulkSession s content targetLang sourceType inputPath outputPath postID
        backupPath).bulkSession = some b ∧
      b.TotalChunks = unitsCount content ∧
      b.Parts = numberOfParts (unitsTotal content) ∧
      b.PartRanges = computePartRanges (unitsCount content) (numberOfParts (unitsTotal content)) := by
  have hlen : (collectChunkIndices (tokenize content) 0).length = unitsCount content :=
    collectChunkIndices_length _ _
  have hz : ¬ (collectChunkIndices (tokenize content) 0).length = 0 := by omega
  unfold initBulkSession
  simp only [hz, if_false]
  refine ⟨_, rfl, ?_, ?_, ?_⟩
  · exact hlen
  · simp only [totalLength_tokenize]
  · simp only [totalLength_tokenize, hlen]

theorem replacer_length_le (pats : List Str) : ∀ (fuel : Nat) (s : Str),
    (replacerReplace (pats.map (fun q => (q, []))) fuel s).length ≤ s.length := by
  intro fuel
  induction fuel with
  | zero => intro s; simp [replacerReplace]
  | succ f ih =>
    intro s
    cases s with
    | nil => simp [replacerReplace]
    | cons c t =>
      simp only [replacerReplace]
      cases hf : (pats.map (fun q => (q, ([] : Str)))).find? (fun p => p.1.isPrefixOf (c :: t)) with
      | none =>
        simp only [List.length_cons]
        have := ih t
        omega
      | some p =>
        have hmem := List.mem_of_find?_eq_some hf
        rw [List.mem_map] at hmem
        obtain ⟨q, -, rfl⟩ := hmem
        simp only [List.nil_append]
        have := ih ((c :: t).drop q.length)
        rw [List.length_drop] at this
        omega

theorem replacer_length_lt (pats : List Str) (hne : ∀ q ∈ pats, q ≠ []) : ∀ (fuel : Nat) (s : Str),
    s.length ≤ fuel → (∃ q ∈ pats, q <:+: s) →
    (replacerReplace (pats.map (fun q => (q, []))) fuel s).length < s.length := by
  intro fuel
  induction fuel with
  | zero =>
    intro s hs ⟨q, hq, hin⟩
    have : s = [] := List.length_eq_zero.mp (by omega)
    subst this
    exact absurd (List.infix_nil.mp hin) (hne q hq)
  | succ f ih =>
    intro s hs ⟨q, hq, hin⟩
    cases s with
    | nil => exact absurd (List.infix_nil.mp hin) (hne q hq)
    | cons c t =>
      simp only [replacerReplace]
      cases hf : (pats.map (fun q => (q, ([] : Str)))).find? (fun p => p.1.isPrefixOf (c :: t)) with
      | none =>
        rw [List.find?_eq_none] at hf
        rcases List.infix_cons_iff.mp hin with hpre | hinf
        · exfalso
          have := hf (q, []) (List.mem_map.mpr ⟨q, hq, rfl⟩)
          simp only [List.isPrefixOf_iff_prefix] at this
          exact this hpre
        · have := ih t (by simpa using hs) ⟨q, hq, hinf⟩
          simp only [List.length_cons]
          omega
      | some p =>
        have hmem := List.mem_of_find?_eq_some hf
        rw [List.mem_map] at hmem
        obtain ⟨r, hr, rfl⟩ := hmem
        simp only [List.nil_append]
        have h1 := replacer_length_le pats f ((c :: t).drop r.length)
        rw [List.length_drop] at h1
        have h2 : 0 < r.length := List.length_pos.mpr (hne r hr)
        simp only [List.length_cons] at h1 ⊢
        omega

theorem replacer_fixed (pats : List Str) : ∀ (fuel : Nat) (s : Str),
    (∀ q ∈ pats, ¬ q <:+: s) →
    replacerReplace (pats.map (fun q => (q, []))) fuel s = s := by
  intro fuel
  induction fuel with
  | zero => intro s _; rfl
  | succ f ih =>
    intro s hno
    cases s with
    | nil => rfl
    | cons c t =>
      simp only [replacerReplace]
      cases hf : (pats.map (fun q => (q, ([] : Str)))).find? (fun p => p.1.isPrefixOf (c :: t)) with
      | none =>
        simp only
        rw [ih t (fun q hq hin => hno q hq (List.infix_cons hin))]
      | some p =>
        exfalso
        have hmem := List.mem_of_find?_eq_some hf
        rw [List.mem_map] at hmem
        obtain ⟨r, hr, rfl⟩ := hmem
        have hp := List.find?_some hf
        simp only [List.isPrefixOf_iff_prefix] at hp
        exact hno r hr hp.isInfix

theorem emptyPTags_ne_nil : ∀ q ∈ emptyPTags, q ≠ [] := by decide

theorem dropEmptyPTags_fixed_iff (t : Str) :
    dropEmptyPTags t = t ↔ ∀ q ∈ emptyPTags, ¬ q <:+: t := by
  constructor
  · intro h q hq hin
    have := replacer_length_lt emptyPTags emptyPTags_ne_nil t.length t (Nat.le_refl _)
      ⟨q, hq, hin⟩
    unfold dropEmptyPTags at h
    rw [h] at this
    omega
  · intro h
    exact replacer_fixed emptyPTags _ t h

/-! ## Lemmas: the parse loop -/

theorem parseUnit_frame (text : Str) (s : BulkTranslationSession) (i : Nat) :
    ((parseUnit text s i).2 ≠ .ok → (parseUnit text s i).1 = s) ∧
    (parseUnit text s i).1.frame = s.frame ∧
    (parseUnit text s i).1.Translations.length = s.Translations.length ∧
    (∀ k, k ≠ i → (parseUnit text s i).1.Translations[k]? = s.Translations[k]?) := by
  unfold parseUnit
  simp only []
  split
  · simp
  · split
    · simp
    · split
      · simp
      · split
        · simp
        · split
          · simp
          · split
            · refine ⟨by simp, rfl, by simp, ?_⟩
              intro k hk
              simp [List.getElem?_set, Ne.symm hk]
            · simp

theorem parseUnit_markerNotFound {text : Str} {s : BulkTranslationSession} {i : Nat} {m : Str}
    (h : (parseUnit text s i).2 = .markerNotFound m) :
    m = chunkMarker (i + 1) ∧ stringsIndex (chunkMarker (i + 1)) text = none := by
  unfold parseUnit at h
  simp only [] at h
  split at h
  · rename_i hnone
    simp at h
    exact ⟨h.symm, hnone⟩
  · split at h
    · simp at h
    · split at h
      · simp at h
      · split at h
        · simp at h
        · split at h
          · simp at h
          · split at h <;> simp at h

theorem parseUnit_endMarkerNotFound {text : Str} {s : BulkTranslationSession} {i : Nat}
    {m : Str} (h : (parseUnit text s i).2 = .endMarkerNotFound m) :
    m = chunkEndMarker (i + 1) ∧ stringsIndex (chunkEndMarker (i + 1)) text = none ∧
      stringsIndex (chunkMarker (i + 1)) text ≠ none := by
  unfold parseUnit at h
  simp only [] at h
  split at h
  · simp at h
  · rename_i k hsome
    split at h
    · rename_i hnone
      simp at h
      exact ⟨h.symm, hnone, by simp [hsome]⟩
    · split at h
      · simp at h
      · split at h
        · simp at h
        · split at h
          · simp at h
          · split at h <;> simp at h

theorem parseUnits_cons (text : Str) (i : Nat) (rest : List Nat) (s : BulkTranslationSession) :
    parseUnits text (i :: rest) s =
      if (parseUnit text s i).2 = .ok then parseUnits text rest (parseUnit text s i).1
      else parseUnit text s i := by
  rw [parseUnits]
  rcases hp : parseUnit text s i with ⟨s1, o⟩
  cases o <;> simp

theorem parseUnits_frame (text : Str) : ∀ (l : List Nat) (s : BulkTranslationSession),
    (parseUnits text l s).1.frame = s.frame ∧
    (parseUnits text l s).1.Translations.length = s.Translations.length ∧
    (∀ k, k ∉ l → (parseUnits text l s).1.Translations[k]? = s.Translations[k]?) := by
  intro l
  induction l with
  | nil => intro s; simp [parseUnits]
  | cons i rest ih =>
    intro s
    rw [parseUnits_cons]
    obtain ⟨-, hf, hl, hk⟩ := parseUnit_frame text s i
    by_cases hok : (parseUnit text s i).2 = .ok
    · simp only [hok, if_true]
      obtain ⟨hf2, hl2, hk2⟩ := ih (parseUnit text s i).1
      refine ⟨by rw [hf2, hf], by rw [hl2, hl], ?_⟩
      intro k hmem
      rw [hk2 k (fun h => hmem (List.mem_cons_of_mem _ h)),
        hk k (fun h => hmem (by simp [h]))]
    · simp only [hok, if_false]
      refine ⟨hf, hl, ?_⟩
      intro k hmem
      exact hk k (fun h => hmem (by simp [h]))

theorem parseUnits_fail (text : Str) : ∀ (l : List Nat) (s : BulkTranslationSession),
    (parseUnits text l s).2 ≠ .ok →
    ∃ pre j post, l = pre ++ j :: post ∧
      (parseUnits text pre s).2 = .ok ∧
      (∀ k, k ∈ pre → stringsIndex (chunkMarker (k + 1)) text ≠ none ∧
        stringsIndex (chunkEndMarker (k + 1)) text ≠ none) ∧
      parseUnits text l s = parseUnit text (parseUnits text pre s).1 j ∧
      (parseUnit text (parseUnits text pre s).1 j).2 ≠ .ok := by
  intro l
  induction l with
  | nil => intro s h; simp [parseUnits] at h
  | cons i rest ih =>
    intro s h
    rw [parseUnits_cons] at h
    by_cases hok : (parseUnit text s i).2 = .ok
    · simp only [hok, if_true] at h
      obtain ⟨pre, j, post, hl, hpre, hmk, heq, hne⟩ := ih _ h
      refine ⟨i :: pre, j, post, by simp [hl], ?_, ?_, ?_, ?_⟩
      · rw [parseUnits_cons]; simp only [hok, if_true]; exact hpre
      · intro k hk
        rcases List.mem_cons.mp hk with rfl | hk
        · constructor
          · intro hnone
            have : (parseUnit text s k).2 = .markerNotFound (chunkMarker (k + 1)) := by
              unfold parseUnit; simp [hnone]
            rw [this] at hok; cases hok
          · intro hnone
            have : (parseUnit text s k).2 = .markerNotFound (chunkMarker (k + 1)) ∨
                (parseUnit text s k).2 = .endMarkerNotFound (chunkEndMarker (k + 1)) := by
              unfold parseUnit
              cases hm : stringsIndex (chunkMarker (k + 1)) text with
              | none => left; simp [hm]
              | some v => right; simp [hm, hnone]
            rcases this with h1 | h1 <;> (rw [h1] at hok; cases hok)
        · exact hmk k hk
      · rw [parseUnits_cons, parseUnits_cons]; simp only [hok, if_true]; exact heq
      · rw [parseUnits_cons]; simp only [hok, if_true]; exact hne
    · refine ⟨[], i, rest, rfl, by simp [parseUnits], by simp, ?_, ?_⟩
      · rw [parseUnits_cons]; simp [hok, parseUnits]
      · simpa [parseUnits] using hok

/-! ## Lemmas: decimal formatting and markers -/

theorem digitsLoop_acc : ∀ (fuel n : Nat) (acc : Str),
    digitsLoop fuel n acc = digitsLoop fuel n [] ++ acc := by
  intro fuel
  induction fuel with
  | zero => intro n acc; simp [digitsLoop]
  | succ f ih =>
    intro n acc
    unfold digitsLoop
    by_cases h : n < 10
    · simp [h]
    · simp only [h, if_false]
      rw [ih (n / 10) ((48 + n % 10) :: acc), ih (n / 10) [48 + n % 10]]
      simp

theorem digitsLoop_digits : ∀ (fuel n : Nat), ∀ b ∈ digitsLoop fuel n [], 48 ≤ b ∧ b ≤ 57 := by
  intro fuel
  induction fuel with
  | zero => intro n b hb; simp [digitsLoop] at hb
  | succ f ih =>
    intro n b hb
    unfold digitsLoop at hb
    by_cases h : n < 10
    · simp [h] at hb; omega
    · simp only [h, if_false] at hb
      rw [digitsLoop_acc] at hb
      rcases List.mem_append.mp hb with hb | hb
      · exact ih _ b hb
      · simp at hb; omega

theorem decodeDigits_append_singleton (s : Str) (d : Nat) :
    decodeDigits (s ++ [d]) = decodeDigits s * 10 + (d - 48) := by
  simp [decodeDigits, List.foldl_append]

theorem decodeDigits_digitsLoop : ∀ (fuel n : Nat), n < fuel →
    decodeDigits (digitsLoop fuel n []) = n := by
  intro fuel
  induction fuel with
  | zero => intro n h; omega
  | succ f ih =>
    intro n hn
    unfold digitsLoop
    by_cases h : n < 10
    · simp [h, decodeDigits]
    · simp only [h, if_false]
      rw [digitsLoop_acc, decodeDigits_append_singleton, ih (n / 10) (by omega)]
      omega

theorem decodeDigits_zeros (k : Nat) (s : Str) :
    decodeDigits (List.replicate k 48 ++ s) = decodeDigits s := by
  induction k with
  | zero => simp
  | succ k ih =>
    simp only [List.replicate_succ, List.cons_append]
    unfold decodeDigits at ih ⊢
    simpa using ih

theorem decodeDigits_fmtD03 (n : Nat) : decodeDigits (fmtD03 n) = n := by
  unfold fmtD03
  rw [decodeDigits_zeros]
  exact decodeDigits_digitsLoop (n + 1) n (by omega)

theorem fmtD03_injective {m n : Nat} (h : fmtD03 m = fmtD03 n) : m = n := by
  have := congrArg decodeDigits h
  rwa [decodeDigits_fmtD03, decodeDigits_fmtD03] at this

theorem fmtD03_digits (n : Nat) : ∀ b ∈ fmtD03 n, 48 ≤ b ∧ b ≤ 57 := by
  intro b hb
  unfold fmtD03 at hb
  rcases List.mem_append.mp hb with hb | hb
  · rw [List.mem_replicate] at hb; omega
  · exact digitsLoop_digits _ _ b hb

theorem chunkMarker_eq (n : Nat) :
    chunkMarker n = 123 :: 123 :: ([67, 72, 85, 78, 75, 95] ++ fmtD03 n ++ [125, 125]) := by
  have h1 : utf8 "\x7b\x7bCHUNK_" = [123, 123, 67, 72, 85, 78, 75, 95] := by decide
  have h2 : utf8 "\x7d\x7d" = [125, 125] := by decide
  simp [chunkMarker, h1, h2]

theorem chunkEndMarker_eq (n : Nat) :
    chunkEndMarker n
      = 123 :: 123 :: ([47, 67, 72, 85, 78, 75, 95] ++ fmtD03 n ++ [125, 125]) := by
  have h1 : utf8 "\x7b\x7b/CHUNK_" = [123, 123, 47, 67, 72, 85, 78, 75, 95] := by decide
  have h2 : utf8 "\x7d\x7d" = [125, 125] := by decide
  simp [chunkEndMarker, h1, h2]
theorem prefix_of_braces_infix (u v : Str) (hu : 123 ∉ u)
    (h : (123 :: 123 :: v) <:+: (123 :: 123 :: u)) : v <+: u := by
  obtain ⟨s, t, hst⟩ := h
  cases s with
  | nil =>
    simp at hst
    exact ⟨t, hst⟩
  | cons x s1 =>
    exfalso
    cases s1 with
    | nil =>
      simp at hst
      apply hu
      rw [← hst.2]
      simp
    | cons y s2 =>
      simp at hst
      apply hu
      rw [← hst.2.2]
      simp

theorem closed_digits_eq : ∀ (a b : Str), 125 ∉ a → 125 ∉ b →
    a ++ [125, 125] <+: b ++ [125, 125] → a = b := by
  intro a
  induction a with
  | nil =>
    intro b _ hb h
    cases b with
    | nil => rfl
    | cons y b1 =>
      exfalso
      simp only [List.nil_append, List.cons_append, List.cons_prefix_cons] at h
      exact hb (by simp [h.1])
  | cons x a1 ih =>
    intro b ha hb h
    cases b with
    | nil =>
      exfalso
      simp only [List.nil_append, List.cons_append, List.cons_prefix_cons] at h
      exact ha (by simp [h.1])
    | cons y b1 =>
      simp only [List.cons_append, List.cons_prefix_cons] at h
      have ha1 : 125 ∉ a1 := fun e => ha (List.mem_cons_of_mem _ e)
      have hb1 : 125 ∉ b1 := fun e => hb (List.mem_cons_of_mem _ e)
      rw [h.1, ih b1 ha1 hb1 h.2]

theorem fmtD03_not_mem (n c : Nat) (hc : c < 48 ∨ 57 < c) : c ∉ fmtD03 n := by
  intro h
  have := fmtD03_digits n c h
  omega

theorem chunkMarker_newline (n : Nat) : 10 ∉ chunkMarker n := by
  rw [chunkMarker_eq]
  have := fmtD03_not_mem n 10 (by omega)
  simp [this]

theorem chunkEndMarker_newline (n : Nat) : 10 ∉ chunkEndMarker n := by
  rw [chunkEndMarker_eq]
  have := fmtD03_not_mem n 10 (by omega)
  simp [this]

theorem chunkMarker_infix_chunkMarker {m n : Nat} (h : chunkMarker m <:+: chunkMarker n) :
    m = n := by
  rw [chunkMarker_eq, chunkMarker_eq] at h
  have h123 := fmtD03_not_mem n 123 (by omega)
  have hp := prefix_of_braces_infix _ _ (by simp [h123]) h
  rw [List.append_assoc, List.append_assoc, List.prefix_append_right_inj] at hp
  exact fmtD03_injective (closed_digits_eq _ _ (fmtD03_not_mem m 125 (by omega))
    (fmtD03_not_mem n 125 (by omega)) hp)

theorem chunkEndMarker_infix_chunkEndMarker {m n : Nat}
    (h : chunkEndMarker m <:+: chunkEndMarker n) : m = n := by
  rw [chunkEndMarker_eq, chunkEndMarker_eq] at h
  have h123 := fmtD03_not_mem n 123 (by omega)
  have hp := prefix_of_braces_infix _ _ (by simp [h123]) h
  rw [List.append_assoc, List.append_assoc, List.prefix_append_right_inj] at hp
  exact fmtD03_injective (closed_digits_eq _ _ (fmtD03_not_mem m 125 (by omega))
    (fmtD03_not_mem n 125 (by omega)) hp)

theorem chunkMarker_not_infix_chunkEndMarker (m n : Nat) :
    ¬ chunkMarker m <:+: chunkEndMarker n := by
  intro h
  rw [chunkMarker_eq, chunkEndMarker_eq] at h
  have h123 := fmtD03_not_mem n 123 (by omega)
  have hp := prefix_of_braces_infix _ _ (by simp [h123]) h
  simp [List.cons_prefix_cons] at hp

theorem chunkEndMarker_not_infix_chunkMarker (m n : Nat) :
    ¬ chunkEndMarker m <:+: chunkMarker n := by
  intro h
  rw [chunkMarker_eq, chunkEndMarker_eq] at h
  have h123 := fmtD03_not_mem n 123 (by omega)
  have hp := prefix_of_braces_infix _ _ (by simp [h123]) h
  simp [List.cons_prefix_cons] at hp
/-! ## Lemmas: searching a text made of lines -/

theorem infix_of_infix_sep (p a b : Str) (hp : 10 ∉ p) (h : p <:+: a ++ 10 :: b) :
    p <:+: a ∨ p <:+: b := by
  obtain ⟨s, t, hst⟩ := h
  rcases List.append_eq_append_iff.mp hst with ⟨a1, ha, -⟩ | ⟨c1, hc, hb⟩
  · left; exact ⟨s, a1, ha.symm⟩
  · cases c1 with
    | nil =>
      left
      refine ⟨s, [], ?_⟩
      simpa using hc
    | cons x c2 =>
      simp only [List.cons_append, List.cons.injEq] at hb
      obtain ⟨hx, hb2⟩ := hb
      subst hx
      rcases List.append_eq_append_iff.mp hc with ⟨a2, -, hp2⟩ | ⟨c3, hs, hc3⟩
      · exfalso; apply hp; rw [hp2]; simp
      · cases c3 with
        | nil =>
          exfalso; apply hp
          simp only [List.nil_append] at hc3
          rw [← hc3]; simp
        | cons y c4 =>
          right
          simp only [List.cons_append, List.cons.injEq] at hc3
          refine ⟨c4, t, ?_⟩
          rw [hb2, hc3.2]

theorem prefix_of_prefix_sep : ∀ (x p w : Str), 10 ∉ p → p <+: x ++ 10 :: w → p <+: x := by
  intro x
  induction x with
  | nil =>
    intro p w hp h
    cases p with
    | nil => exact List.prefix_refl _
    | cons c p1 =>
      exfalso
      simp only [List.nil_append, List.cons_prefix_cons] at h
      exact hp (by simp [h.1])
  | cons a x1 ih =>
    intro p w hp h
    cases p with
    | nil => exact List.nil_prefix
    | cons c p1 =>
      simp only [List.cons_append, List.cons_prefix_cons] at h ⊢
      exact ⟨h.1, ih p1 w (fun e => hp (List.mem_cons_of_mem _ e)) h.2⟩

theorem stringsIndex_of_isPrefixOf (p s : Str) (h : p.isPrefixOf s = true) :
    stringsIndex p s = some 0 := by
  cases s <;> simp [stringsIndex, h]

theorem stringsIndex_self (p z : Str) : stringsIndex p (p ++ z) = some 0 := by
  apply stringsIndex_of_isPrefixOf
  rw [List.isPrefixOf_iff_prefix]
  exact List.prefix_append _ _

theorem stringsIndex_after_sep (p z : Str) (hp : 10 ∉ p) : ∀ (x : Str), ¬ p <:+: x →
    stringsIndex p (x ++ 10 :: (p ++ z)) = some (x.length + 1) := by
  intro x
  induction x with
  | nil =>
    intro hx
    have hnp : p.isPrefixOf (10 :: (p ++ z)) = false := by
      rw [Bool.eq_false_iff]
      intro hpre
      rw [List.isPrefixOf_iff_prefix] at hpre
      exact hx (prefix_of_prefix_sep [] p _ hp hpre).isInfix
    simp [stringsIndex, hnp, stringsIndex_self]
  | cons a x1 ih =>
    intro hx
    have hnp : p.isPrefixOf (a :: (x1 ++ 10 :: (p ++ z))) = false := by
      rw [Bool.eq_false_iff]
      intro hpre
      rw [List.isPrefixOf_iff_prefix] at hpre
      exact hx (prefix_of_prefix_sep (a :: x1) p _ hp hpre).isInfix
    have hx1 : ¬ p <:+: x1 := fun e => hx (List.infix_cons e)
    simp [stringsIndex, hnp, ih hx1]
/-! ## Lemmas: `trimSpace` around a line -/

theorem find?_congr_mem {α : Type} (p q : α → Bool) : ∀ (l : List α),
    (∀ a ∈ l, p a = q a) → l.find? p = l.find? q := by
  intro l
  induction l with
  | nil => intro _; rfl
  | cons a l ih =>
    intro h
    have ha : p a = q a := h a (by simp)
    have hl : ∀ b ∈ l, p b = q b := fun b hb => h b (List.mem_cons_of_mem _ hb)
    simp [List.find?, ha, ih hl]

theorem spaceRunes_pos : ∀ w ∈ spaceRunes, 1 ≤ w.length := by decide

theorem spaceRunes_tail : ∀ w ∈ spaceRunes, 10 ∉ w.tail := by decide

theorem trimLeftLoop_nil (fuel : Nat) : trimLeftLoop fuel [] = [] := by
  cases fuel with
  | zero => rfl
  | succ f =>
    have : spaceRunes.find? (fun w => w.isPrefixOf ([] : Str)) = none := by decide
    simp [trimLeftLoop, this]

theorem trimLeftLoop_succ (f : Nat) (s : Str) :
    trimLeftLoop (f + 1) s =
      match spaceRunes.find? (fun w => w.isPrefixOf s) with
      | some w => trimLeftLoop f (s.drop w.length)
      | none => s := rfl

theorem trimLeftLoop_fuel : ∀ (f1 f2 : Nat) (s : Str), s.length ≤ f1 → s.length ≤ f2 →
    trimLeftLoop f1 s = trimLeftLoop f2 s := by
  intro f1
  induction f1 with
  | zero =>
    intro f2 s h1 _
    have : s = [] := List.length_eq_zero.mp (by omega)
    subst this
    rw [trimLeftLoop_nil, trimLeftLoop_nil]
  | succ f ih =>
    intro f2 s h1 h2
    cases f2 with
    | zero =>
      have : s = [] := List.length_eq_zero.mp (by omega)
      subst this
      rw [trimLeftLoop_nil, trimLeftLoop_nil]
    | succ g =>
      simp only [trimLeftLoop]
      cases hf : spaceRunes.find? (fun w => w.isPrefixOf s) with
      | none => rfl
      | some w =>
        have hw := spaceRunes_pos w (List.mem_of_find?_eq_some hf)
        simp only []
        apply ih
        · rw [List.length_drop]; omega
        · rw [List.length_drop]; omega

theorem isPrefixOf_append_newline (w x : Str) (hw : 10 ∉ w.tail) (hx : x ≠ []) :
    w.isPrefixOf (x ++ [10]) = w.isPrefixOf x := by
  rw [Bool.eq_iff_iff, List.isPrefixOf_iff_prefix, List.isPrefixOf_iff_prefix]
  constructor
  · intro h
    cases w with
    | nil => exact List.nil_prefix
    | cons c w1 =>
      cases x with
      | nil => exact absurd rfl hx
      | cons a x1 =>
        simp only [List.cons_append, List.cons_prefix_cons] at h ⊢
        exact ⟨h.1, prefix_of_prefix_sep x1 w1 [] hw h.2⟩
  · intro h
    exact h.trans (List.prefix_append _ _)

theorem trimLeftLoop_append_newline : ∀ (n : Nat) (x : Str), x.length ≤ n →
    trimLeftLoop (x ++ [10]).length (x ++ [10])
      = if trimLeftLoop x.length x = [] then [] else trimLeftLoop x.length x ++ [10] := by
  intro n
  induction n with
  | zero =>
    intro x hx
    have : x = [] := List.length_eq_zero.mp (by omega)
    subst this
    decide
  | succ n ih =>
    intro x hx
    by_cases hnil : x = []
    · subst hnil; decide
    · have hfind : spaceRunes.find? (fun w => w.isPrefixOf (x ++ [10]))
          = spaceRunes.find? (fun w => w.isPrefixOf x) :=
        find?_congr_mem _ _ _ (fun w hw =>
          isPrefixOf_append_newline w x (spaceRunes_tail w hw) hnil)
      obtain ⟨k, hk⟩ : ∃ k, x.length = k + 1 :=
        ⟨x.length - 1, by have := List.length_pos.mpr hnil; omega⟩
      have hlen : (x ++ [10]).length = (k + 1) + 1 := by simp [hk]
      rw [hlen, hk, trimLeftLoop_succ (k + 1) (x ++ [10]), trimLeftLoop_succ k x, hfind]
      cases hf : spaceRunes.find? (fun w => w.isPrefixOf x) with
      | none => simp [hnil]
      | some w =>
        have hw := spaceRunes_pos w (List.mem_of_find?_eq_some hf)
        have hpre : w <+: x := by
          have := List.find?_some hf
          simpa [List.isPrefixOf_iff_prefix] using this
        have hwl : w.length ≤ x.length := hpre.length_le
        simp only []
        rw [List.drop_append_of_le_length hwl]
        have hd : (x.drop w.length).length ≤ n := by rw [List.length_drop]; omega
        rw [trimLeftLoop_fuel (k + 1) (x.drop w.length ++ [10]).length _
            (by simp [List.length_drop]; omega) (Nat.le_refl _),
          trimLeftLoop_fuel k (x.drop w.length).length _
            (by rw [List.length_drop]; omega) (Nat.le_refl _)]
        exact ih _ hd

theorem trimRightLoop_append_newline (y : Str) :
    trimRightLoop (y ++ [10]).length (y ++ [10]) = trimRightLoop y.length y := by
  have hfind : spaceRunes.find? (fun w => w.isSuffixOf (y ++ [10])) = some [10] := by
    simp [spaceRunes, List.find?, List.isSuffixOf, List.isPrefixOf]
  have hlen : (y ++ [10]).length = y.length + 1 := by simp
  rw [hlen]
  simp [trimRightLoop, hfind]

theorem trimSpace_line (b : Str) : trimSpace (10 :: (b ++ [10])) = trimSpace b := by
  have h1 : trimLeftLoop (10 :: (b ++ [10])).length (10 :: (b ++ [10]))
      = trimLeftLoop (b ++ [10]).length (b ++ [10]) := by
    have hfind : spaceRunes.find? (fun w => w.isPrefixOf (10 :: (b ++ [10]))) = some [10] := by
      simp [spaceRunes, List.find?, List.isPrefixOf]
    show trimLeftLoop ((b ++ [10]).length + 1) (10 :: (b ++ [10])) = _
    rw [trimLeftLoop_succ, hfind]
    rfl
  unfold trimSpace
  simp only [h1]
  rw [trimLeftLoop_append_newline b.length b (Nat.le_refl _)]
  by_cases hnil : trimLeftLoop b.length b = []
  · simp [hnil]
  · simp only [hnil, if_false]
    exact trimRightLoop_append_newline _

/-! ## Lemmas: parsing an extraction payload -/

theorem chunkBlocks_append (body : Nat → Str) (l1 l2 : List Nat) :
    chunkBlocks body (l1 ++ l2) = chunkBlocks body l1 ++ chunkBlocks body l2 := by
  induction l1 with
  | nil => rfl
  | cons i l ih => simp [chunkBlocks, ih]

theorem chunkBlocks_cons (body : Nat → Str) (i : Nat) (l : List Nat) :
    chunkBlocks body (i :: l)
      = 10 :: (chunkMarker (i + 1) ++ 10 :: (body i ++ 10 ::
          (chunkEndMarker (i + 1) ++ 10 :: chunkBlocks body l))) := by
  simp [chunkBlocks, chunkBlock]

theorem not_infix_chunkBlocks (body : Nat → Str) (p : Str) (hp : 10 ∉ p) (hne : p ≠ []) :
    ∀ (l : List Nat),
    (∀ j ∈ l, ¬ p <:+: chunkMarker (j + 1) ∧ ¬ p <:+: body j ∧ ¬ p <:+: chunkEndMarker (j + 1)) →
    ¬ p <:+: chunkBlocks body l := by
  intro l
  induction l with
  | nil =>
    intro _ h
    exact hne (List.infix_nil.mp h)
  | cons i l ih =>
    intro hl h
    obtain ⟨h1, h2, h3⟩ := hl i (by simp)
    have hrest := ih (fun j hj => hl j (List.mem_cons_of_mem _ hj))
    rw [chunkBlocks_cons] at h
    rcases infix_of_infix_sep p [] _ hp h with h | h
    · exact hne (List.infix_nil.mp h)
    · rcases infix_of_infix_sep p _ _ hp h with h | h
      · exact h1 h
      · rcases infix_of_infix_sep p _ _ hp h with h | h
        · exact h2 h
        · rcases infix_of_infix_sep p _ _ hp h with h | h
          · exact h3 h
          · exact hrest h

theorem not_infix_header_blocks (body : Nat → Str) (p header : Str) (hp : 10 ∉ p)
    (l : List Nat) (hh : ¬ p <:+: header) (hb : ¬ p <:+: chunkBlocks body l) :
    ¬ p <:+: header ++ chunkBlocks body l := by
  cases l with
  | nil => simpa [chunkBlocks] using hh
  | cons i l =>
    intro h
    rw [chunkBlocks_cons] at h hb
    rcases infix_of_infix_sep p _ _ hp h with h | h
    · exact hh h
    · apply hb
      obtain ⟨s, t, hst⟩ := h
      exact ⟨10 :: s, t, by simp [← hst]⟩

theorem chunkMarker_ne_nil (n : Nat) : chunkMarker n ≠ [] := by
  rw [chunkMarker_eq]; simp

theorem chunkEndMarker_ne_nil (n : Nat) : chunkEndMarker n ≠ [] := by
  rw [chunkEndMarker_eq]; simp

theorem slice_middle (x m y : Str) :
    slice (x ++ (m ++ y)) x.length (x.length + m.length) = m := by
  unfold slice
  rw [List.drop_left']
  · have : x.length + m.length - x.length = m.length := by omega
    rw [this, List.take_left']
    rfl
  · rfl
theorem payload_unit (header : Str) (body : Nat → Str) (pre post : List Nat) (i : Nat)
    (hnd : (pre ++ i :: post).Nodup)
    (hheader : ¬ chunkMarker (i + 1) <:+: header ∧ ¬ chunkEndMarker (i + 1) <:+: header)
    (hbody : ∀ k ∈ pre ++ i :: post,
      ¬ chunkMarker (i + 1) <:+: body k ∧ ¬ chunkEndMarker (i + 1) <:+: body k) :
    ∃ a e,
      stringsIndex (chunkMarker (i + 1)) (header ++ chunkBlocks body (pre ++ i :: post)) = some a ∧
      stringsIndex (chunkEndMarker (i + 1)) (header ++ chunkBlocks body (pre ++ i :: post))
        = some e ∧
      a + (chunkMarker (i + 1)).length ≤ e ∧
      e ≤ (header ++ chunkBlocks body (pre ++ i :: post)).length ∧
      slice (header ++ chunkBlocks body (pre ++ i :: post)) (a + (chunkMarker (i + 1)).length) e
        = 10 :: (body i ++ [10]) := by
  have hi : i ∉ pre := by
    intro h
    have := List.nodup_append.mp hnd
    exact this.2.2 h (by simp)
  have hpre : ∀ j ∈ pre, j ≠ i := fun j hj e => hi (e ▸ hj)
  -- neither marker of unit `i` occurs before the block of unit `i`
  have hM : ¬ chunkMarker (i + 1) <:+: header ++ chunkBlocks body pre := by
    apply not_infix_header_blocks body _ header (chunkMarker_newline _) pre hheader.1
    apply not_infix_chunkBlocks body _ (chunkMarker_newline _) (chunkMarker_ne_nil _)
    intro j hj
    refine ⟨fun h => hpre j hj ?_, (hbody j (by simp [hj])).1,
      chunkMarker_not_infix_chunkEndMarker _ _⟩
    have := chunkMarker_infix_chunkMarker h
    omega
  have hE : ¬ chunkEndMarker (i + 1) <:+: header ++ chunkBlocks body pre := by
    apply not_infix_header_blocks body _ header (chunkEndMarker_newline _) pre hheader.2
    apply not_infix_chunkBlocks body _ (chunkEndMarker_newline _) (chunkEndMarker_ne_nil _)
    intro j hj
    refine ⟨chunkEndMarker_not_infix_chunkMarker _ _, (hbody j (by simp [hj])).2,
      fun h => hpre j hj ?_⟩
    have := chunkEndMarker_infix_chunkEndMarker h
    omega
  have hE2 : ¬ chunkEndMarker (i + 1) <:+:
      (header ++ chunkBlocks body pre) ++ 10 :: (chunkMarker (i + 1) ++ 10 :: body i) := by
    intro h
    rcases infix_of_infix_sep _ _ _ (chunkEndMarker_newline _) h with h | h
    · exact hE h
    · rcases infix_of_infix_sep _ _ _ (chunkEndMarker_newline _) h with h | h
      · exact chunkEndMarker_not_infix_chunkMarker _ _ h
      · exact (hbody i (by simp)).2 h
  have htext1 : header ++ chunkBlocks body (pre ++ i :: post)
      = (header ++ chunkBlocks body pre) ++ 10 :: (chunkMarker (i + 1) ++
          (10 :: (body i ++ 10 :: (chunkEndMarker (i + 1) ++ 10 :: chunkBlocks body post)))) := by
    rw [chunkBlocks_append, chunkBlocks_cons]
    simp [List.append_assoc]
  have htext2 : header ++ chunkBlocks body (pre ++ i :: post)
      = ((header ++ chunkBlocks body pre) ++ 10 :: (chunkMarker (i + 1) ++ 10 :: body i))
          ++ 10 :: (chunkEndMarker (i + 1) ++ 10 :: chunkBlocks body post) := by
    rw [htext1]
    simp [List.append_assoc]
  have htext3 : header ++ chunkBlocks body (pre ++ i :: post)
      = ((header ++ chunkBlocks body pre) ++ 10 :: chunkMarker (i + 1)) ++
          ((10 :: (body i ++ [10])) ++
            (chunkEndMarker (i + 1) ++ 10 :: chunkBlocks body post)) := by
    rw [htext1]
    simp [List.append_assoc]
  refine ⟨(header ++ chunkBlocks body pre).length + 1,
    ((header ++ chunkBlocks body pre) ++ 10 :: (chunkMarker (i + 1) ++ 10 :: body i)).length + 1,
    ?_, ?_, ?_, ?_, ?_⟩
  · rw [htext1]
    exact stringsIndex_after_sep _ _ (chunkMarker_newline _) _ hM
  · rw [htext2]
    exact stringsIndex_after_sep _ _ (chunkEndMarker_newline _) _ hE2
  · simp only [List.length_append, List.length_cons]
    omega
  · rw [htext2]
    simp only [List.length_append, List.length_cons]
    omega
  · have hlen1 : (header ++ chunkBlocks body pre).length + 1 + (chunkMarker (i + 1)).length
        = ((header ++ chunkBlocks body pre) ++ 10 :: chunkMarker (i + 1)).length := by
      simp only [List.length_append, List.length_cons]
      omega
    have hlen2 : ((header ++ chunkBlocks body pre) ++
          10 :: (chunkMarker (i + 1) ++ 10 :: body i)).length + 1
        = ((header ++ chunkBlocks body pre) ++ 10 :: chunkMarker (i + 1)).length
          + (10 :: (body i ++ [10])).length := by
      simp only [List.length_append, List.length_cons, List.length_nil]
      omega
    rw [hlen1, hlen2, htext3]
    exact slice_middle _ _ _
theorem parseUnit_found (text : Str) (s : BulkTranslationSession) (i a e chunkIdx : Nat)
    (bodyText : Str) (tok : Token)
    (hM : stringsIndex (chunkMarker (i + 1)) text = some a)
    (hE : stringsIndex (chunkEndMarker (i + 1)) text = some e)
    (h1 : a + (chunkMarker (i + 1)).length ≤ e) (h2 : e ≤ text.length)
    (hs : slice text (a + (chunkMarker (i + 1)).length) e = 10 :: (bodyText ++ [10]))
    (hci : s.ChunkIndices[i]? = some chunkIdx) (htok : s.Tokens[chunkIdx]? = some tok)
    (hi : i < s.Translations.length) :
    parseUnit text s i
      = ({ s with Translations :=
            s.Translations.set i (restoreEdges tok.Value (trimSpace bodyText)) }, .ok) := by
  have hc : ¬ (a + (chunkMarker (i + 1)).length > e ∨ e > text.length) := by omega
  unfold parseUnit
  simp only [hM, hE, hc, if_false, hs, trimSpace_line, hci, htok, hi, if_true]

theorem originalText_eq (b : BulkTranslationSession) (i chunkIdx : Nat) (tok : Token)
    (hci : b.ChunkIndices[i]? = some chunkIdx) (htok : b.Tokens[chunkIdx]? = some tok) :
    originalText b i = tok.Value := by
  simp [originalText, hci, tokenValue, htok]

theorem parseUnits_payload (text : Str) (body : Nat → Str) (b : BulkTranslationSession) :
    ∀ (l : List Nat) (s : BulkTranslationSession), l.Nodup → s.frame = b.frame →
    s.Translations.length = b.Translations.length →
    (∀ i ∈ l, i < b.Translations.length ∧
      ∀ s1 : BulkTranslationSession, s1.frame = b.frame →
        s1.Translations.length = b.Translations.length →
        parseUnit text s1 i =
          ({ s1 with
              Translations :=
                s1.Translations.set i (restoreEdges (originalText b i) (trimSpace (body i))) },
            .ok)) →
    (parseUnits text l s).2 = .ok ∧
    ∀ i ∈ l, (parseUnits text l s).1.Translations[i]?
      = some (restoreEdges (originalText b i) (trimSpace (body i))) := by
  intro l
  induction l with
  | nil => intro s _ _ _ _; simp [parseUnits]
  | cons i rest ih =>
    intro s hnd hf hlen hall
    obtain ⟨hib, hstep⟩ := hall i (by simp)
    have hpu := hstep s hf hlen
    have hnd2 := List.nodup_cons.mp hnd
    rw [parseUnits_cons, hpu]
    simp only [if_true]
    have hrest := ih
      { s with
        Translations :=
          s.Translations.set i (restoreEdges (originalText b i) (trimSpace (body i))) }
      hnd2.2 hf (by simp [hlen]) (fun j hj => hall j (List.mem_cons_of_mem _ hj))
    refine ⟨hrest.1, ?_⟩
    intro j hj
    rcases List.mem_cons.mp hj with rfl | hj
    · obtain ⟨-, -, hkeep⟩ := parseUnits_frame text rest
        { s with
          Translations :=
            s.Translations.set j (restoreEdges (originalText b j) (trimSpace (body j))) }
      rw [hkeep j hnd2.1]
      simp only []
      have hj2 : j < s.Translations.length := by omega
      rw [List.getElem?_set_self hj2]
    · exact hrest.2 j hj

/-! ## Lemmas: the legacy flow -/

theorem collectTextChunks_eq (ts : List Token) :
    collectTextChunks ts = (ts.filter isUnit).map (fun t => t.Value) := by
  induction ts with
  | nil => rfl
  | cons t ts ih =>
    by_cases hu : isUnit t = true
    · simp [collectTextChunks, hu, ih]
    · simp [collectTextChunks, hu, ih]

theorem applyTranslations_collect (tr : List Str) : ∀ (ts pre : List Token) (j : Nat),
    j + (ts.filter isUnit).length ≤ tr.length →
    applyTranslations tr (collectChunkIndices ts pre.length) j (pre ++ ts)
      = some (pre ++ substituteUnits ts (tr.drop j)) := by
  intro ts
  induction ts with
  | nil => intro pre j _; simp [collectChunkIndices, applyTranslations, substituteUnits]
  | cons t ts ih =>
    intro pre j hlen
    by_cases hu : isUnit t = true
    · simp only [List.filter_cons_of_pos hu, List.length_cons] at hlen
      have hj : j < tr.length := by omega
      have htr : tr[j]? = some tr[j] := List.getElem?_eq_getElem hj
      have htok : (pre ++ t :: ts)[pre.length]? = some t := by
        rw [List.getElem?_append_right (Nat.le_refl _)]
        simp
      have hset : (pre ++ t :: ts).set pre.length { t with Value := tr[j] }
          = (pre ++ [{ t with Value := tr[j] }]) ++ ts := by
        rw [List.set_append_right _ _ (Nat.le_refl _)]
        simp
      have hdrop : tr.drop j = tr[j] :: tr.drop (j + 1) := List.drop_eq_getElem_cons hj
      have hstep := ih (pre ++ [{ t with Value := tr[j] }]) (j + 1) (by omega)
      simp only [List.length_append, List.length_singleton] at hstep
      simp only [collectChunkIndices, hu, if_true, applyTranslations, htr, htok, hset, hstep,
        hdrop, substituteUnits]
      simp
    · have hlen2 : j + (ts.filter isUnit).length ≤ tr.length := by
        simpa [List.filter_cons_of_neg hu] using hlen
      have hstep := ih (pre ++ [t]) j hlen2
      simp only [List.length_append, List.length_singleton, List.append_assoc,
        List.singleton_append] at hstep
      simp only [collectChunkIndices, hu, Bool.false_eq_true, if_false, hstep, substituteUnits]

theorem applyTranslations_tokenize (content : Str) (tr : List Str)
    (h : tr.length = unitsCount content) :
    applyTranslations tr (collectChunkIndices (tokenize content) 0) 0 (tokenize content)
      = some (substituteUnits (tokenize content) tr) := by
  have := applyTranslations_collect tr (tokenize content) [] 0
    (by unfold unitsCount at h; omega)
  simpa using this

theorem handleSubmitTranslation_next (sess : TranslationSession)
    (bulk : Option BulkTranslationSession) (wp : Bool) (text chunk : Str) (env : Env)
    (htext : text ≠ []) (hk : sess.CurrentChunk < sess.Translations.length)
    (hmore : sess.CurrentChunk + 1 < sess.TotalChunks)
    (hchunk : sess.TextChunks[sess.CurrentChunk + 1]? = some chunk) :
    handleSubmitTranslation ⟨some sess, bulk, wp⟩ text env
      = some ⟨⟨some { sess with
                Translations := sess.Translations.set sess.CurrentChunk text
                CurrentChunk := sess.CurrentChunk + 1 }, bulk, wp⟩,
          .nextChunk (sess.CurrentChunk + 1) sess.TotalChunks chunk, none⟩ := by
  have hge : ¬ sess.CurrentChunk + 1 ≥ sess.TotalChunks := by omega
  simp only [handleSubmitTranslation, htext, if_false, hk, if_true, hge, hchunk]

theorem handleSubmitTranslation_last (sess : TranslationSession)
    (bulk : Option BulkTranslationSession) (wp : Bool) (text : Str) (env : Env)
    (tokens : List Token)
    (htext : text ≠ []) (hk : sess.CurrentChunk < sess.Translations.length)
    (hlast : sess.CurrentChunk + 1 ≥ sess.TotalChunks)
    (hwp : sess.SourceType = utf8 "wordpress" → wp = true)
    (happly : applyTranslations (sess.Translations.set sess.CurrentChunk text)
      sess.ChunkIndices 0 sess.Tokens = some tokens) :
    ∃ st, handleSubmitTranslation ⟨some sess, bulk, wp⟩ text env = some st ∧
      st.written = some (dropEmptyPTags (rebuild tokens)) := by
  simp only [handleSubmitTranslation, htext, if_false, hk, if_true, hlast]
  by_cases hsrc : sess.SourceType = utf8 "wordpress"
  · have hw := hwp hsrc
    subst hw
    simp only [hsrc, if_true, saveToWordPress, happly, getWordPressDB]
    by_cases hu : env.updatePost = true
    · simp [hu]
    · simp [hu]
  · simp only [hsrc, if_false, saveTranslatedFile, happly]
    by_cases hu : env.writeFile = true
    · simp [hu]
    · simp [hu]
theorem runSubmits_spec (F : List Str → List Token) (sess0 : TranslationSession) (n : Nat)
    (bulk : Option BulkTranslationSession) (wp : Bool)
    (hn : sess0.TotalChunks = n) (hTC : sess0.TextChunks.length = n)
    (hwp : sess0.SourceType = utf8 "wordpress" → wp = true)
    (hF : ∀ done : List Str, done.length = n →
      applyTranslations done sess0.ChunkIndices 0 sess0.Tokens = some (F done)) :
    ∀ (rest : List (Str × Env)) (done : List Str),
    done.length + rest.length = n → rest ≠ [] → (∀ p ∈ rest, p.1 ≠ []) →
    ∃ steps,
      runSubmits ⟨some { sess0 with
          Translations := done ++ List.replicate rest.length []
          CurrentChunk := done.length }, bulk, wp⟩ rest = some steps ∧
      steps.length = rest.length ∧
      (∀ j, j + 1 < rest.length → ∃ st, steps[j]? = some st ∧
        st.reply = .nextChunk (done.length + j + 1) n
          (sess0.TextChunks.getD (done.length + j + 1) []) ∧
        st.written = none) ∧
      ∃ st, steps[rest.length - 1]? = some st ∧
        st.written = some (dropEmptyPTags (rebuild (F (done ++ rest.map Prod.fst)))) := by
  subst hn
  intro rest
  induction rest with
  | nil => intro done _ h; exact absurd rfl h
  | cons p rest ih =>
    intro done hlen _ hne
    obtain ⟨text, env⟩ := p
    have htext : text ≠ [] := hne (text, env) (by simp)
    simp only [List.length_cons] at hlen
    have hset : (done ++ List.replicate (rest.length + 1) ([] : Str)).set done.length text
        = (done ++ [text]) ++ List.replicate rest.length [] := by
      rw [List.set_append_right _ _ (Nat.le_refl _)]
      simp [List.replicate_succ]
    by_cases hrest : rest = []
    · subst hrest
      simp only [List.length_nil, Nat.zero_add] at hlen
      have happly := hF (done ++ [text]) (by simp; omega)
      obtain ⟨st, hst, hw⟩ := handleSubmitTranslation_last
        { sess0 with
          Translations := done ++ List.replicate ([] : List (Str × Env)).length.succ []
          CurrentChunk := done.length }
        bulk wp text env (F (done ++ [text])) htext (by simp) (by show done.length + 1 ≥ sess0.TotalChunks; omega) hwp
        (by
          have := hset
          simp only [List.length_nil, List.replicate_zero, List.append_nil] at this
          simp only [List.length_nil, Nat.succ_eq_add_one, Nat.zero_add]
          rw [this]
          exact happly)
      refine ⟨[st], ?_, rfl, ?_, st, rfl, ?_⟩
      · simp only [runSubmits, List.length_cons, List.length_nil]
        simp only [List.length_nil, Nat.succ_eq_add_one, Nat.zero_add] at hst
        rw [hst]
      · intro j hj; simp at hj
      · simpa using hw
    · have hpos : 0 < rest.length := List.length_pos.mpr hrest
      have hchunk : sess0.TextChunks[done.length + 1]?
          = some (sess0.TextChunks.getD (done.length + 1) []) := by
        have hlt : done.length + 1 < sess0.TextChunks.length := by omega
        rw [List.getD_eq_getElem?_getD, List.getElem?_eq_getElem hlt]
        rfl
      have hstep := handleSubmitTranslation_next
        { sess0 with
          Translations := done ++ List.replicate (rest.length + 1) []
          CurrentChunk := done.length }
        bulk wp text (sess0.TextChunks.getD (done.length + 1) []) env htext
        (by simp) (by show done.length + 1 < sess0.TotalChunks; omega) hchunk
      simp only [hset] at hstep
      obtain ⟨steps, hrun, hsl, hnext, stl, hstl, hwl⟩ := ih (done ++ [text])
        (by simp; omega) hrest (fun q hq => hne q (List.mem_cons_of_mem _ hq))
      simp only [List.length_append, List.length_singleton] at hrun hnext
      refine ⟨(⟨⟨some { sess0 with
                Translations := (done ++ [text]) ++ List.replicate rest.length []
                CurrentChunk := done.length + 1 }, bulk, wp⟩,
          .nextChunk (done.length + 1) sess0.TotalChunks
            (sess0.TextChunks.getD (done.length + 1) []),
          none⟩ : Step) :: steps, ?_, by simp [hsl], ?_, stl, ?_, ?_⟩
      · simp only [runSubmits, List.length_cons, hstep, hrun]
      · intro j hj
        cases j with
        | zero => exact ⟨_, List.getElem?_cons_zero, rfl, rfl⟩
        | succ j =>
          obtain ⟨st, h1, h2, h3⟩ := hnext j (by simp at hj; omega)
          refine ⟨st, by simpa using h1, ?_, h3⟩
          have e : done.length + 1 + j + 1 = done.length + (j + 1) + 1 := by omega
          rw [h2, e]
      · have : (rest.length + 1) - 1 = (rest.length - 1) + 1 := by omega
        simp only [List.length_cons, this, List.getElem?_cons_succ]
        exact hstl
      · rw [hwl]
        simp

/-! ## Lemmas: sessions created by `initBulkSession` are valid; missing markers -/

theorem collectChunkIndices_lt (ts : List Token) : ∀ (i idx : Nat),
    idx ∈ collectChunkIndices ts i → idx < i + ts.length := by
  induction ts with
  | nil => intro i idx h; simp [collectChunkIndices] at h
  | cons t ts ih =>
    intro i idx h
    simp only [collectChunkIndices] at h
    split at h
    · rcases List.mem_cons.mp h with rfl | h
      · simp
      · have := ih (i + 1) idx h
        simp only [List.length_cons]; omega
    · have := ih (i + 1) idx h
      simp only [List.length_cons]; omega

theorem computePartRanges_snd_le (n parts : Nat) :
    ∀ r, r ∈ computePartRanges n parts → r.2 ≤ n := by
  intro r hr
  simp only [computePartRanges, List.mem_map, List.mem_range] at hr
  obtain ⟨p, -, rfl⟩ := hr
  simp only []
  split <;> omega

theorem initBulkSession_valid {s : MCPServer}
    {content targetLang sourceType inputPath outputPath : Str} {postID : Int}
    {backupPath : Str} {b : BulkTranslationSession}
    (h : (initBulkSession s content targetLang sourceType inputPath outputPath postID
      backupPath).bulkSession = some b) : b.Valid := by
  obtain ⟨-, htok, hci, hn, hp, hcur, hpr, htr⟩ := initBulkSession_some h
  have hparts : 0 < b.Parts := by
    rw [hp]; rcases numberOfParts_cases (totalLength (tokenize content)
      (collectChunkIndices (tokenize content) 0)) with e | e | e <;> omega
  refine ⟨?_, ?_, ?_, ?_⟩
  · rw [hcur, hpr]; simp [computePartRanges]; exact hparts
  · intro r hr
    rw [hpr] at hr
    have := computePartRanges_snd_le _ _ r hr
    rw [hn] at this
    rw [hci]; exact this
  · intro idx hidx
    rw [hci] at hidx
    have := collectChunkIndices_lt _ 0 idx hidx
    rw [htok]; omega
  · rw [htr, hci, hn]; simp

theorem parseUnits_ok_markers (text : Str) : ∀ (l : List Nat) (s : BulkTranslationSession),
    (parseUnits text l s).2 = .ok →
    ∀ k, k ∈ l → stringsIndex (chunkMarker (k + 1)) text ≠ none ∧
      stringsIndex (chunkEndMarker (k + 1)) text ≠ none := by
  intro l
  induction l with
  | nil => intro s _ k hk; simp at hk
  | cons i rest ih =>
    intro s h k hk
    rw [parseUnits_cons] at h
    by_cases hok : (parseUnit text s i).2 = .ok
    · simp only [hok, if_true] at h
      rcases List.mem_cons.mp hk with rfl | hk
      · constructor
        · intro hnone
          have : (parseUnit text s k).2 = .markerNotFound (chunkMarker (k + 1)) := by
            unfold parseUnit; simp [hnone]
          rw [this] at hok; cases hok
        · intro hnone
          have : (parseUnit text s k).2 = .markerNotFound (chunkMarker (k + 1)) ∨
              (parseUnit text s k).2 = .endMarkerNotFound (chunkEndMarker (k + 1)) := by
            unfold parseUnit
            cases hm : stringsIndex (chunkMarker (k + 1)) text with
            | none => left; simp [hm]
            | some v => right; simp [hm, hnone]
          rcases this with h1 | h1 <;> (rw [h1] at hok; cases hok)
      · exact ih _ h k hk
    · rw [if_neg hok] at h
      exact absurd h hok

theorem missing_marker_reported_or_panic (b : BulkTranslationSession) (text : Str)
    (r : Nat × Nat) (hr : b.PartRanges[b.CurrentPart]? = some r)
    (hmiss : ∃ j, r.1 ≤ j ∧ j < r.2 ∧
      (stringsIndex (chunkMarker (j + 1)) text = none ∨
        stringsIndex (chunkEndMarker (j + 1)) text = none)) :
    (parseBulkTranslation b text).2 = .panic ∨
    ∃ j, r.1 ≤ j ∧ j < r.2 ∧
      (∀ k, r.1 ≤ k → k < j → stringsIndex (chunkMarker (k + 1)) text ≠ none ∧
        stringsIndex (chunkEndMarker (k + 1)) text ≠ none) ∧
      ((stringsIndex (chunkMarker (j + 1)) text = none ∧
          (parseBulkTranslation b text).2 = .markerNotFound (chunkMarker (j + 1))) ∨
       (stringsIndex (chunkMarker (j + 1)) text ≠ none ∧
          stringsIndex (chunkEndMarker (j + 1)) text = none ∧
          (parseBulkTranslation b text).2 = .endMarkerNotFound (chunkEndMarker (j + 1)))) := by
  unfold parseBulkTranslation
  simp only [hr]
  have hne : (parseUnits text (List.range' r.1 (r.2 - r.1)) b).2 ≠ .ok := by
    intro hok
    obtain ⟨j, h1, h2, h3⟩ := hmiss
    have := parseUnits_ok_markers text _ b hok j (by rw [List.mem_range'_1]; omega)
    rcases h3 with h3 | h3
    · exact this.1 h3
    · exact this.2 h3
  obtain ⟨pre, j, post, hl, -, hmk, heq, hne2⟩ := parseUnits_fail text _ b hne
  obtain ⟨k0, hk0, hpre, hpost⟩ := List.range'_eq_append_iff.mp hl
  obtain ⟨hj, hpos, -⟩ := List.range'_eq_cons_iff.mp hpost.symm
  rw [heq]
  cases ho : (parseUnit text (parseUnits text pre b).1 j).2 with
  | ok => exact absurd ho hne2
  | panic => left; rfl
  | markerNotFound m =>
    right
    obtain ⟨hm, hnone⟩ := parseUnit_markerNotFound ho
    refine ⟨j, by omega, by omega, ?_, Or.inl ⟨hnone, by rw [hm]⟩⟩
    intro k hk1 hk2
    exact hmk k (by rw [hpre, List.mem_range'_1]; omega)
  | endMarkerNotFound m =>
    right
    obtain ⟨hm, hnone, hsome⟩ := parseUnit_endMarkerNotFound ho
    refine ⟨j, by omega, by omega, ?_, Or.inr ⟨hsome, hnone, by rw [hm]⟩⟩
    intro k hk1 hk2
    exact hmk k (by rw [hpre, List.mem_range'_1]; omega)

theorem replyAfterInit_firstChunk {srv : MCPServer} {st : Step} {total : Nat} {chunk : Str}
    (h : replyAfterInit srv = some st) (hr : st.reply = .firstChunk total chunk) :
    st.server = srv ∧ ∃ sess, srv.session = some sess ∧ sess.TextChunks[0]? = some chunk ∧
      total = sess.TotalChunks := by
  unfold replyAfterInit at h
  cases hs : srv.session with
  | none =>
    simp only [hs, Option.some.injEq] at h
    subst h
    simp at hr
  | some sess =>
    simp only [hs] at h
    cases hc : sess.TextChunks[0]? with
    | none => simp [hc] at h
    | some c =>
      simp only [hc, Option.some.injEq] at h
      subst h
      simp only [Reply.firstChunk.injEq] at hr
      exact ⟨rfl, sess, rfl, by rw [hc, hr.2], hr.1.symm⟩

theorem initSession_session_some {s : MCPServer}
    {content targetLang sourceType inputPath outputPath : Str} {postID : Int}
    {backupPath : Str} {sess : TranslationSession}
    (h : (initSession s content targetLang sourceType inputPath outputPath postID
      backupPath).session = some sess) :
    initSession s content targetLang sourceType inputPath outputPath postID backupPath
      = ⟨some sess, s.bulkSession, s.wpDB⟩ ∧
    sess = { SourceType := sourceType, InputPath := inputPath, OutputPath := outputPath,
             PostID := postID, BackupPath := backupPath, TargetLang := targetLang,
             Tokens := tokenize content,
             TextChunks := unitTexts content,
             ChunkIndices := collectChunkIndices (tokenize content) 0,
             Translations := List.replicate (unitsCount content) [],
             CurrentChunk := 0,
             TotalChunks := unitsCount content } := by
  have hlen : (collectTextChunks (tokenize content)).length = unitsCount content := by
    rw [collectTextChunks_eq]; simp [unitsCount]
  have htc : collectTextChunks (tokenize content) = unitTexts content :=
    collectTextChunks_eq _
  unfold initSession at h ⊢
  by_cases hz : (collectTextChunks (tokenize content)).length = 0
  · simp [hz] at h
  · simp only [hz, if_false, Option.some.injEq] at h ⊢
    subst h
    have hlen2 : (unitTexts content).length = unitsCount content := by
      simp [unitTexts, unitsCount]
    simp only [htc, hlen2]
    constructor <;> first | rfl | trivial

theorem legacyStarted_server {content : Str} {st : Step} (h : LegacyStarted content st) :
    ∃ (sess : TranslationSession) (bulk : Option BulkTranslationSession) (wp : Bool),
      st.server = ⟨some sess, bulk, wp⟩ ∧
      1 ≤ unitsCount content ∧
      st.reply = .firstChunk (unitsCount content) ((unitTexts content).getD 0 []) ∧
      (sess.SourceType = utf8 "wordpress" → wp = true) ∧
      sess.Tokens = tokenize content ∧
      sess.TextChunks = unitTexts content ∧
      sess.ChunkIndices = collectChunkIndices (tokenize content) 0 ∧
      sess.Translations = List.replicate (unitsCount content) [] ∧
      sess.CurrentChunk = 0 ∧
      sess.TotalChunks = unitsCount content := by
  obtain ⟨⟨total, chunk, hreply⟩, hcall⟩ := h
  have key : ∀ (srv : MCPServer) (targetLang sourceType inputPath outputPath : Str)
      (postID : Int) (backupPath : Str),
      (sourceType = utf8 "wordpress" → srv.wpDB = true) →
      replyAfterInit (initSession srv content targetLang sourceType inputPath outputPath
        postID backupPath) = some st →
      ∃ (sess : TranslationSession) (bulk : Option BulkTranslationSession) (wp : Bool),
        st.server = ⟨some sess, bulk, wp⟩ ∧
        1 ≤ unitsCount content ∧
        st.reply = .firstChunk (unitsCount content) ((unitTexts content).getD 0 []) ∧
        (sess.SourceType = utf8 "wordpress" → wp = true) ∧
        sess.Tokens = tokenize content ∧
        sess.TextChunks = unitTexts content ∧
        sess.ChunkIndices = collectChunkIndices (tokenize content) 0 ∧
        sess.Translations = List.replicate (unitsCount content) [] ∧
        sess.CurrentChunk = 0 ∧
        sess.TotalChunks = unitsCount content := by
    intro srv targetLang sourceType inputPath outputPath postID backupPath hwp hrep
    obtain ⟨hsrv, sess, hsess, hchunk, htotal⟩ := replyAfterInit_firstChunk hrep hreply
    obtain ⟨hinit, hfields⟩ := initSession_session_some hsess
    refine ⟨sess, srv.bulkSession, srv.wpDB, by rw [hsrv, hinit], ?_, ?_, ?_, ?_, ?_, ?_, ?_, ?_,
      ?_⟩
    · have h2 : sess.TextChunks = unitTexts content := by rw [hfields]
      rw [h2] at hchunk
      obtain ⟨hlt, -⟩ := List.getElem?_eq_some_iff.mp hchunk
      have : (unitTexts content).length = unitsCount content := by
        simp [unitTexts, unitsCount]
      omega
    · rw [hreply, htotal]
      have h1 : sess.TotalChunks = unitsCount content := by rw [hfields]
      have h2 : sess.TextChunks = unitTexts content := by rw [hfields]
      rw [h2] at hchunk
      rw [h1, List.getD_eq_getElem?_getD, hchunk]
      rfl
    · intro hs
      apply hwp
      rw [hfields] at hs
      exact hs
    all_goals rw [hfields]
  rcases hcall with ⟨s, inputPath, outputPath, targetLang, env, hread, hcall⟩ |
      ⟨s, postID, targetLang, env, backupPath, hread, hcall⟩
  · unfold handleStartTranslation at hcall
    split at hcall
    · simp only [Option.some.injEq] at hcall; subst hcall; simp at hreply
    · simp only [hread] at hcall
      exact key s targetLang (utf8 "file") inputPath outputPath 0 []
        (fun hf => absurd hf (by decide)) hcall
  · unfold handleStartWordPressTranslation at hcall
    split at hcall
    · simp only [Option.some.injEq] at hcall; subst hcall; simp at hreply
    · unfold getWordPressDB at hcall
      by_cases hw : s.wpDB = true
      · simp only [hw, if_true, hread] at hcall
        exact key s targetLang (utf8 "wordpress") [] [] postID backupPath (fun _ => hw) hcall
      · by_cases hc : env.connect = true
        · simp only [hw, hc, if_true, Bool.false_eq_true, if_false, hread] at hcall
          exact key { s with wpDB := true } targetLang (utf8 "wordpress") [] [] postID
            backupPath (fun _ => rfl) hcall
        · simp only [hw, hc, Bool.false_eq_true, if_false, Option.some.injEq] at hcall
          subst hcall
          simp at hreply

/-! ## Lemmas: the extraction payload has the block layout -/

theorem extractBlocks_eq (b : BulkTranslationSession)
    (htokens : ∀ idx, idx ∈ b.ChunkIndices → idx < b.Tokens.length) :
    ∀ (l : List Nat), (∀ i ∈ l, i < b.ChunkIndices.length) →
    extractBlocks b l = some (chunkBlocks (originalText b) l) := by
  intro l
  induction l with
  | nil => intro _; rfl
  | cons i rest ih =>
    intro hl
    have hi : i < b.ChunkIndices.length := hl i (by simp)
    have hci : b.ChunkIndices[i]? = some (b.ChunkIndices[i]) := List.getElem?_eq_getElem hi
    have hlt : b.ChunkIndices[i] < b.Tokens.length := htokens _ (List.getElem_mem hi)
    have htok : b.Tokens[b.ChunkIndices[i]]? = some (b.Tokens[b.ChunkIndices[i]]) :=
      List.getElem?_eq_getElem hlt
    have hrest := ih (fun j hj => hl j (List.mem_cons_of_mem _ hj))
    simp only [extractBlocks, hci, htok, hrest, chunkBlocks,
      originalText_eq b i _ _ hci htok]

theorem generateBulkExtractResponse_payload (b : BulkTranslationSession) (hv : b.Valid)
    (r : Nat × Nat) (hr : b.PartRanges[b.CurrentPart]? = some r) :
    generateBulkExtractResponse b
      = some (bulkPayload (bulkHeader b r) (originalText b) r.1 r.2) := by
  obtain ⟨-, hranges, htokens, -⟩ := hv
  have hr2 : r.2 ≤ b.ChunkIndices.length := hranges r (List.getElem?_mem hr)
  have hblocks := extractBlocks_eq b htokens (List.range' r.1 (r.2 - r.1))
    (by intro i hi; rw [List.mem_range'_1] at hi; omega)
  simp only [generateBulkExtractResponse, hr, hblocks, bulkPayload]

theorem applyBulkTranslations_collect (tr : List Str) : ∀ (ts pre : List Token) (j : Nat),
    j + (ts.filter isUnit).length ≤ tr.length →
    applyBulkTranslations tr (collectChunkIndices ts pre.length) j (pre ++ ts)
      = some (pre ++ mergeUnits ts (tr.drop j)) := by
  intro ts
  induction ts with
  | nil => intro pre j _; simp [collectChunkIndices, applyBulkTranslations, mergeUnits]
  | cons t ts ih =>
    intro pre j hlen
    by_cases hu : isUnit t = true
    · simp only [List.filter_cons_of_pos hu, List.length_cons] at hlen
      have hj : j < tr.length := by omega
      have htr : tr[j]? = some tr[j] := List.getElem?_eq_getElem hj
      have hdrop : tr.drop j = tr[j] :: tr.drop (j + 1) := List.drop_eq_getElem_cons hj
      by_cases hx : tr[j] = []
      · have hstep := ih (pre ++ [t]) (j + 1) (by omega)
        simp only [List.length_append, List.length_singleton, List.append_assoc,
          List.singleton_append] at hstep
        simp only [collectChunkIndices, hu, if_true, applyBulkTranslations, htr, hx, hdrop,
          mergeUnits, ne_eq, not_true_eq_false, if_false, hstep]
      · have htok : (pre ++ t :: ts)[pre.length]? = some t := by
          rw [List.getElem?_append_right (Nat.le_refl _)]
          simp
        have hset : (pre ++ t :: ts).set pre.length { t with Value := tr[j] }
            = (pre ++ [{ t with Value := tr[j] }]) ++ ts := by
          rw [List.set_append_right _ _ (Nat.le_refl _)]
          simp
        have hstep := ih (pre ++ [{ t with Value := tr[j] }]) (j + 1) (by omega)
        simp only [List.length_append, List.length_singleton] at hstep
        simp only [collectChunkIndices, hu, if_true, applyBulkTranslations, htr, ne_eq, hx,
          not_false_eq_true, htok, hset, hstep, hdrop, mergeUnits]
        simp
    · have hlen2 : j + (ts.filter isUnit).length ≤ tr.length := by
        simpa [List.filter_cons_of_neg hu] using hlen
      have hstep := ih (pre ++ [t]) j hlen2
      simp only [List.length_append, List.length_singleton, List.append_assoc,
        List.singleton_append] at hstep
      simp only [collectChunkIndices, hu, Bool.false_eq_true, if_false, hstep, mergeUnits]

theorem applyBulkTranslations_aligned (b : BulkTranslationSession) (h : b.Aligned) :
    applyBulkTranslations b.Translations b.ChunkIndices 0 b.Tokens
      = some (mergeUnits b.Tokens b.Translations) := by
  obtain ⟨hci, hlen⟩ := h
  have hcount : (b.Tokens.filter isUnit).length = b.ChunkIndices.length := by
    rw [hci, collectChunkIndices_length]
  have := applyBulkTranslations_collect b.Translations b.Tokens [] 0 (by omega)
  rw [hci]
  simpa using this

theorem mergeUnits_sameStructure : ∀ (ts : List Token) (tr : List Str),
    SameStructure ts (mergeUnits ts tr) := by
  intro ts
  induction ts with
  | nil => intro tr; exact List.Forall₂.nil
  | cons t ts ih =>
    intro tr
    unfold mergeUnits
    by_cases hu : isUnit t = true
    · simp only [hu, if_true]
      cases tr with
      | nil => exact List.Forall₂.cons ⟨rfl, fun _ => rfl⟩ (ih [])
      | cons x xs =>
        refine List.Forall₂.cons ⟨?_, fun hf => ?_⟩ (ih xs)
        · split <;> rfl
        · rw [hu] at hf; cases hf
    · simp only [hu, Bool.false_eq_true, if_false]
      exact List.Forall₂.cons ⟨rfl, fun _ => rfl⟩ (ih tr)

theorem substituteUnits_sameStructure : ∀ (ts : List Token) (tr : List Str),
    SameStructure ts (substituteUnits ts tr) := by
  intro ts
  induction ts with
  | nil => intro tr; exact List.Forall₂.nil
  | cons t ts ih =>
    intro tr
    unfold substituteUnits
    by_cases hu : isUnit t = true
    · simp only [hu, if_true]
      cases tr with
      | nil => exact List.Forall₂.cons ⟨rfl, fun _ => rfl⟩ (ih [])
      | cons x xs =>
        refine List.Forall₂.cons ⟨rfl, fun hf => ?_⟩ (ih xs)
        rw [hu] at hf; cases hf
    · simp only [hu, Bool.false_eq_true, if_false]
      exact List.Forall₂.cons ⟨rfl, fun _ => rfl⟩ (ih tr)
theorem mergeUnits_getElem : ∀ (ts : List Token) (k : Nat) (tr : List Str) (i idx : Nat),
    (collectChunkIndices ts k)[i]? = some idx →
    ∃ t, k ≤ idx ∧ ts[idx - k]? = some t ∧ isUnit t = true ∧
      (mergeUnits ts tr)[idx - k]? = some
        (match tr[i]? with
          | some x => if x ≠ [] then { t with Value := x } else t
          | none => t) := by
  intro ts
  induction ts with
  | nil => intro k tr i idx h; simp [collectChunkIndices] at h
  | cons t ts ih =>
    intro k tr i idx h
    by_cases hu : isUnit t = true
    · simp only [collectChunkIndices, hu, if_true] at h
      cases i with
      | zero =>
        simp only [List.getElem?_cons_zero, Option.some.injEq] at h
        subst h
        refine ⟨t, Nat.le_refl _, by simp, hu, ?_⟩
        cases tr with
        | nil => simp [mergeUnits, hu]
        | cons x xs => simp [mergeUnits, hu]
      | succ i =>
        simp only [List.getElem?_cons_succ] at h
        cases tr with
        | nil =>
          obtain ⟨t2, hk, h1, h2, h3⟩ := ih (k + 1) [] i idx h
          have e : idx - k = (idx - (k + 1)) + 1 := by omega
          refine ⟨t2, by omega, ?_, h2, ?_⟩
          · rw [e]; simpa using h1
          · rw [e]
            simp only [mergeUnits, hu, if_true, List.getElem?_cons_succ]
            simpa using h3
        | cons x xs =>
          obtain ⟨t2, hk, h1, h2, h3⟩ := ih (k + 1) xs i idx h
          have e : idx - k = (idx - (k + 1)) + 1 := by omega
          refine ⟨t2, by omega, ?_, h2, ?_⟩
          · rw [e]; simpa using h1
          · rw [e]
            simp only [mergeUnits, hu, if_true, List.getElem?_cons_succ]
            exact h3
    · simp only [collectChunkIndices, hu, Bool.false_eq_true, if_false] at h
      obtain ⟨t2, hk, h1, h2, h3⟩ := ih (k + 1) tr i idx h
      have e : idx - k = (idx - (k + 1)) + 1 := by omega
      refine ⟨t2, by omega, ?_, h2, ?_⟩
      · rw [e]; simpa using h1
      · rw [e]
        simp only [mergeUnits, hu, Bool.false_eq_true, if_false, List.getElem?_cons_succ]
        exact h3

theorem initBulkSession_aligned {s : MCPServer}
    {content targetLang sourceType inputPath outputPath : Str} {postID : Int}
    {backupPath : Str} {b : BulkTranslationSession}
    (h : (initBulkSession s content targetLang sourceType inputPath outputPath postID
      backupPath).bulkSession = some b) : b.Aligned := by
  obtain ⟨-, htok, hci, hn, -, -, -, htr⟩ := initBulkSession_some h
  refine ⟨by rw [hci, htok], ?_⟩
  rw [htr, hci, hn]; simp

theorem parseBulkTranslation_aligned (b : BulkTranslationSession) (text : Str)
    (h : b.Aligned) : (parseBulkTranslation b text).1.Aligned := by
  have key : (parseBulkTranslation b text).1.frame = b.frame ∧
      (parseBulkTranslation b text).1.Translations.length = b.Translations.length := by
    unfold parseBulkTranslation
    cases b.PartRanges[b.CurrentPart]? with
    | none => exact ⟨rfl, rfl⟩
    | some r =>
      obtain ⟨hf, hl, -⟩ := parseUnits_frame text (List.range' r.1 (r.2 - r.1)) b
      exact ⟨hf, hl⟩
  obtain ⟨hf, hl⟩ := key
  have h1 : (parseBulkTranslation b text).1.ChunkIndices = b.ChunkIndices := by
    have := congrArg BulkTranslationSession.ChunkIndices hf
    simpa [BulkTranslationSession.frame] using this
  have h2 : (parseBulkTranslation b text).1.Tokens = b.Tokens := by
    have := congrArg BulkTranslationSession.Tokens hf
    simpa [BulkTranslationSession.frame] using this
  obtain ⟨hci, hlen⟩ := h
  exact ⟨by rw [h1, h2]; exact hci, by rw [hl, h1]; exact hlen⟩

/-! ## Lemmas: the unit indices -/

theorem isUnit_iff (t : Token) :
    isUnit t = true ↔ t.Kind = kindText ∧ trimSpace t.Value ≠ [] := by
  simp [isUnit]

theorem collectChunkIndices_ge (ts : List Token) : ∀ (k idx : Nat),
    idx ∈ collectChunkIndices ts k → k ≤ idx := by
  induction ts with
  | nil => intro k idx h; simp [collectChunkIndices] at h
  | cons t ts ih =>
    intro k idx h
    simp only [collectChunkIndices] at h
    split at h
    · rcases List.mem_cons.mp h with rfl | h
      · exact Nat.le_refl _
      · have := ih (k + 1) idx h; omega
    · have := ih (k + 1) idx h; omega

theorem collectChunkIndices_mem (ts : List Token) : ∀ (k idx : Nat),
    idx ∈ collectChunkIndices ts k ↔
      k ≤ idx ∧ ∃ t, ts[idx - k]? = some t ∧ isUnit t = true := by
  induction ts with
  | nil => intro k idx; simp [collectChunkIndices]
  | cons t ts ih =>
    intro k idx
    have hrec : idx ∈ collectChunkIndices ts (k + 1) ↔
        k < idx ∧ ∃ t2, (t :: ts)[idx - k]? = some t2 ∧ isUnit t2 = true := by
      rw [ih (k + 1) idx]
      constructor
      · rintro ⟨h1, t2, h2, h3⟩
        have e : idx - k = (idx - (k + 1)) + 1 := by omega
        exact ⟨by omega, t2, by rw [e]; simpa using h2, h3⟩
      · rintro ⟨h1, t2, h2, h3⟩
        have e : idx - k = (idx - (k + 1)) + 1 := by omega
        rw [e] at h2
        exact ⟨by omega, t2, by simpa using h2, h3⟩
    by_cases hu : isUnit t = true
    · simp only [collectChunkIndices, hu, if_true, List.mem_cons, hrec]
      constructor
      · rintro (rfl | ⟨h1, h2⟩)
        · exact ⟨Nat.le_refl _, t, by simp, hu⟩
        · exact ⟨by omega, h2⟩
      · rintro ⟨h1, h2⟩
        by_cases he : idx = k
        · left; exact he
        · right; exact ⟨by omega, h2⟩
    · simp only [collectChunkIndices, hu, Bool.false_eq_true, if_false, hrec]
      constructor
      · rintro ⟨h1, h2⟩; exact ⟨by omega, h2⟩
      · rintro ⟨h1, t2, h2, h3⟩
        refine ⟨?_, t2, h2, h3⟩
        by_contra hlt
        have he : idx = k := by omega
        subst he
        simp only [Nat.sub_self, List.getElem?_cons_zero, Option.some.injEq] at h2
        subst h2
        exact hu h3

theorem collectChunkIndices_pairwise (ts : List Token) : ∀ (k : Nat),
    (collectChunkIndices ts k).Pairwise (· < ·) := by
  induction ts with
  | nil => intro k; simp [collectChunkIndices]
  | cons t ts ih =>
    intro k
    simp only [collectChunkIndices]
    split
    · rw [List.pairwise_cons]
      refine ⟨?_, ih (k + 1)⟩
      intro idx hidx
      have := collectChunkIndices_ge ts (k + 1) idx hidx
      omega
    · exact ih (k + 1)

/-! ## Lemmas: white-space edges -/

theorem hasSuffix_newline_cons (t : Str) (ht : t ≠ []) :
    hasSuffix (10 :: t) [10] = hasSuffix t [10] := by
  unfold hasSuffix
  rw [Bool.eq_iff_iff, List.isSuffixOf_iff_suffix, List.isSuffixOf_iff_suffix]
  constructor
  · rintro ⟨u, hu⟩
    cases u with
    | nil =>
      exfalso
      simp only [List.nil_append, List.cons.injEq, true_and] at hu
      exact ht hu.symm
    | cons x u =>
      simp only [List.cons_append, List.cons.injEq] at hu
      exact ⟨u, hu.2⟩
  · rintro ⟨u, hu⟩
    exact ⟨10 :: u, by simp [hu]⟩

theorem restoreEdges_eq (o t : Str) :
    restoreEdges o t =
      (if hasPrefix o [10] && !hasPrefix t [10] then [10] else []) ++ t ++
      (if hasSuffix o [10] &&
          !hasSuffix ((if hasPrefix o [10] && !hasPrefix t [10] then [10] else []) ++ t) [10]
        then [10] else []) := by
  unfold restoreEdges
  by_cases h1 : (hasPrefix o [10] && !hasPrefix t [10]) = true
  · simp only [h1, if_true]
    split <;> simp
  · simp only [h1, Bool.false_eq_true, if_false, List.nil_append]
    split <;> simp

theorem restoreEdges_of_ne_nil (o t : Str) (ht : t ≠ []) :
    restoreEdges o t = edgesAsClaimed o t := by
  rw [restoreEdges_eq]
  unfold edgesAsClaimed
  by_cases h1 : (hasPrefix o [10] && !hasPrefix t [10]) = true
  · simp only [h1, if_true]
    have : hasSuffix ([10] ++ t) [10] = hasSuffix t [10] := hasSuffix_newline_cons t ht
    rw [this]
  · simp only [h1, Bool.false_eq_true, if_false, List.nil_append]

theorem restoreEdges_nil (o : Str) :
    restoreEdges o [] = if hasPrefix o [10] || hasSuffix o [10] then [10] else [] := by
  unfold restoreEdges
  have h1 : hasPrefix ([] : Str) [10] = false := by decide
  have h2 : hasSuffix ([] : Str) [10] = false := by decide
  have h3 : hasSuffix ([10] ++ ([] : Str)) [10] = true := by decide
  have h4 : hasSuffix ([10] : Str) [10] = true := by decide
  by_cases hp : hasPrefix o [10] = true
  · simp [hp, h1, h3, h4]
  · by_cases hs : hasSuffix o [10] = true
    · simp [hp, hs, h1, h2]
    · simp [hp, hs, h1]

theorem parseUnit_ok {text : Str} {s : BulkTranslationSession} {i : Nat}
    (h : (parseUnit text s i).2 = .ok) :
    ∃ a e chunkIdx tok,
      stringsIndex (chunkMarker (i + 1)) text = some a ∧
      stringsIndex (chunkEndMarker (i + 1)) text = some e ∧
      a + (chunkMarker (i + 1)).length ≤ e ∧ e ≤ text.length ∧
      s.ChunkIndices[i]? = some chunkIdx ∧ s.Tokens[chunkIdx]? = some tok ∧
      i < s.Translations.length ∧
      (parseUnit text s i).1.Translations[i]?
        = some (restoreEdges tok.Value
            (trimSpace (slice text (a + (chunkMarker (i + 1)).length) e))) := by
  cases hM : stringsIndex (chunkMarker (i + 1)) text with
  | none => simp [parseUnit, hM] at h
  | some a =>
    cases hE : stringsIndex (chunkEndMarker (i + 1)) text with
    | none => simp [parseUnit, hM, hE] at h
    | some e =>
      by_cases hc : a + (chunkMarker (i + 1)).length > e ∨ e > text.length
      · simp [parseUnit, hM, hE, hc] at h
      · cases hci : s.ChunkIndices[i]? with
        | none => simp [parseUnit, hM, hE, hc, hci] at h
        | some chunkIdx =>
          cases htok : s.Tokens[chunkIdx]? with
          | none => simp [parseUnit, hM, hE, hc, hci, htok] at h
          | some tok =>
            by_cases hi : i < s.Translations.length
            · have hp : parseUnit text s i
                  = ({ s with
                        Translations :=
                          s.Translations.set i (restoreEdges tok.Value
                            (trimSpace (slice text (a + (chunkMarker (i + 1)).length) e))) },
                      .ok) := by
                simp only [parseUnit, hM, hE, hc, if_false, hci, htok, hi, if_true]
              refine ⟨a, e, chunkIdx, tok, rfl, rfl, by omega, by omega, rfl, htok, hi, ?_⟩
              rw [hp]
              exact List.getElem?_set_self hi
            · simp [parseUnit, hM, hE, hc, hci, htok, hi] at h

/-! ## Lemmas: the cleanup around one inserted tag -/

theorem replacerReplace_cons (pairs : List (Str × Str)) (f c : Nat) (t : Str) :
    replacerReplace pairs (f + 1) (c :: t) =
      match pairs.find? (fun p => p.1.isPrefixOf (c :: t)) with
      | some p => p.2 ++ replacerReplace pairs f ((c :: t).drop p.1.length)
      | none => c :: replacerReplace pairs f t := rfl

theorem replacer_copy (pats : List Str) (rest : Str) : ∀ (a : Str) (fuel : Nat),
    a.length ≤ fuel →
    (∀ k, k < a.length → ∀ q ∈ pats, ¬ q <+: a.drop k ++ rest) →
    replacerReplace (pats.map (fun q => (q, []))) fuel (a ++ rest)
      = a ++ replacerReplace (pats.map (fun q => (q, []))) (fuel - a.length) rest := by
  intro a
  induction a with
  | nil => intro fuel _ _; simp
  | cons c a ih =>
    intro fuel hfuel hno
    obtain ⟨f, rfl⟩ : ∃ f, fuel = f + 1 := ⟨fuel - 1, by simp at hfuel; omega⟩
    have hfind : (pats.map (fun q => (q, ([] : Str)))).find?
        (fun p => p.1.isPrefixOf (c :: (a ++ rest))) = none := by
      rw [List.find?_eq_none]
      intro p hp
      rw [List.mem_map] at hp
      obtain ⟨q, hq, rfl⟩ := hp
      have := hno 0 (by simp) q hq
      simpa [List.isPrefixOf_iff_prefix] using this
    have hrec := ih f (by simp at hfuel; omega) (fun k hk q hq => by
      have := hno (k + 1) (by simp; omega) q hq
      simpa using this)
    rw [List.cons_append, replacerReplace_cons, hfind]
    simp only [hrec, List.length_cons, Nat.add_sub_add_right, List.cons_append]

theorem prefix_append_cases (p u w : Str) (h : p <+: u ++ w) :
    p <+: u ∨ ∃ v, p = u ++ v ∧ v <+: w := by
  obtain ⟨t, ht⟩ := h
  rcases List.append_eq_append_iff.mp ht with ⟨a1, hu, -⟩ | ⟨c1, hp, hw⟩
  · left; exact ⟨a1, hu.symm⟩
  · right; exact ⟨c1, hp, ⟨t, hw.symm⟩⟩

theorem emptyPTags_no_overlap : ∀ q ∈ emptyPTags, ∀ m, m < q.length → 1 ≤ m →
    ¬ (q.drop m).take 2 <+: [60, 112] := by
  decide

theorem no_match_before_tag (a b : Str) (ha : ∀ q ∈ emptyPTags, ¬ q <:+: a) :
    ∀ k, k < a.length → ∀ q ∈ emptyPTags, ¬ q <+: a.drop k ++ (utf8 "<p></p>" ++ b) := by
  intro k hk q hq hpre
  have hsuf : a.drop k <:+ a := List.drop_suffix k a
  rcases prefix_append_cases _ _ _ hpre with h | ⟨v, hqv, hv⟩
  · exact ha q hq (h.isInfix.trans hsuf.isInfix)
  · have hu : 1 ≤ (a.drop k).length := by rw [List.length_drop]; omega
    by_cases hvn : v = []
    · subst hvn
      rw [List.append_nil] at hqv
      exact ha q hq (hqv ▸ hsuf.isInfix)
    · have hvl : 1 ≤ v.length := by
        have := List.length_pos.mpr hvn; omega
      have hlen : q.length = (a.drop k).length + v.length := by rw [hqv]; simp
      have hdrop : q.drop (a.drop k).length = v := by
        rw [hqv]; exact List.drop_left' rfl
      have htag : (utf8 "<p></p>" ++ b).take 2 = [60, 112] := by
        have : utf8 "<p></p>" = [60, 112, 62, 60, 47, 112, 62] := by decide
        rw [this]; rfl
      have h2 : v.take 2 <+: [60, 112] := by
        have := hv.take 2
        rwa [htag] at this
      rw [← hdrop] at h2
      exact emptyPTags_no_overlap q hq (a.drop k).length (by omega) hu h2

theorem dropEmptyPTags_tag (b : Str) (hb : ∀ q ∈ emptyPTags, ¬ q <:+: b) (f : Nat) :
    replacerReplace (emptyPTags.map (fun q => (q, []))) (f + 1) (utf8 "<p></p>" ++ b) = b := by
  have htag : utf8 "<p></p>" = [60, 112, 62, 60, 47, 112, 62] := by decide
  have hmap : emptyPTags.map (fun q => (q, ([] : Str)))
      = ([60, 112, 62, 60, 47, 112, 62], []) :: (emptyPTags.tail.map (fun q => (q, []))) := by
    decide
  have hfind : (emptyPTags.map (fun q => (q, ([] : Str)))).find?
      (fun p => p.1.isPrefixOf (60 :: ([112, 62, 60, 47, 112, 62] ++ b)))
      = some ([60, 112, 62, 60, 47, 112, 62], []) := by
    rw [hmap]
    simp [List.find?, List.isPrefixOf]
  rw [htag]
  show replacerReplace _ (f + 1) (60 :: ([112, 62, 60, 47, 112, 62] ++ b)) = b
  rw [replacerReplace_cons, hfind]
  simp only [List.nil_append, List.length_cons, List.length_nil, List.drop_succ_cons,
    List.cons_append, List.drop_zero]
  exact replacer_fixed emptyPTags f b hb

/-! ## Lemmas: when a bulk submission panics -/

theorem parseUnit_panic {text : Str} {s : BulkTranslationSession} {i : Nat}
    (h : (parseUnit text s i).2 = .panic)
    (hci : i < s.ChunkIndices.length)
    (htokens : ∀ idx, idx ∈ s.ChunkIndices → idx < s.Tokens.length)
    (hslots : s.Translations.length = s.ChunkIndices.length) :
    ∃ a e, stringsIndex (chunkMarker (i + 1)) text = some a ∧
      stringsIndex (chunkEndMarker (i + 1)) text = some e ∧
      e < a + (chunkMarker (i + 1)).length := by
  cases hM : stringsIndex (chunkMarker (i + 1)) text with
  | none => simp [parseUnit, hM] at h
  | some a =>
    cases hE : stringsIndex (chunkEndMarker (i + 1)) text with
    | none => simp [parseUnit, hM, hE] at h
    | some e =>
      refine ⟨a, e, rfl, rfl, ?_⟩
      by_contra hge
      have hel : e ≤ text.length := stringsIndex_le _ _ _ hE
      have hc : ¬ (a + (chunkMarker (i + 1)).length > e ∨ e > text.length) := by omega
      have h1 : s.ChunkIndices[i]? = some (s.ChunkIndices[i]) := List.getElem?_eq_getElem hci
      have hlt : s.ChunkIndices[i] < s.Tokens.length := htokens _ (List.getElem_mem hci)
      have h2 : s.Tokens[s.ChunkIndices[i]]? = some (s.Tokens[s.ChunkIndices[i]]) :=
        List.getElem?_eq_getElem hlt
      have h3 : i < s.Translations.length := by omega
      simp [parseUnit, hM, hE, hc, h1, h2, h3] at h

theorem panic_only_from_reversed_markers (b : BulkTranslationSession) (hv : b.Valid)
    (text : Str) (h : (parseBulkTranslation b text).2 = .panic) :
    ∃ r j a e, b.PartRanges[b.CurrentPart]? = some r ∧ r.1 ≤ j ∧ j < r.2 ∧
      stringsIndex (chunkMarker (j + 1)) text = some a ∧
      stringsIndex (chunkEndMarker (j + 1)) text = some e ∧
      e < a + (chunkMarker (j + 1)).length := by
  obtain ⟨hcur, hranges, htokens, hslots⟩ := hv
  have hr : b.PartRanges[b.CurrentPart]? = some (b.PartRanges[b.CurrentPart]) :=
    List.getElem?_eq_getElem hcur
  generalize b.PartRanges[b.CurrentPart] = r at hr
  have hr2 : r.2 ≤ b.ChunkIndices.length := hranges r (List.getElem?_mem hr)
  unfold parseBulkTranslation at h
  simp only [hr] at h
  have hne : (parseUnits text (List.range' r.1 (r.2 - r.1)) b).2 ≠ .ok := by
    rw [h]; simp
  obtain ⟨pre, j, post, hl, -, -, heq, -⟩ := parseUnits_fail text _ b hne
  obtain ⟨k0, hk0, hpre, hpost⟩ := List.range'_eq_append_iff.mp hl
  obtain ⟨hj, hpos, -⟩ := List.range'_eq_cons_iff.mp hpost.symm
  rw [heq] at h
  obtain ⟨hf, hlen, -⟩ := parseUnits_frame text pre b
  have hc : (parseUnits text pre b).1.ChunkIndices = b.ChunkIndices := by
    have := congrArg BulkTranslationSession.ChunkIndices hf
    simpa [BulkTranslationSession.frame] using this
  have ht : (parseUnits text pre b).1.Tokens = b.Tokens := by
    have := congrArg BulkTranslationSession.Tokens hf
    simpa [BulkTranslationSession.frame] using this
  obtain ⟨a, e, hM, hE, hlt⟩ := parseUnit_panic h (by rw [hc]; omega)
    (by rw [hc, ht]; exact htokens) (by rw [hlen, hc]; exact hslots)
  exact ⟨r, j, a, e, hr, by omega, by omega, hM, hE, hlt⟩

/-! ## Lemmas: structure of the reassembled tokens -/

theorem applyTranslations_aligned (t : TranslationSession) (h : t.Aligned) :
    applyTranslations t.Translations t.ChunkIndices 0 t.Tokens
      = some (substituteUnits t.Tokens t.Translations) := by
  obtain ⟨hci, hlen⟩ := h
  have hcount : (t.Tokens.filter isUnit).length = t.ChunkIndices.length := by
    rw [hci, collectChunkIndices_length]
  have := applyTranslations_collect t.Translations t.Tokens [] 0 (by omega)
  rw [hci]
  simpa using this

theorem sameStructure_length {ts1 ts2 : List Token} (h : SameStructure ts1 ts2) :
    ts2.length = ts1.length := (List.Forall₂.length_eq h).symm

theorem sameStructure_getElem {ts1 ts2 : List Token} (h : SameStructure ts1 ts2) :
    ∀ (k : Nat) (t1 : Token), ts1[k]? = some t1 →
      ∃ t2, ts2[k]? = some t2 ∧ t2.Kind = t1.Kind ∧ (isUnit t1 = false → t2 = t1) := by
  unfold SameStructure at h
  induction h with
  | nil => intro k t1 hk; simp at hk
  | cons hab _ ih =>
    intro k t1 hk
    cases k with
    | zero =>
      simp only [List.getElem?_cons_zero, Option.some.injEq] at hk
      subst hk
      exact ⟨_, by simp, hab.1, hab.2⟩
    | succ k =>
      simp only [List.getElem?_cons_succ] at hk ⊢
      exact ih k t1 hk

theorem isUnit_shortcode (t : Token) (h : t.Kind = kindShortcode) : isUnit t = false := by
  have hne : kindShortcode ≠ kindText := by decide
  simp [isUnit, h, hne]

/-! ## Lemmas: first occurrences -/

theorem stringsIndex_spec (sub : Str) : ∀ (s : Str) (k : Nat),
    stringsIndex sub s = some k → sub <+: s.drop k ∧ ∀ j, j < k → ¬ sub <+: s.drop j := by
  intro s
  induction s with
  | nil =>
    intro k h
    simp only [stringsIndex] at h
    split at h
    · rename_i hp
      cases h
      exact ⟨by simpa [List.isPrefixOf_iff_prefix] using hp, fun j hj => absurd hj (by omega)⟩
    · cases h
  | cons c t ih =>
    intro k h
    simp only [stringsIndex] at h
    split at h
    · rename_i hp
      cases h
      exact ⟨by simpa [List.isPrefixOf_iff_prefix] using hp, fun j hj => absurd hj (by omega)⟩
    · rename_i hp
      cases hr : stringsIndex sub t with
      | none => simp [hr] at h
      | some m =>
        simp only [hr, Option.map_some', Option.some.injEq] at h
        subst h
        obtain ⟨h1, h2⟩ := ih m hr
        refine ⟨by simpa using h1, fun j hj => ?_⟩
        cases j with
        | zero => simpa [List.isPrefixOf_iff_prefix] using hp
        | succ j => simpa using h2 j (by omega)

theorem stringsIndex_none (sub : Str) : ∀ (s : Str),
    stringsIndex sub s = none → ∀ j, ¬ sub <+: s.drop j := by
  intro s
  induction s with
  | nil =>
    intro h j
    simp only [stringsIndex] at h
    split at h
    · cases h
    · rename_i hp
      simpa [List.isPrefixOf_iff_prefix] using hp
  | cons c t ih =>
    intro h j
    simp only [stringsIndex] at h
    split at h
    · cases h
    · rename_i hp
      cases hr : stringsIndex sub t with
      | some m => simp [hr] at h
      | none =>
        cases j with
        | zero => simpa [List.isPrefixOf_iff_prefix] using hp
        | succ j => simpa using ih hr j

theorem stringsIndexByte_spec (c : Nat) : ∀ (s : Str) (e : Nat),
    stringsIndexByte c s = some e → s.take (e + 1) = s.take e ++ [c] ∧ c ∉ s.take e := by
  intro s
  induction s with
  | nil => intro e h; simp [stringsIndexByte] at h
  | cons b t ih =>
    intro e h
    simp only [stringsIndexByte] at h
    split at h
    · rename_i hb
      cases h
      simp [hb]
    · rename_i hb
      cases hr : stringsIndexByte c t with
      | none => simp [hr] at h
      | some m =>
        simp only [hr, Option.map_some', Option.some.injEq] at h
        subst h
        obtain ⟨h1, h2⟩ := ih m hr
        refine ⟨by simp [h1], ?_⟩
        simp only [List.take_succ_cons, List.mem_cons, not_or]
        exact ⟨fun hcb => hb hcb.symm, h2⟩

theorem stringsIndexByte_none (c : Nat) : ∀ (s : Str),
    stringsIndexByte c s = none → c ∉ s := by
  intro s
  induction s with
  | nil => intro _; simp
  | cons b t ih =>
    intro h
    simp only [stringsIndexByte] at h
    split at h
    · cases h
    · rename_i hb
      cases hr : stringsIndexByte c t with
      | some m => simp [hr] at h
      | none =>
        simp only [List.mem_cons, not_or]
        exact ⟨fun hcb => hb hcb.symm, ih hr⟩

theorem prefix_take_of_not_mem (c : Nat) (p s : Str) (e : Nat) (hp : c ∉ p) (hps : p <+: s)
    (he : s.take (e + 1) = s.take e ++ [c]) : p <+: s.take e := by
  rw [List.prefix_take_iff]
  refine ⟨hps, ?_⟩
  by_contra hlt
  have hlt : e < p.length := by omega
  obtain ⟨z, rfl⟩ := hps
  have h1 : (p ++ z).take (e + 1) = p.take (e + 1) := by
    rw [List.take_append_of_le_length (by omega)]
  have h2 : (p ++ z).take e = p.take e := by
    rw [List.take_append_of_le_length (by omega)]
  rw [h1, h2] at he
  have hmem : c ∈ p.take (e + 1) := by rw [he]; simp
  exact hp (List.mem_of_mem_take hmem)

theorem shortcode_span (input : Str) (i rel e : Nat)
    (hd : firstDelim (stringsIndex openDelim (input.drop i))
      (stringsIndex closeDelim (input.drop i)) = some rel)
    (he : stringsIndexByte 93 (input.drop (rel + i)) = some e) :
    (hasPrefix (slice input (rel + i) (e + (rel + i) + 1)) openDelim = true ∨
      hasPrefix (slice input (rel + i) (e + (rel + i) + 1)) closeDelim = true) ∧
    (∃ body, slice input (rel + i) (e + (rel + i) + 1) = body ++ [93] ∧ 93 ∉ body) ∧
    slice input (rel + i) (e + (rel + i) + 1) <:+: input := by
  have hsl : slice input (rel + i) (e + (rel + i) + 1) = (input.drop (rel + i)).take (e + 1) := by
    unfold slice
    congr 1
    omega
  obtain ⟨htk, hnot⟩ := stringsIndexByte_spec 93 _ e he
  rw [hsl]
  refine ⟨?_, ⟨_, htk, hnot⟩, ?_⟩
  · rw [htk]
    rcases firstDelim_some hd with ho | hc
    · left
      have hp := (stringsIndex_spec openDelim _ rel ho).1
      rw [List.drop_drop, Nat.add_comm i rel] at hp
      have := prefix_take_of_not_mem 93 openDelim _ e (by decide) hp htk
      simp only [hasPrefix, List.isPrefixOf_iff_prefix]
      exact this.trans (List.prefix_append _ _)
    · right
      have hp := (stringsIndex_spec closeDelim _ rel hc).1
      rw [List.drop_drop, Nat.add_comm i rel] at hp
      have := prefix_take_of_not_mem 93 closeDelim _ e (by decide) hp htk
      simp only [hasPrefix, List.isPrefixOf_iff_prefix]
      exact this.trans (List.prefix_append _ _)
  · exact (List.take_prefix _ _).isInfix.trans (List.drop_suffix _ _).isInfix

theorem tokenizeLoop_shortcodes (input : Str) (P : Token → Prop)
    (htext : ∀ v, P ⟨kindText, v⟩)
    (hsc : ∀ (i rel e : Nat),
      firstDelim (stringsIndex openDelim (input.drop i))
        (stringsIndex closeDelim (input.drop i)) = some rel →
      stringsIndexByte 93 (input.drop (rel + i)) = some e →
      P ⟨kindShortcode, slice input (rel + i) (e + (rel + i) + 1)⟩) :
    ∀ (fuel i : Nat) (acc : List Token), (∀ tok ∈ acc, P tok) →
      ∀ tok ∈ tokenizeLoop input fuel i acc, P tok := by
  intro fuel
  induction fuel with
  | zero => intro i acc hacc; simpa [tokenizeLoop] using hacc
  | succ f ih =>
    intro i acc hacc
    unfold tokenizeLoop
    by_cases hi : i < input.length
    · simp only [hi, if_true]
      cases hd : firstDelim (stringsIndex openDelim (input.drop i))
          (stringsIndex closeDelim (input.drop i)) with
      | none =>
        simp only
        intro tok htok
        rw [List.mem_append] at htok
        rcases htok with h | h
        · exact hacc tok h
        · simp only [List.mem_singleton] at h; subst h; exact htext _
      | some rel =>
        simp only
        have hacc1 : ∀ tok ∈ (if rel + i > i then acc ++ [⟨kindText, slice input i (rel + i)⟩]
            else acc), P tok := by
          intro tok htok
          split at htok
          · rw [List.mem_append] at htok
            rcases htok with h | h
            · exact hacc tok h
            · simp only [List.mem_singleton] at h; subst h; exact htext _
          · exact hacc tok htok
        cases he : stringsIndexByte 93 (input.drop (rel + i)) with
        | none =>
          simp only
          intro tok htok
          rw [List.mem_append] at htok
          rcases htok with h | h
          · exact hacc1 tok h
          · simp only [List.mem_singleton] at h; subst h; exact htext _
        | some e =>
          simp only
          apply ih
          intro tok htok
          rw [List.mem_append] at htok
          rcases htok with h | h
          · exact hacc1 tok h
          · simp only [List.mem_singleton] at h; subst h; exact hsc i rel e hd he
    · simpa [hi] using hacc

theorem stringsIndexByte_getElem (c : Nat) : ∀ (s : Str) (e : Nat),
    stringsIndexByte c s = some e → s[e]? = some c := by
  intro s
  induction s with
  | nil => intro e h; simp [stringsIndexByte] at h
  | cons b t ih =>
    intro e h
    simp only [stringsIndexByte] at h
    split at h
    · rename_i hb
      cases h
      simp [hb]
    · cases hr : stringsIndexByte c t with
      | none => simp [hr] at h
      | some m =>
        simp only [hr, Option.map_some', Option.some.injEq] at h
        subst h
        simpa using ih m hr

theorem firstDelim_spec (o c s : Str) (r : Nat)
    (h : firstDelim (stringsIndex o s) (stringsIndex c s) = some r) :
    (o <+: s.drop r ∨ c <+: s.drop r) ∧
    ∀ j, j < r → ¬ o <+: s.drop j ∧ ¬ c <+: s.drop j := by
  cases ho : stringsIndex o s with
  | none =>
    cases hc : stringsIndex c s with
    | none => simp [firstDelim, ho, hc] at h
    | some b =>
      simp only [firstDelim, ho, hc, Option.some.injEq] at h
      subst h
      obtain ⟨h1, h2⟩ := stringsIndex_spec c s b hc
      exact ⟨Or.inr h1, fun j hj => ⟨stringsIndex_none o s ho j, h2 j hj⟩⟩
  | some a =>
    obtain ⟨a1, a2⟩ := stringsIndex_spec o s a ho
    cases hc : stringsIndex c s with
    | none =>
      simp only [firstDelim, ho, hc, Option.some.injEq] at h
      subst h
      exact ⟨Or.inl a1, fun j hj => ⟨a2 j hj, stringsIndex_none c s hc j⟩⟩
    | some b =>
      obtain ⟨b1, b2⟩ := stringsIndex_spec c s b hc
      simp only [firstDelim, ho, hc] at h
      split at h
      · simp only [Option.some.injEq] at h
        subst h
        exact ⟨Or.inl a1, fun j hj => ⟨a2 j hj, b2 j (by omega)⟩⟩
      · simp only [Option.some.injEq] at h
        subst h
        exact ⟨Or.inr b1, fun j hj => ⟨a2 j (by omega), b2 j hj⟩⟩

theorem firstDelim_none (o c s : Str)
    (h : firstDelim (stringsIndex o s) (stringsIndex c s) = none) :
    ∀ j, ¬ o <+: s.drop j ∧ ¬ c <+: s.drop j := by
  cases ho : stringsIndex o s with
  | none =>
    cases hc : stringsIndex c s with
    | none => exact fun j => ⟨stringsIndex_none o s ho j, stringsIndex_none c s hc j⟩
    | some b => simp [firstDelim, ho, hc] at h
  | some a =>
    cases hc : stringsIndex c s with
    | none => simp [firstDelim, ho, hc] at h
    | some b =>
      simp only [firstDelim, ho, hc] at h
      split at h <;> cases h

theorem tokenizeLoop_malformed (pre suf : Str) (d : Nat)
    (hpre : pre = [] ∨ pre.getLast? = some 93) (hsuf : 93 ∉ suf)
    (hd : firstDelim (stringsIndex openDelim suf) (stringsIndex closeDelim suf) = some d) :
    ∀ (fuel i : Nat) (acc : List Token), i ≤ pre.length → (pre ++ suf).length < fuel + i →
      ∃ toks, tokenizeLoop (pre ++ suf) fuel i acc = toks ++ [⟨kindText, suf.drop d⟩] := by
  obtain ⟨hD, hmin⟩ := firstDelim_spec openDelim closeDelim suf d hd
  have hsufdrop : ∀ j, (pre ++ suf).drop (pre.length + j) = suf.drop j := by
    intro j
    rw [List.drop_append]
  have hdlt : d < suf.length := by
    by_contra hge
    have hnil : suf.drop d = [] := List.drop_eq_nil_of_le (by omega)
    rw [hnil] at hD
    rcases hD with h | h
    · exact absurd (List.prefix_nil.mp h) (by decide)
    · exact absurd (List.prefix_nil.mp h) (by decide)
  intro fuel
  induction fuel with
  | zero =>
    intro i acc hi hfuel
    simp only [List.length_append] at hfuel
    omega
  | succ f ih =>
    intro i acc hi hfuel
    have hlen : (pre ++ suf).length = pre.length + suf.length := List.length_append _ _
    have hilt : i < (pre ++ suf).length := by omega
    unfold tokenizeLoop
    simp only [hilt, if_true]
    cases hfd : firstDelim (stringsIndex openDelim ((pre ++ suf).drop i))
        (stringsIndex closeDelim ((pre ++ suf).drop i)) with
    | none =>
      exfalso
      have hno := firstDelim_none _ _ _ hfd (pre.length + d - i)
      rw [List.drop_drop] at hno
      have harith : i + (pre.length + d - i) = pre.length + d := by omega
      rw [harith, hsufdrop] at hno
      rcases hD with h | h
      · exact hno.1 h
      · exact hno.2 h
    | some rel =>
      simp only
      obtain ⟨hR, hRmin⟩ := firstDelim_spec _ _ _ _ hfd
      rw [List.drop_drop, Nat.add_comm i rel] at hR
      have hrel : rel + i ≤ pre.length + d := by
        by_contra hgt
        have hno := hRmin (pre.length + d - i) (by omega)
        rw [List.drop_drop] at hno
        have harith : i + (pre.length + d - i) = pre.length + d := by omega
        rw [harith, hsufdrop] at hno
        rcases hD with h | h
        · exact hno.1 h
        · exact hno.2 h
      cases he : stringsIndexByte 93 ((pre ++ suf).drop (rel + i)) with
      | none =>
        simp only
        have hnot := stringsIndexByte_none 93 _ he
        have hge : pre.length ≤ rel + i := by
          by_contra hlt
          rcases hpre with h | h
          · rw [h] at hlt; simp at hlt
          · obtain ⟨ys, hys⟩ := List.getLast?_eq_some_iff.mp h
            apply hnot
            have hg : ((pre ++ suf).drop (rel + i))[ys.length - (rel + i)]? = some 93 := by
              have hl : pre.length = ys.length + 1 := by rw [hys]; simp
              rw [List.getElem?_drop]
              have : rel + i + (ys.length - (rel + i)) = ys.length := by omega
              rw [this, hys, List.append_assoc, List.getElem?_append_right (Nat.le_refl _)]
              simp
            exact List.getElem?_mem hg
        have hidx : rel + i = pre.length + d := by
          by_contra hne
          have hlt : rel + i - pre.length < d := by omega
          have hno := hmin _ hlt
          rw [← hsufdrop] at hno
          have : pre.length + (rel + i - pre.length) = rel + i := by omega
          rw [this] at hno
          rcases hR with h | h
          · exact hno.1 h
          · exact hno.2 h
        rw [hidx, hsufdrop]
        exact ⟨_, rfl⟩
      | some e =>
        simp only
        have helt := stringsIndexByte_lt 93 _ e he
        have hget := stringsIndexByte_getElem 93 _ e he
        rw [List.getElem?_drop] at hget
        simp only [List.length_drop] at helt
        have hstop : e + (rel + i) + 1 ≤ pre.length := by
          by_contra hgt
          apply hsuf
          have hge : pre.length ≤ rel + i + e := by omega
          rw [List.getElem?_append_right hge] at hget
          exact List.getElem?_mem hget
        exact ih _ _ hstop (by omega)

/-! ## Lemmas: a document of many units -/

theorem tokenizeLoop_unitBlocks : ∀ (n fuel : Nat) (pre : Str) (acc : List Token),
    n < fuel →
    tokenizeLoop (pre ++ unitBlocks n) fuel pre.length acc = acc ++ unitBlockTokens n := by
  intro n
  induction n with
  | zero =>
    intro fuel pre acc _
    cases fuel with
    | zero => simp [tokenizeLoop, unitBlockTokens]
    | succ f => simp [tokenizeLoop, unitBlocks, unitBlockTokens]
  | succ n ih =>
    intro fuel pre acc hfuel
    obtain ⟨f, rfl⟩ : ∃ f, fuel = f + 1 := ⟨fuel - 1, by omega⟩
    have hb : utf8 "x[et_]" = [120, 91, 101, 116, 95, 93] := by decide
    have ho : openDelim = [91, 101, 116, 95] := by decide
    have hc : closeDelim = [91, 47, 101, 116, 95] := by decide
    have hx : utf8 "x" = [120] := by decide
    have hs : utf8 "[et_]" = [91, 101, 116, 95, 93] := by decide
    have hdrop : (pre ++ unitBlocks (n + 1)).drop pre.length
        = 120 :: 91 :: 101 :: 116 :: 95 :: 93 :: unitBlocks n := by
      rw [List.drop_left]
      simp [unitBlocks, hb]
    have hdrop1 : (pre ++ unitBlocks (n + 1)).drop (1 + pre.length)
        = 91 :: 101 :: 116 :: 95 :: 93 :: unitBlocks n := by
      rw [Nat.add_comm, ← List.drop_drop, hdrop]
      rfl
    have hlt : pre.length < (pre ++ unitBlocks (n + 1)).length := by
      simp [unitBlocks, hb]
    have hopen : stringsIndex openDelim (120 :: 91 :: 101 :: 116 :: 95 :: 93 :: unitBlocks n)
        = some 1 := by
      rw [ho]
      rfl
    have hclose : ∃ c, stringsIndex closeDelim
        (120 :: 91 :: 101 :: 116 :: 95 :: 93 :: unitBlocks n) = c ∧ c ≠ some 0 ∧ c ≠ some 1 := by
      have hform : stringsIndex closeDelim
          (120 :: 91 :: 101 :: 116 :: 95 :: 93 :: unitBlocks n)
          = ((stringsIndex closeDelim (101 :: 116 :: 95 :: 93 :: unitBlocks n)).map
              (· + 1)).map (· + 1) := by
        rw [hc]
        rfl
      refine ⟨_, rfl, ?_, ?_⟩
      · rw [hform]
        cases stringsIndex closeDelim (101 :: 116 :: 95 :: 93 :: unitBlocks n) <;> simp
      · rw [hform]
        cases stringsIndex closeDelim (101 :: 116 :: 95 :: 93 :: unitBlocks n) <;> simp
    obtain ⟨c, hceq, hc0, hc1⟩ := hclose
    have hfd : firstDelim (some 1) c = some 1 := by
      cases c with
      | none => rfl
      | some k =>
        have hk0 : k ≠ 0 := fun h => hc0 (by rw [h])
        have hk1 : k ≠ 1 := fun h => hc1 (by rw [h])
        have : 1 < k := by omega
        simp [firstDelim, this]
    have hbyte : stringsIndexByte 93 (91 :: 101 :: 116 :: 95 :: 93 :: unitBlocks n) = some 4 := by
      rfl
    have hsl1 : slice (pre ++ unitBlocks (n + 1)) pre.length (1 + pre.length) = utf8 "x" := by
      unfold slice
      rw [hdrop, hx]
      have : 1 + pre.length - pre.length = 1 := by omega
      rw [this]
      rfl
    have hsl2 : slice (pre ++ unitBlocks (n + 1)) (1 + pre.length) (4 + (1 + pre.length) + 1)
        = utf8 "[et_]" := by
      unfold slice
      rw [hdrop1, hs]
      have : 4 + (1 + pre.length) + 1 - (1 + pre.length) = 5 := by omega
      rw [this]
      rfl
    have hnext := ih f (pre ++ utf8 "x[et_]")
      (acc ++ [⟨kindText, utf8 "x"⟩] ++ [⟨kindShortcode, utf8 "[et_]"⟩]) (by omega)
    have hlen6 : (pre ++ utf8 "x[et_]").length = 4 + (1 + pre.length) + 1 := by
      simp [hb]
      omega
    have happ : pre ++ utf8 "x[et_]" ++ unitBlocks n = pre ++ unitBlocks (n + 1) := by
      simp [unitBlocks]
    rw [hlen6, happ] at hnext
    unfold tokenizeLoop
    simp only [hlt, if_true, hdrop, hopen, hceq, hfd, hdrop1, hbyte, hsl1, hsl2]
    have hgt : 1 + pre.length > pre.length := by omega
    simp only [hgt, if_true]
    rw [hnext]
    simp [unitBlockTokens]

theorem tokenize_unitBlocks (n : Nat) : tokenize (unitBlocks n) = unitBlockTokens n := by
  have hlen : n ≤ (unitBlocks n).length := by
    induction n with
    | zero => simp
    | succ n ih =>
      simp only [unitBlocks, List.length_append]
      have : (utf8 "x[et_]").length = 6 := by decide
      omega
  have := tokenizeLoop_unitBlocks n ((unitBlocks n).length + 1) [] [] (by omega)
  simpa [tokenize] using this

theorem unitBlockTokens_filter (n : Nat) :
    (unitBlockTokens n).filter isUnit = List.replicate n ⟨kindText, utf8 "x"⟩ := by
  have h1 : isUnit ⟨kindText, utf8 "x"⟩ = true := by decide
  have h2 : isUnit ⟨kindShortcode, utf8 "[et_]"⟩ = false := by decide
  induction n with
  | zero => rfl
  | succ n ih => simp [unitBlockTokens, h1, h2, ih, List.replicate_succ]

theorem unitsCount_unitBlocks (n : Nat) : unitsCount (unitBlocks n) = n := by
  simp [unitsCount, tokenize_unitBlocks, unitBlockTokens_filter]

theorem unitsTotal_unitBlocks (n : Nat) : unitsTotal (unitBlocks n) = n := by
  have hx : (utf8 "x").length = 1 := by decide
  simp [unitsTotal, tokenize_unitBlocks, unitBlockTokens_filter, hx]

/-! ## Lemmas: the digits of a marker -/

theorem fmtD03_three (n : Nat) (hn : n < 1000) :
    fmtD03 n = [48 + n / 100, 48 + n / 10 % 10, 48 + n % 10] := by
  by_cases h1 : n < 10
  · have hf : fmtD n = [48 + n] := by simp [fmtD, digitsLoop, h1]
    have a : n / 100 = 0 := by omega
    have b : n / 10 % 10 = 0 := by omega
    have c : n % 10 = n := by omega
    simp [fmtD03, hf, a, b, c, List.replicate_succ]
  · by_cases h2 : n < 100
    · obtain ⟨m, rfl⟩ : ∃ m, n = m + 1 := ⟨n - 1, by omega⟩
      have h3 : (m + 1) / 10 < 10 := by omega
      have hf : fmtD (m + 1) = [48 + (m + 1) / 10, 48 + (m + 1) % 10] := by
        simp [fmtD, digitsLoop, h1, h3]
      have a : (m + 1) / 100 = 0 := by omega
      have b : (m + 1) / 10 % 10 = (m + 1) / 10 := by omega
      simp [fmtD03, hf, a, b, List.replicate_succ]
    · obtain ⟨m, rfl⟩ : ∃ m, n = m + 2 := ⟨n - 2, by omega⟩
      have h3 : ¬ (m + 2) / 10 < 10 := by omega
      have h4 : (m + 2) / 10 / 10 < 10 := by omega
      have hf : fmtD (m + 2)
          = [48 + (m + 2) / 10 / 10, 48 + (m + 2) / 10 % 10, 48 + (m + 2) % 10] := by
        simp [fmtD, digitsLoop, h1, h3, h4]
      have a : (m + 2) / 10 / 10 = (m + 2) / 100 := by omega
      simp [fmtD03, hf, a]

theorem digitsLoop_length : ∀ (k fuel n : Nat), 10 ^ k ≤ n → k < fuel →
    k + 1 ≤ (digitsLoop fuel n []).length := by
  intro k
  induction k with
  | zero =>
    intro fuel n _ hf
    obtain ⟨f, rfl⟩ : ∃ f, fuel = f + 1 := ⟨fuel - 1, by omega⟩
    unfold digitsLoop
    by_cases h : n < 10
    · simp [h]
    · simp only [h, if_false]
      rw [digitsLoop_acc]
      simp
  | succ k ih =>
    intro fuel n hn hf
    obtain ⟨f, rfl⟩ : ∃ f, fuel = f + 1 := ⟨fuel - 1, by omega⟩
    have hpos : 0 < 10 ^ k := Nat.pow_pos (by omega)
    have h10 : 10 ^ (k + 1) = 10 * 10 ^ k := by rw [Nat.pow_succ, Nat.mul_comm]
    have h : ¬ n < 10 := by omega
    have hdiv : 10 ^ k ≤ n / 10 := by
      rw [Nat.le_div_iff_mul_le (by omega)]
      omega
    unfold digitsLoop
    simp only [h, if_false]
    rw [digitsLoop_acc]
    have := ih f (n / 10) hdiv (by omega)
    simp only [List.length_append, List.length_singleton]
    omega

theorem fmtD03_large (n : Nat) (hn : 1000 ≤ n) :
    fmtD03 n = fmtD n ∧ 4 ≤ (fmtD n).length := by
  have hlen : 4 ≤ (fmtD n).length := digitsLoop_length 3 (n + 1) n (by simpa using hn) (by omega)
  refine ⟨?_, hlen⟩
  have : 3 - (fmtD n).length = 0 := by omega
  simp [fmtD03, this]

theorem chunkBlocks_marker (body : Nat → Str) : ∀ (l : List Nat) (i : Nat), i ∈ l →
    chunkMarker (i + 1) <:+: chunkBlocks body l := by
  intro l
  induction l with
  | nil => intro i hi; simp at hi
  | cons j rest ih =>
    intro i hi
    simp only [chunkBlocks]
    rcases List.mem_cons.mp hi with h | h
    · subst h
      refine List.IsInfix.trans ?_ (List.prefix_append _ _).isInfix
      unfold chunkBlock
      exact ⟨[10], [10] ++ body i ++ [10] ++ chunkEndMarker (i + 1) ++ [10], by simp⟩
    · exact (ih i h).trans (List.suffix_append _ _).isInfix

/-! ## Lemmas: the legacy cursor -/

theorem saveTranslatedFile_session (s : MCPServer) (t : TranslationSession) (env : Env)
    (st : Step) (h : saveTranslatedFile s t env = some st) :
    st.server.session = none ∨
    (st.reply = .saveFailed ∧ ∃ toks, st.server.session = some { t with Tokens := toks }) := by
  unfold saveTranslatedFile at h
  cases ha : applyTranslations t.Translations t.ChunkIndices 0 t.Tokens with
  | none => simp [ha] at h
  | some toks =>
    simp only [ha] at h
    by_cases hw : env.writeFile = true
    · simp only [hw, if_true, Option.some.injEq] at h
      subst h
      exact Or.inl rfl
    · simp only [hw, Bool.false_eq_true, if_false, Option.some.injEq] at h
      subst h
      exact Or.inr ⟨rfl, toks, rfl⟩

theorem saveToWordPress_session (s : MCPServer) (t : TranslationSession) (env : Env)
    (st : Step) (h : saveToWordPress s t env = some st) :
    st.server.session = none ∨
    (st.reply = .saveFailed ∧ ∃ toks, st.server.session = some { t with Tokens := toks }) := by
  unfold saveToWordPress at h
  cases ha : applyTranslations t.Translations t.ChunkIndices 0 t.Tokens with
  | none => simp [ha] at h
  | some toks =>
    simp only [ha, getWordPressDB] at h
    by_cases hdb : s.wpDB = true
    · by_cases hu : env.updatePost = true
      · simp only [hdb, hu, if_true, Option.some.injEq] at h
        subst h
        exact Or.inl rfl
      · simp only [hdb, hu, if_true, Bool.false_eq_true, if_false, Option.some.injEq] at h
        subst h
        exact Or.inr ⟨rfl, toks, rfl⟩
    · by_cases hc : env.connect = true
      · by_cases hu : env.updatePost = true
        · simp only [hdb, hc, hu, if_true, Bool.false_eq_true, if_false,
            Option.some.injEq] at h
          subst h
          exact Or.inl rfl
        · simp only [hdb, hc, hu, if_true, Bool.false_eq_true, if_false,
            Option.some.injEq] at h
          subst h
          exact Or.inr ⟨rfl, toks, rfl⟩
      · simp only [hdb, hc, Bool.false_eq_true, if_false, Option.some.injEq] at h
        subst h
        exact Or.inr ⟨rfl, toks, rfl⟩

theorem cursor_in_range_unless_save_failed (s : MCPServer) (t : TranslationSession)
    (text : Str) (env : Env) (st : Step) (hs : s.session = some t)
    (hc : t.CurrentChunk < t.TotalChunks)
    (h : handleSubmitTranslation s text env = some st) :
    st.server.session = none ∨
    ∃ t2, st.server.session = some t2 ∧ t2.TotalChunks = t.TotalChunks ∧
      t2.Translations.length = t.Translations.length ∧
      (t2.CurrentChunk < t2.TotalChunks ∨
        (st.reply = .saveFailed ∧ t2.CurrentChunk = t2.TotalChunks)) := by
  unfold handleSubmitTranslation at h
  simp only [hs] at h
  by_cases hempty : text = []
  · simp only [hempty, if_true, Option.some.injEq] at h
    subst h
    exact Or.inr ⟨t, hs, rfl, rfl, Or.inl hc⟩
  · simp only [hempty, if_false] at h
    by_cases hlt : t.CurrentChunk < t.Translations.length
    · simp only [hlt, if_true] at h
      by_cases hdone : t.CurrentChunk + 1 ≥ t.TotalChunks
      · have heq : t.CurrentChunk + 1 = t.TotalChunks := by omega
        simp only [hdone, if_true] at h
        have key : ∀ st2 : Step,
            (st2.server.session = none ∨ (st2.reply = .saveFailed ∧
              ∃ toks, st2.server.session = some
                { ({ t with
                      Translations := t.Translations.set t.CurrentChunk text
                      CurrentChunk := t.CurrentChunk + 1 } : TranslationSession)
                  with Tokens := toks })) →
            st2.server.session = none ∨
            ∃ t2, st2.server.session = some t2 ∧ t2.TotalChunks = t.TotalChunks ∧
              t2.Translations.length = t.Translations.length ∧
              (t2.CurrentChunk < t2.TotalChunks ∨
                (st2.reply = .saveFailed ∧ t2.CurrentChunk = t2.TotalChunks)) := by
          intro st2 h2
          rcases h2 with h2 | ⟨hrep, toks, h2⟩
          · exact Or.inl h2
          · exact Or.inr ⟨_, h2, rfl, by simp, Or.inr ⟨hrep, heq⟩⟩
        split at h
        · exact key st (saveToWordPress_session _ _ _ _ h)
        · exact key st (saveTranslatedFile_session _ _ _ _ h)
      · simp only [hdone, if_false] at h
        split at h
        · cases h
        · simp only [Option.some.injEq] at h
          subst h
          exact Or.inr ⟨_, rfl, rfl, by simp, Or.inl (by simp; omega)⟩
    · simp [hlt] at h

/-! ## Lemmas: chunkTokens -/

theorem chunkTextLen_append (a b : List Token) :
    chunkTextLen (a ++ b) = chunkTextLen a + chunkTextLen b := by
  simp [chunkTextLen]

theorem chunkTextLen_singleton (t : Token) :
    chunkTextLen [t] = if t.Kind = kindText then t.Value.length else 0 := by
  simp [chunkTextLen]

theorem chunkTokensLoop_cons (limit : Int) (t : Token) (ts : List Token)
    (chunks : List (List Token)) (current : List Token) (textLen : Nat) :
    chunkTokensLoop limit (t :: ts) chunks current textLen
      = if ((textLen + chunkTextLen [t] : Nat) : Int) > limit ∧ current.length > 0 then
          chunkTokensLoop limit ts (chunks ++ [current]) [t] (chunkTextLen [t])
        else chunkTokensLoop limit ts chunks (current ++ [t]) (textLen + chunkTextLen [t]) := by
  rw [chunkTextLen_singleton]
  rfl

theorem chunkTokensLoop_flatten (limit : Int) : ∀ (ts : List Token) (chunks : List (List Token))
    (current : List Token) (textLen : Nat),
    (chunkTokensLoop limit ts chunks current textLen).flatten
      = chunks.flatten ++ current ++ ts := by
  intro ts
  induction ts with
  | nil =>
    intro chunks current textLen
    unfold chunkTokensLoop
    by_cases h : current.length > 0
    · simp [h]
    · have : current = [] := List.length_eq_zero.mp (by omega)
      simp [this]
  | cons t ts ih =>
    intro chunks current textLen
    rw [chunkTokensLoop_cons]
    split
    · rw [ih]; simp
    · rw [ih]; simp

theorem chunkTokensLoop_chunks (limit : Int) (P : List Token → Prop)
    (hsingle : ∀ t, P [t])
    (hfit : ∀ c, c ≠ [] → (chunkTextLen c : Int) ≤ limit → P c) :
    ∀ (ts : List Token) (chunks : List (List Token)) (current : List Token) (textLen : Nat),
    textLen = chunkTextLen current → (∀ c ∈ chunks, P c) → (current = [] ∨ P current) →
    ∀ c ∈ chunkTokensLoop limit ts chunks current textLen, P c := by
  intro ts
  induction ts with
  | nil =>
    intro chunks current textLen _ hchunks hcur c hc
    unfold chunkTokensLoop at hc
    by_cases h : current.length > 0
    · simp only [h, if_true, List.mem_append, List.mem_singleton] at hc
      rcases hc with hc | hc
      · exact hchunks c hc
      · subst hc
        rcases hcur with hnil | hp
        · rw [hnil] at h; simp at h
        · exact hp
    · simp only [h, if_false] at hc
      exact hchunks c hc
  | cons t ts ih =>
    intro chunks current textLen hlen hchunks hcur
    rw [chunkTokensLoop_cons]
    split
    · rename_i hflush
      apply ih
      · rfl
      · intro c hc
        rw [List.mem_append, List.mem_singleton] at hc
        rcases hc with hc | hc
        · exact hchunks c hc
        · subst hc
          rcases hcur with hnil | hp
          · rw [hnil] at hflush; simp at hflush
          · exact hp
      · exact Or.inr (hsingle t)
    · rename_i hkeep
      apply ih
      · rw [chunkTextLen_append, hlen]
      · exact hchunks
      · right
        by_cases hempty : current.length > 0
        · apply hfit
          · simp
          · rw [chunkTextLen_append, ← hlen]
            by_contra hgt
            exact hkeep ⟨by omega, hempty⟩
        · have : current = [] := List.length_eq_zero.mp (by omega)
          rw [this]
          exact hsingle t

/-! ## Lemmas: text tokens -/

theorem no_prefix_in_gap (o l : Str) (rel : Nat) (ho : o ≠ [])
    (h : ∀ j, j < rel → ¬ o <+: l.drop j) : ∀ j, ¬ o <+: (l.take rel).drop j := by
  intro j hp
  by_cases hj : j < rel
  · apply h j hj
    rw [List.drop_take] at hp
    exact hp.trans (List.take_prefix _ _)
  · have hnil : (l.take rel).drop j = [] := by
      apply List.drop_eq_nil_of_le
      rw [List.length_take]
      omega
    rw [hnil] at hp
    exact ho (List.prefix_nil.mp hp)

theorem tokenizeLoop_text (input : Str) (Q R : Token → Prop)
    (hsc : ∀ v, Q ⟨kindShortcode, v⟩)
    (hgap : ∀ (i rel : Nat),
      firstDelim (stringsIndex openDelim (input.drop i))
        (stringsIndex closeDelim (input.drop i)) = some rel →
      Q ⟨kindText, slice input i (rel + i)⟩)
    (hrest : ∀ (i : Nat),
      firstDelim (stringsIndex openDelim (input.drop i))
        (stringsIndex closeDelim (input.drop i)) = none →
      R ⟨kindText, input.drop i⟩)
    (hopen : ∀ (idx : Nat), stringsIndexByte 93 (input.drop idx) = none →
      R ⟨kindText, input.drop idx⟩) :
    ∀ (fuel i : Nat) (acc : List Token), (∀ t ∈ acc, Q t) →
      ∃ front last, tokenizeLoop input fuel i acc = front ++ last ∧ last.length ≤ 1 ∧
        (∀ t ∈ front, Q t) ∧ (∀ t ∈ last, R t) := by
  intro fuel
  induction fuel with
  | zero =>
    intro i acc hacc
    exact ⟨acc, [], by simp [tokenizeLoop], by simp, hacc, by simp⟩
  | succ f ih =>
    intro i acc hacc
    unfold tokenizeLoop
    by_cases hi : i < input.length
    · simp only [hi, if_true]
      cases hd : firstDelim (stringsIndex openDelim (input.drop i))
          (stringsIndex closeDelim (input.drop i)) with
      | none =>
        simp only
        refine ⟨acc, [⟨kindText, input.drop i⟩], rfl, by simp, hacc, ?_⟩
        intro t ht
        simp only [List.mem_singleton] at ht
        subst ht
        exact hrest i hd
      | some rel =>
        simp only
        have hacc1 : ∀ t ∈ (if rel + i > i then acc ++ [⟨kindText, slice input i (rel + i)⟩]
            else acc), Q t := by
          intro t ht
          split at ht
          · rw [List.mem_append] at ht
            rcases ht with h | h
            · exact hacc t h
            · simp only [List.mem_singleton] at h; subst h; exact hgap i rel hd
          · exact hacc t ht
        cases he : stringsIndexByte 93 (input.drop (rel + i)) with
        | none =>
          simp only
          refine ⟨_, [⟨kindText, input.drop (rel + i)⟩], rfl, by simp, hacc1, ?_⟩
          intro t ht
          simp only [List.mem_singleton] at ht
          subst ht
          exact hopen _ he
        | some e =>
          simp only
          apply ih
          intro t ht
          rw [List.mem_append] at ht
          rcases ht with h | h
          · exact hacc1 t h
          · simp only [List.mem_singleton] at h; subst h; exact hsc _
    · simp only [hi, if_false]
      exact ⟨acc, [], by simp, by simp, hacc, by simp⟩

/-! ## Claims -/

/-- C1: for every input string, concatenating the values of the tokens
returned by `tokenize`, in order, gives back the input exactly. -/
theorem tokenize_roundtrip (s : Str) : rebuild (tokenize s) = s := by
  unfold tokenize
  rw [rebuild_tokenizeLoop s _ 0 [] (Nat.zero_le _) (by omega)]
  simp [rebuild_nil]

/-- C3: in a session created by `initBulkSession`, every unit position below
`TotalChunks` lies in exactly one part range, the positions of a part are all
smaller than those of the next part, and no range reaches past `TotalChunks`. -/
theorem partition_coverage (s : MCPServer)
    (content targetLang sourceType inputPath outputPath : Str) (postID : Int)
    (backupPath : Str) (b : BulkTranslationSession)
    (h : (initBulkSession s content targetLang sourceType inputPath outputPath postID
      backupPath).bulkSession = some b) :
    (∀ k, k < b.TotalChunks → ∃! p, inPart b p k = true) ∧
    (∀ p k k2, inPart b p k = true → inPart b (p + 1) k2 = true → k < k2) ∧
    (∀ p k, inPart b p k = true → k < b.TotalChunks) := by
  obtain ⟨hz, -, -, hn, -, -, hpr, -⟩ := initBulkSession_some h
  rw [← hn] at hz
  have hin : ∀ p k, inPart b p k = true ↔
      ∃ r, (computePartRanges b.TotalChunks b.Parts)[p]? = some r ∧ r.1 ≤ k ∧ k < r.2 := by
    intro p k; rw [inPart_iff, hpr]
  have hparts : b.Parts = 1 ∨ b.Parts = 2 ∨ b.Parts = 3 := by
    obtain ⟨-, -, -, -, hp, -⟩ := initBulkSession_some h
    rw [hp]; exact numberOfParts_cases _
  generalize b.TotalChunks = n at hz hin
  rcases hparts with hp | hp | hp
  · rw [hp, computePartRanges_one] at hin
    refine ⟨?_, ?_, ?_⟩
    · intro k hk
      refine ⟨0, ?_, ?_⟩
      · simp [hin]; exact hk
      · intro q hq
        rw [hin] at hq
        obtain ⟨r, hr, -, -⟩ := hq
        rcases q with _ | q
        · rfl
        · simp at hr
    · intro p k k2 _ h2
      rw [hin] at h2
      obtain ⟨r, hr, -, -⟩ := h2
      simp at hr
    · intro p k hk
      rw [hin] at hk
      obtain ⟨r, hr, h1, h2⟩ := hk
      rcases p with _ | p
      · simp at hr; subst hr; exact h2
      · simp at hr
  · rw [hp, computePartRanges_two] at hin
    refine ⟨?_, ?_, ?_⟩
    · intro k hk
      by_cases hlt : k < (n + 1) / 2
      · refine ⟨0, ?_, ?_⟩
        · simp [hin]; split <;> omega
        · intro q hq
          rw [hin] at hq
          obtain ⟨r, hr, h1, h2⟩ := hq
          rcases q with _ | _ | q
          · rfl
          · simp at hr; subst hr; simp at h1; omega
          · simp at hr
      · refine ⟨1, ?_, ?_⟩
        · simp [hin]; constructor
          · omega
          · split <;> omega
        · intro q hq
          rw [hin] at hq
          obtain ⟨r, hr, h1, h2⟩ := hq
          rcases q with _ | _ | q
          · simp at hr; subst hr; simp at h2; split at h2 <;> omega
          · rfl
          · simp at hr
    · intro p k k2 h1 h2
      rw [hin] at h1 h2
      obtain ⟨r, hr, -, hr2⟩ := h1
      obtain ⟨r2, hr', hr1, -⟩ := h2
      rcases p with _ | p
      · simp at hr hr'; subst hr; subst hr'; simp at hr1 hr2; split at hr2 <;> omega
      · simp at hr'
    · intro p k hk
      rw [hin] at hk
      obtain ⟨r, hr, h1, h2⟩ := hk
      rcases p with _ | _ | p
      · simp at hr; subst hr; simp at h2; split at h2 <;> omega
      · simp at hr; subst hr; simp at h2; split at h2 <;> omega
      · simp at hr
  · rw [hp, computePartRanges_three] at hin
    refine ⟨?_, ?_, ?_⟩
    · intro k hk
      by_cases hlt : k < (n + 2) / 3
      · refine ⟨0, ?_, ?_⟩
        · simp [hin]; split <;> omega
        · intro q hq
          rw [hin] at hq
          obtain ⟨r, hr, h1, h2⟩ := hq
          rcases q with _ | _ | _ | q
          · rfl
          · simp at hr; subst hr; simp at h1; omega
          · simp at hr; subst hr; simp at h1; omega
          · simp at hr
      · by_cases hlt2 : k < (n + 2) / 3 + (n + 2) / 3
        · refine ⟨1, ?_, ?_⟩
          · simp [hin]; constructor
            · omega
            · split <;> omega
          · intro q hq
            rw [hin] at hq
            obtain ⟨r, hr, h1, h2⟩ := hq
            rcases q with _ | _ | _ | q
            · simp at hr; subst hr; simp at h2; split at h2 <;> omega
            · rfl
            · simp at hr; subst hr; simp at h1; omega
            · simp at hr
        · refine ⟨2, ?_, ?_⟩
          · simp [hin]; constructor
            · omega
            · split <;> omega
          · intro q hq
            rw [hin] at hq
            obtain ⟨r, hr, h1, h2⟩ := hq
            rcases q with _ | _ | _ | q
            · simp at hr; subst hr; simp at h2; split at h2 <;> omega
            · simp at hr; subst hr; simp at h2; split at h2 <;> omega
            · rfl
            · simp at hr
    · intro p k k2 h1 h2
      rw [hin] at h1 h2
      obtain ⟨r, hr, -, hr2⟩ := h1
      obtain ⟨r2, hr', hr1, -⟩ := h2
      rcases p with _ | _ | p
      · simp at hr hr'; subst hr; subst hr'; simp at hr1 hr2; split at hr2 <;> omega
      · simp at hr hr'; subst hr; subst hr'; simp at hr1 hr2; split at hr2 <;> omega
      · simp at hr'
    · intro p k hk
      rw [hin] at hk
      obtain ⟨r, hr, h1, h2⟩ := hk
      rcases p with _ | _ | _ | p
      · simp at hr; subst hr; simp at h2; split at h2 <;> omega
      · simp at hr; subst hr; simp at h2; split at h2 <;> omega
      · simp at hr; subst hr; simp at h2; split at h2 <;> omega
      · simp at hr

theorem partition_coverage_witness :
    (initBulkSession idleServer demoContent (utf8 "es") (utf8 "file") (utf8 "in.txt")
        (utf8 "out.txt") 0 []).bulkSession = some demoBulk ∧
      ((∀ k, k < demoBulk.TotalChunks → ∃! p, inPart demoBulk p k = true) ∧
       (∀ p k k2, inPart demoBulk p k = true → inPart demoBulk (p + 1) k2 = true → k < k2) ∧
       (∀ p k, inPart demoBulk p k = true → k < demoBulk.TotalChunks)) :=
  ⟨by decide, partition_coverage idleServer demoContent (utf8 "es") (utf8 "file")
    (utf8 "in.txt") (utf8 "out.txt") 0 [] demoBulk (by decide)⟩

/-- C4 (as stated, refuted): for the document made of a single unit of 60001
bytes `initBulkSession` creates a session with one unit and three parts whose
ranges are `[0,1)`, `[1,1)`, `[2,1)`; they are not a well-formed chain (the
third range starts after its own end and after the end of the second). -/
theorem part_ranges_chain_counterexample :
    ∃ b, (initBulkSession idleServer oneHugeUnit (utf8 "es") (utf8 "file") (utf8 "in.txt")
        (utf8 "out.txt") 0 []).bulkSession = some b ∧
      b.PartRanges = [(0, 1), (1, 1), (2, 1)] ∧
      ¬ WellChained b.TotalChunks b.PartRanges := by
  have hc : unitsCount oneHugeUnit = 1 := unitsCount_replicate 59999
  have ht : unitsTotal oneHugeUnit = 60001 := unitsTotal_replicate 59999
  obtain ⟨b, hb, hn, -, hr⟩ := initBulkSession_of_units idleServer oneHugeUnit (utf8 "es")
    (utf8 "file") (utf8 "in.txt") (utf8 "out.txt") 0 [] (by omega)
  rw [hc, ht] at hr
  have hr2 : b.PartRanges = [(0, 1), (1, 1), (2, 1)] := by rw [hr]; decide
  refine ⟨b, hb, hr2, ?_⟩
  intro hw
  have := (hw.2.1 (2, 1) (by rw [hr2]; simp)).1
  omega

/-- C4 (amended): in a session created by `initBulkSession`, unless it has
exactly one unit and three parts, the part ranges are a well-formed chain:
the first starts at 0, each has start ≤ end ≤ TotalChunks, each one after the
first starts where the previous one ended, and the last ends at TotalChunks. -/
theorem part_ranges_chain (s : MCPServer)
    (content targetLang sourceType inputPath outputPath : Str) (postID : Int)
    (backupPath : Str) (b : BulkTranslationSession)
    (h : (initBulkSession s content targetLang sourceType inputPath outputPath postID
      backupPath).bulkSession = some b)
    (hne : ¬ (b.TotalChunks = 1 ∧ b.Parts = 3)) :
    WellChained b.TotalChunks b.PartRanges := by
  obtain ⟨hz, -, -, hn, hp, -, hpr, -⟩ := initBulkSession_some h
  rw [← hn] at hz
  have hparts : b.Parts = 1 ∨ b.Parts = 2 ∨ b.Parts = 3 := by
    rw [hp]; exact numberOfParts_cases _
  rw [hpr]
  generalize b.TotalChunks = n at hz hne
  unfold WellChained
  rcases hparts with hp | hp | hp
  · rw [hp, computePartRanges_one]
    refine ⟨?_, ?_, ?_, ?_⟩
    · intro r hr; simp at hr; subst hr; rfl
    · intro r hr; simp at hr; subst hr; simp
    · intro p r r2 _ h2; simp at h2
    · intro r hr; simp at hr; subst hr; rfl
  · rw [hp, computePartRanges_two]
    refine ⟨?_, ?_, ?_, ?_⟩
    · intro r hr; simp at hr; subst hr; rfl
    · intro r hr
      simp at hr
      rcases hr with rfl | rfl
      · simp; split <;> omega
      · simp; split <;> omega
    · intro p r r2 h1 h2
      rcases p with _ | p
      · simp at h1 h2; subst h1; subst h2; simp; split <;> omega
      · simp at h2
    · intro r hr; simp at hr; subst hr; simp; omega
  · rw [hp, computePartRanges_three]
    have hn1 : n ≠ 1 := fun e => hne ⟨e, hp⟩
    refine ⟨?_, ?_, ?_, ?_⟩
    · intro r hr; simp at hr; subst hr; rfl
    · intro r hr
      simp at hr
      rcases hr with rfl | rfl | rfl
      · simp; split <;> omega
      · simp; split <;> omega
      · simp; split <;> omega
    · intro p r r2 h1 h2
      rcases p with _ | _ | p
      · simp at h1 h2; subst h1; subst h2; simp; split <;> omega
      · simp at h1 h2; subst h1; subst h2; simp; split <;> omega
      · simp at h2
    · intro r hr; simp at hr; subst hr; simp; omega

theorem part_ranges_chain_witness :
    ((initBulkSession idleServer demoContent (utf8 "es") (utf8 "file") (utf8 "in.txt")
        (utf8 "out.txt") 0 []).bulkSession = some demoBulk ∧
      ¬ (demoBulk.TotalChunks = 1 ∧ demoBulk.Parts = 3)) ∧
      WellChained demoBulk.TotalChunks demoBulk.PartRanges :=
  ⟨⟨by decide, by decide⟩, part_ranges_chain idleServer demoContent (utf8 "es") (utf8 "file")
    (utf8 "in.txt") (utf8 "out.txt") 0 [] demoBulk (by decide) (by decide)⟩

/-- C8: for a document with at least one unit, `initBulkSession` creates a
session whose number of parts is 1 if the total unit length `T` is at most
30000, 2 if `30000 < T ≤ 60000`, and 3 if `T > 60000`; the number of part
ranges equals the number of parts. -/
theorem parts_by_total (s : MCPServer)
    (content targetLang sourceType inputPath outputPath : Str) (postID : Int)
    (backupPath : Str) (hunits : 1 ≤ unitsCount content) :
    ∃ b, (initBulkSession s content targetLang sourceType inputPath outputPath postID
        backupPath).bulkSession = some b ∧
      b.Parts = (if unitsTotal content ≤ 30000 then 1
        else if unitsTotal content ≤ 60000 then 2 else 3) ∧
      b.PartRanges.length = b.Parts := by
  obtain ⟨b, hb, -, hp, hr⟩ := initBulkSession_of_units s content targetLang sourceType
    inputPath outputPath postID backupPath hunits
  refine ⟨b, hb, ?_, ?_⟩
  · rw [hp]
    unfold numberOfParts maxCharsPerPart
    split_ifs <;> omega
  · rw [hr, hp]
    simp [computePartRanges]

theorem parts_by_total_witness :
    1 ≤ unitsCount demoContent ∧
    ∃ b, (initBulkSession idleServer demoContent (utf8 "es") (utf8 "file") (utf8 "in.txt")
        (utf8 "out.txt") 0 []).bulkSession = some b ∧
      b.Parts = (if unitsTotal demoContent ≤ 30000 then 1
        else if unitsTotal demoContent ≤ 60000 then 2 else 3) ∧
      b.PartRanges.length = b.Parts :=
  ⟨by decide, parts_by_total idleServer demoContent (utf8 "es") (utf8 "file")
    (utf8 "in.txt") (utf8 "out.txt") 0 [] (by decide)⟩

/-- C9: for a document whose unit lengths sum to more than 30000 and at most
60000, `initBulkSession` creates a session with exactly two parts, the ranges
`[0, c)` and `[c, n)` with `c = (n + 1) / 2 = ceil(n / 2)` and `n` the number
of units: the first part holds `c` units and the second the other `n - c`. -/
theorem two_parts_split (s : MCPServer)
    (content targetLang sourceType inputPath outputPath : Str) (postID : Int)
    (backupPath : Str)
    (hT : 30000 < unitsTotal content ∧ unitsTotal content ≤ 60000) :
    ∃ b, (initBulkSession s content targetLang sourceType inputPath outputPath postID
        backupPath).bulkSession = some b ∧
      b.TotalChunks = unitsCount content ∧
      b.Parts = 2 ∧
      b.PartRanges = [(0, (unitsCount content + 1) / 2),
        ((unitsCount content + 1) / 2, unitsCount content)] ∧
      b.PartRanges.map (fun r => r.2 - r.1)
        = [(unitsCount content + 1) / 2, unitsCount content - (unitsCount content + 1) / 2] := by
  have hunits : 1 ≤ unitsCount content := by
    by_contra hc
    have h0 : (tokenize content).filter isUnit = [] := by
      have : ((tokenize content).filter isUnit).length = 0 := by
        unfold unitsCount at hc; omega
      exact List.length_eq_zero.mp this
    have : unitsTotal content = 0 := by simp [unitsTotal, h0]
    omega
  obtain ⟨b, hb, hn, hp, hr⟩ := initBulkSession_of_units s content targetLang sourceType
    inputPath outputPath postID backupPath hunits
  have hp2 : numberOfParts (unitsTotal content) = 2 := by
    unfold numberOfParts maxCharsPerPart
    split_ifs <;> omega
  have hranges : b.PartRanges = [(0, (unitsCount content + 1) / 2),
      ((unitsCount content + 1) / 2, unitsCount content)] := by
    rw [hr, hp2, computePartRanges_two]
    generalize unitsCount content = n at hunits
    have h1 : ¬ (n + 1) / 2 > n := by omega
    simp only [h1, if_false]
    by_cases h2 : (n + 1) / 2 + (n + 1) / 2 > n
    · simp only [h2, if_true]
    · simp only [h2, if_false]
      have : (n + 1) / 2 + (n + 1) / 2 = n := by omega
      rw [this]
  refine ⟨b, hb, hn, ?_, hranges, ?_⟩
  · rw [hp, hp2]
  · rw [hranges]; simp

theorem two_parts_split_witness :
    (30000 < unitsTotal oneLargeUnit ∧ unitsTotal oneLargeUnit ≤ 60000) ∧
    ∃ b, (initBulkSession idleServer oneLargeUnit (utf8 "es") (utf8 "file") (utf8 "in.txt")
        (utf8 "out.txt") 0 []).bulkSession = some b ∧
      b.TotalChunks = unitsCount oneLargeUnit ∧
      b.Parts = 2 ∧
      b.PartRanges = [(0, (unitsCount oneLargeUnit + 1) / 2),
        ((unitsCount oneLargeUnit + 1) / 2, unitsCount oneLargeUnit)] ∧
      b.PartRanges.map (fun r => r.2 - r.1)
        = [(unitsCount oneLargeUnit + 1) / 2,
            unitsCount oneLargeUnit - (unitsCount oneLargeUnit + 1) / 2] :=
  have hT : 30000 < unitsTotal oneLargeUnit ∧ unitsTotal oneLargeUnit ≤ 60000 := by
    have h : unitsTotal oneLargeUnit = 50000 := unitsTotal_replicate 49998
    omega
  ⟨hT, two_parts_split idleServer oneLargeUnit (utf8 "es") (utf8 "file")
    (utf8 "in.txt") (utf8 "out.txt") 0 [] hT⟩

/-- C5 (as stated, refuted): on "<p><p></p></p>" one pass of the cleanup
leaves "<p></p>", which a second pass removes: the cleanup is not idempotent. -/
theorem dropEmptyPTags_idempotent_counterexample :
    dropEmptyPTags (utf8 "<p><p></p></p>") = utf8 "<p></p>" ∧
    dropEmptyPTags (dropEmptyPTags (utf8 "<p><p></p></p>"))
      ≠ dropEmptyPTags (utf8 "<p><p></p></p>") := by
  decide

/-- C5 (amended): applying the cleanup twice equals applying it once exactly
when the result of the first application contains no occurrence of "<p></p>",
"<p>\u00a0</p>" or "<p>&nbsp;</p>". -/
theorem dropEmptyPTags_twice_iff (s : Str) :
    dropEmptyPTags (dropEmptyPTags s) = dropEmptyPTags s ↔
      ∀ q ∈ emptyPTags, ¬ q <:+: dropEmptyPTags s :=
  dropEmptyPTags_fixed_iff (dropEmptyPTags s)

/-- C6 (as stated, refuted): with two units in the current part and a text
that holds the block of unit 1 only, `parseBulkTranslation` reports the
missing marker of unit 2 after it has stored the translation of unit 1, so
the session after the call differs from the session before it. -/
theorem marker_not_found_atomic_counterexample :
    (parseBulkTranslation demoBulk firstBlockOnly).2 = .markerNotFound (chunkMarker 2) ∧
    (parseBulkTranslation demoBulk firstBlockOnly).1.Translations = [utf8 "Hola", []] ∧
    demoBulk.Translations = [[], []] ∧
    (handleSubmitBulkTranslation demoServer firstBlockOnly demoEnv).map (fun st => st.server)
      ≠ some demoServer := by
  decide

/-- C6 (amended): when `parseBulkTranslation` reports a missing opening or
closing marker, the marker is that of a unit `j` of the current part, every
field of the session other than `Translations` (so `CurrentPart` and the
token values) is unchanged, the number of translation slots is unchanged,
and every slot except those of the units of the current part that precede
`j` is unchanged. -/
theorem marker_not_found_frame (b : BulkTranslationSession) (text m : Str)
    (h : (parseBulkTranslation b text).2 = .markerNotFound m ∨
      (parseBulkTranslation b text).2 = .endMarkerNotFound m) :
    (parseBulkTranslation b text).1.frame = b.frame ∧
    (parseBulkTranslation b text).1.CurrentPart = b.CurrentPart ∧
    (parseBulkTranslation b text).1.Tokens = b.Tokens ∧
    (parseBulkTranslation b text).1.Translations.length = b.Translations.length ∧
    ∃ r j, b.PartRanges[b.CurrentPart]? = some r ∧ r.1 ≤ j ∧ j < r.2 ∧
      (m = chunkMarker (j + 1) ∨ m = chunkEndMarker (j + 1)) ∧
      ∀ k, k < r.1 ∨ j ≤ k →
        (parseBulkTranslation b text).1.Translations[k]? = b.Translations[k]? := by
  unfold parseBulkTranslation at h ⊢
  cases hr : b.PartRanges[b.CurrentPart]? with
  | none => simp [hr] at h
  | some r =>
    simp only [hr] at h ⊢
    have hne : (parseUnits text (List.range' r.1 (r.2 - r.1)) b).2 ≠ .ok := by
      rcases h with h | h <;> (rw [h]; simp)
    obtain ⟨pre, j, post, hl, -, -, heq, hne2⟩ := parseUnits_fail text _ b hne
    obtain ⟨k0, hk0, hpre, hpost⟩ := List.range'_eq_append_iff.mp hl
    obtain ⟨hj, hpos, -⟩ := List.range'_eq_cons_iff.mp hpost.symm
    obtain ⟨hsame, -, -, -⟩ := parseUnit_frame text (parseUnits text pre b).1 j
    have hfin : (parseUnits text (List.range' r.1 (r.2 - r.1)) b).1 = (parseUnits text pre b).1 := by
      rw [heq]; exact hsame hne2
    obtain ⟨hf, hlen, hkeep⟩ := parseUnits_frame text pre b
    rw [hfin]
    have hfr : (parseUnits text pre b).1.frame = b.frame := hf
    refine ⟨hfr, ?_, ?_, hlen, r, j, rfl, by omega, by omega, ?_, ?_⟩
    · have := congrArg BulkTranslationSession.CurrentPart hfr
      simpa [BulkTranslationSession.frame] using this
    · have := congrArg BulkTranslationSession.Tokens hfr
      simpa [BulkTranslationSession.frame] using this
    · rw [heq] at h
      rcases h with h | h
      · left; exact (parseUnit_markerNotFound h).1
      · right; exact (parseUnit_endMarkerNotFound h).1
    · intro k hk
      apply hkeep
      rw [hpre, List.mem_range'_1]
      omega

theorem marker_not_found_frame_witness :
    ((parseBulkTranslation demoBulk firstBlockOnly).2 = .markerNotFound (chunkMarker 2) ∨
      (parseBulkTranslation demoBulk firstBlockOnly).2 = .endMarkerNotFound (chunkMarker 2)) ∧
    ((parseBulkTranslation demoBulk firstBlockOnly).1.frame = demoBulk.frame ∧
    (parseBulkTranslation demoBulk firstBlockOnly).1.CurrentPart = demoBulk.CurrentPart ∧
    (parseBulkTranslation demoBulk firstBlockOnly).1.Tokens = demoBulk.Tokens ∧
    (parseBulkTranslation demoBulk firstBlockOnly).1.Translations.length
      = demoBulk.Translations.length ∧
    ∃ r j, demoBulk.PartRanges[demoBulk.CurrentPart]? = some r ∧ r.1 ≤ j ∧ j < r.2 ∧
      (chunkMarker 2 = chunkMarker (j + 1) ∨ chunkMarker 2 = chunkEndMarker (j + 1)) ∧
      ∀ k, k < r.1 ∨ j ≤ k →
        (parseBulkTranslation demoBulk firstBlockOnly).1.Translations[k]?
          = demoBulk.Translations[k]?) :=
  ⟨Or.inl (by decide),
    marker_not_found_frame demoBulk firstBlockOnly (chunkMarker 2) (Or.inl (by decide))⟩

/-- C7 (the code at the failing input): the server holds the bulk session
extracted from `demoContent` (units 1 and 2 in the current part) and the
submitted text is "{{/CHUNK_001}}{{CHUNK_001}}": it is not empty and the
markers of unit 2 do not occur in it, yet the call does not answer with a
missing-marker error: for unit 1 the closing marker is found before the end
of the opening marker, the slice `text[contentStart:endIdx]` is out of
bounds and the call panics. -/
theorem submit_reversed_markers_panics :
    (handleExtractDiviText idleServer (utf8 "in.txt") (utf8 "out.txt") (utf8 "es")
        demoEnv).map (fun st => st.server) = some demoServer ∧
    reversedMarkers ≠ [] ∧
    stringsIndex (chunkMarker 2) reversedMarkers = none ∧
    stringsIndex (chunkMarker 1) reversedMarkers = some 14 ∧
    stringsIndex (chunkEndMarker 1) reversedMarkers = some 0 ∧
    (parseBulkTranslation demoBulk reversedMarkers).2 = .panic ∧
    handleSubmitBulkTranslation demoServer reversedMarkers demoEnv = none := by
  decide

/-- C2 (as stated, refuted): `edgeBulk` is a valid session whose current part
is the unit range `[0, 1)`; its unit has the original text "\nHello\n". The
submitted text is a header and the block of unit 1 with a body of one blank;
neither holds a marker. `parseBulkTranslation` ends normally, the trimmed
body is empty and the slot holds "\n", while line-break restoration as the
specification words it (a line break in front and one behind, each decided
on the trimmed body) gives "\n\n". -/
theorem marker_roundtrip_counterexample :
    edgeBulk.PartRanges[edgeBulk.CurrentPart]? = some (0, 1) ∧
    originalText edgeBulk 0 = utf8 "\nHello\n" ∧
    (¬ chunkMarker 1 <:+: demoHeader ∧ ¬ chunkEndMarker 1 <:+: demoHeader ∧
      ¬ chunkMarker 1 <:+: blankBodies 0 ∧ ¬ chunkEndMarker 1 <:+: blankBodies 0) ∧
    (parseBulkTranslation edgeBulk (bulkPayload demoHeader blankBodies 0 1)).2 = .ok ∧
    (parseBulkTranslation edgeBulk (bulkPayload demoHeader blankBodies 0 1)).1.Translations
      = [utf8 "\n"] ∧
    trimSpace (blankBodies 0) = [] ∧
    edgesAsClaimed (originalText edgeBulk 0) (trimSpace (blankBodies 0)) = utf8 "\n\n" := by
  refine ⟨by decide, by decide, by decide, by decide, by decide, by decide, by decide⟩

/-- C2 (amended): for a valid bulk session whose current part has the unit
range `[a, b)`, and a submitted text made of any header followed, for each
unit of the part in increasing order, by the block "\n{{CHUNK_n}}\n" ++ body
++ "\n{{/CHUNK_n}}\n", where neither the header nor any body contains a
marker of a unit of the part: `parseBulkTranslation` ends normally and the
slot of each unit `i` of the part holds `pre ++ T ++ post`, where `T` is the
white-space-trimmed body of that unit, `pre` is "\n" if the unit's original
text starts with a line break and `T` does not (else empty), and `post` is
"\n" if the original text ends with a line break and `pre ++ T` does not
(else empty). For a non-empty `T` this is the restoration with `post` decided
on `T` itself; for an empty `T` the slot holds "\n" if the original text
starts or ends with a line break and the empty text otherwise. The other
slots and the rest of the session are unchanged. -/
theorem marker_roundtrip (b : BulkTranslationSession) (hv : b.Valid) (r : Nat × Nat)
    (hr : b.PartRanges[b.CurrentPart]? = some r) (header : Str) (body : Nat → Str)
    (hclean : ∀ j, r.1 ≤ j → j < r.2 →
      (¬ chunkMarker (j + 1) <:+: header ∧ ¬ chunkEndMarker (j + 1) <:+: header) ∧
      ∀ k, r.1 ≤ k → k < r.2 →
        ¬ chunkMarker (j + 1) <:+: body k ∧ ¬ chunkEndMarker (j + 1) <:+: body k) :
    (parseBulkTranslation b (bulkPayload header body r.1 r.2)).2 = .ok ∧
    (∀ i, r.1 ≤ i → i < r.2 →
      (parseBulkTranslation b (bulkPayload header body r.1 r.2)).1.Translations[i]?
        = some
          ((if hasPrefix (originalText b i) [10] && !hasPrefix (trimSpace (body i)) [10]
              then [10] else []) ++ trimSpace (body i) ++
            (if hasSuffix (originalText b i) [10] &&
                !hasSuffix
                  ((if hasPrefix (originalText b i) [10] && !hasPrefix (trimSpace (body i)) [10]
                      then [10] else []) ++ trimSpace (body i)) [10]
              then [10] else [])) ∧
      (trimSpace (body i) ≠ [] →
        (parseBulkTranslation b (bulkPayload header body r.1 r.2)).1.Translations[i]?
          = some (edgesAsClaimed (originalText b i) (trimSpace (body i)))) ∧
      (trimSpace (body i) = [] →
        (parseBulkTranslation b (bulkPayload header body r.1 r.2)).1.Translations[i]?
          = some (if hasPrefix (originalText b i) [10] || hasSuffix (originalText b i) [10]
              then [10] else []))) ∧
    (∀ k, k < r.1 ∨ r.2 ≤ k →
      (parseBulkTranslation b (bulkPayload header body r.1 r.2)).1.Translations[k]?
        = b.Translations[k]?) ∧
    (parseBulkTranslation b (bulkPayload header body r.1 r.2)).1.frame = b.frame := by
  obtain ⟨-, hranges, htokens, hslots⟩ := hv
  have hr2 : r.2 ≤ b.ChunkIndices.length := hranges r (List.getElem?_mem hr)
  have hmem : ∀ i, i ∈ List.range' r.1 (r.2 - r.1) ↔ r.1 ≤ i ∧ i < r.2 := by
    intro i; rw [List.mem_range'_1]; omega
  unfold parseBulkTranslation bulkPayload
  simp only [hr]
  have hnd : (List.range' r.1 (r.2 - r.1)).Nodup := List.nodup_range' _ _
  have hunits : ∀ i ∈ List.range' r.1 (r.2 - r.1), i < b.Translations.length ∧
      ∀ s1 : BulkTranslationSession, s1.frame = b.frame →
        s1.Translations.length = b.Translations.length →
        parseUnit (header ++ chunkBlocks body (List.range' r.1 (r.2 - r.1))) s1 i =
          ({ s1 with
              Translations :=
                s1.Translations.set i (restoreEdges (originalText b i) (trimSpace (body i))) },
            .ok) := by
    intro i hi
    have hi2 := (hmem i).mp hi
    have hilen : i < b.ChunkIndices.length := by omega
    refine ⟨by omega, ?_⟩
    intro s1 hf hlen
    have hci : b.ChunkIndices[i]? = some (b.ChunkIndices[i]) := List.getElem?_eq_getElem hilen
    have hcilt : b.ChunkIndices[i] < b.Tokens.length :=
      htokens _ (List.getElem_mem hilen)
    have htok : b.Tokens[b.ChunkIndices[i]]? = some (b.Tokens[b.ChunkIndices[i]]) :=
      List.getElem?_eq_getElem hcilt
    have hs1c : s1.ChunkIndices = b.ChunkIndices := by
      have := congrArg BulkTranslationSession.ChunkIndices hf
      simpa [BulkTranslationSession.frame] using this
    have hs1t : s1.Tokens = b.Tokens := by
      have := congrArg BulkTranslationSession.Tokens hf
      simpa [BulkTranslationSession.frame] using this
    obtain ⟨pre, post, hsplit⟩ := List.append_of_mem hi
    have hcl := hclean i hi2.1 hi2.2
    obtain ⟨a, e, hM, hE, h1, h2, hs⟩ := payload_unit header body pre post i
      (hsplit ▸ hnd) hcl.1
      (fun k hk => hcl.2 k ((hmem k).mp (hsplit ▸ hk)).1 ((hmem k).mp (hsplit ▸ hk)).2)
    rw [originalText_eq b i _ _ hci htok, hsplit]
    exact parseUnit_found _ s1 i a e _ (body i) _ hM hE h1 h2 hs (by rw [hs1c]; exact hci)
      (by rw [hs1t]; exact htok) (by omega)
  obtain ⟨hok, hstored⟩ := parseUnits_payload _ body b _ b hnd rfl rfl hunits
  obtain ⟨hframe, -, hkeep⟩ :=
    parseUnits_frame (header ++ chunkBlocks body (List.range' r.1 (r.2 - r.1)))
      (List.range' r.1 (r.2 - r.1)) b
  refine ⟨hok, ?_, ?_, hframe⟩
  · intro i h1 h2
    have hst := hstored i ((hmem i).mpr ⟨h1, h2⟩)
    refine ⟨?_, fun hne => ?_, fun hnil => ?_⟩
    · rw [hst, restoreEdges_eq]
    · rw [hst, restoreEdges_of_ne_nil _ _ hne]
    · rw [hst, hnil, restoreEdges_nil]
  · intro k hk
    apply hkeep
    rw [hmem]
    omega

theorem marker_roundtrip_witness :
    (edgeBulk.Valid ∧ edgeBulk.PartRanges[edgeBulk.CurrentPart]? = some (0, 1) ∧
      ∀ j, 0 ≤ j → j < 1 →
        (¬ chunkMarker (j + 1) <:+: demoHeader ∧ ¬ chunkEndMarker (j + 1) <:+: demoHeader) ∧
        ∀ k, 0 ≤ k → k < 1 →
          ¬ chunkMarker (j + 1) <:+: paddedBodies k ∧
            ¬ chunkEndMarker (j + 1) <:+: paddedBodies k) ∧
    (parseBulkTranslation edgeBulk (bulkPayload demoHeader paddedBodies 0 1)).1.Translations
      = [utf8 "\nHola\n"] ∧
    ((parseBulkTranslation edgeBulk (bulkPayload demoHeader paddedBodies 0 1)).2 = .ok ∧
    (∀ i, 0 ≤ i → i < 1 →
      (parseBulkTranslation edgeBulk
          (bulkPayload demoHeader paddedBodies 0 1)).1.Translations[i]?
        = some
          ((if hasPrefix (originalText edgeBulk i) [10] &&
                !hasPrefix (trimSpace (paddedBodies i)) [10]
              then [10] else []) ++ trimSpace (paddedBodies i) ++
            (if hasSuffix (originalText edgeBulk i) [10] &&
                !hasSuffix
                  ((if hasPrefix (originalText edgeBulk i) [10] &&
                        !hasPrefix (trimSpace (paddedBodies i)) [10]
                      then [10] else []) ++ trimSpace (paddedBodies i)) [10]
              then [10] else [])) ∧
      (trimSpace (paddedBodies i) ≠ [] →
        (parseBulkTranslation edgeBulk
            (bulkPayload demoHeader paddedBodies 0 1)).1.Translations[i]?
          = some (edgesAsClaimed (originalText edgeBulk i) (trimSpace (paddedBodies i)))) ∧
      (trimSpace (paddedBodies i) = [] →
        (parseBulkTranslation edgeBulk
            (bulkPayload demoHeader paddedBodies 0 1)).1.Translations[i]?
          = some (if hasPrefix (originalText edgeBulk i) [10] ||
                hasSuffix (originalText edgeBulk i) [10]
              then [10] else []))) ∧
    (∀ k, k < 0 ∨ 1 ≤ k →
      (parseBulkTranslation edgeBulk
          (bulkPayload demoHeader paddedBodies 0 1)).1.Translations[k]?
        = edgeBulk.Translations[k]?) ∧
    (parseBulkTranslation edgeBulk (bulkPayload demoHeader paddedBodies 0 1)).1.frame
      = edgeBulk.frame) :=
  have hv : edgeBulk.Valid := ⟨by decide, by decide, by decide, by decide⟩
  have hclean : ∀ j, 0 ≤ j → j < 1 →
      (¬ chunkMarker (j + 1) <:+: demoHeader ∧ ¬ chunkEndMarker (j + 1) <:+: demoHeader) ∧
      ∀ k, 0 ≤ k → k < 1 →
        ¬ chunkMarker (j + 1) <:+: paddedBodies k ∧
          ¬ chunkEndMarker (j + 1) <:+: paddedBodies k := by
    intro j _ hj
    interval_cases j
    refine ⟨by decide, ?_⟩
    intro k _ hk
    interval_cases k
    decide
  ⟨⟨hv, by decide, hclean⟩, by decide,
    marker_roundtrip edgeBulk hv (0, 1) (by decide) demoHeader paddedBodies hclean⟩

/-- C10: after a legacy session has been started on a document with `n`
units (by either start call) and `n` non-empty texts are submitted in order,
no call panics, the k-th submit with `k < n` answers with the original text
of unit `k + 1`, and the n-th submit hands to the persistence collaborator
exactly `dropEmptyPTags` of the concatenation of the token values in which
the value of the i-th unit is the i-th submitted text and every other value
is the original one. -/
theorem legacy_end_to_end (content : Str) (st0 : Step) (subs : List (Str × Env))
    (hstart : LegacyStarted content st0)
    (hlen : subs.length = unitsCount content)
    (hne : ∀ p ∈ subs, p.1 ≠ []) :
    1 ≤ unitsCount content ∧
    st0.reply = .firstChunk (unitsCount content) ((unitTexts content).getD 0 []) ∧
    ∃ steps, runSubmits st0.server subs = some steps ∧ steps.length = subs.length ∧
      (∀ k, k + 1 < subs.length → ∃ st, steps[k]? = some st ∧
        st.reply = .nextChunk (k + 1) (unitsCount content)
          ((unitTexts content).getD (k + 1) []) ∧
        st.written = none) ∧
      ∃ st, steps[subs.length - 1]? = some st ∧
        st.written = some (dropEmptyPTags (rebuild
          (substituteUnits (tokenize content) (subs.map Prod.fst)))) := by
  obtain ⟨sess, bulk, wp, hsrv, hpos, hreply, hwp, htok, htc, hci, htr, hcur, htotal⟩ :=
    legacyStarted_server hstart
  have hsubs : subs ≠ [] := by
    intro e; rw [e] at hlen; simp at hlen; omega
  have hspec := runSubmits_spec (fun done => substituteUnits (tokenize content) done)
    sess (unitsCount content) bulk wp htotal (by rw [htc]; simp [unitTexts, unitsCount]) hwp
    (by
      intro done hdone
      rw [hci, htok]
      exact applyTranslations_tokenize content done hdone)
    subs [] (by simpa using hlen) hsubs hne
  have hsess : ({ sess with
      Translations := [] ++ List.replicate subs.length []
      CurrentChunk := ([] : List Str).length } : TranslationSession) = sess := by
    cases sess
    simp only [List.nil_append, List.length_nil] at htr hcur ⊢
    subst htr
    subst hcur
    rw [hlen]
  rw [hsess] at hspec
  rw [hsrv]
  refine ⟨hpos, hreply, ?_⟩
  obtain ⟨steps, hrun, hsl, hnext, hlast⟩ := hspec
  refine ⟨steps, hrun, hsl, ?_, ?_⟩
  · intro k hk
    obtain ⟨st, h1, h2, h3⟩ := hnext k hk
    refine ⟨st, h1, ?_, h3⟩
    rw [h2, htc]
    simp
  · simpa using hlast

theorem legacy_end_to_end_witness :
    (LegacyStarted helloDoc helloStart ∧
      [(utf8 "Hola", demoEnv)].length = unitsCount helloDoc ∧
      (∀ p ∈ [(utf8 "Hola", demoEnv)], p.1 ≠ [])) ∧
    unitTexts helloDoc = [utf8 "Hello"] ∧
    dropEmptyPTags (rebuild (substituteUnits (tokenize helloDoc) [utf8 "Hola"]))
      = utf8 "[et_pb_text]Hola[/et_pb_text]" ∧
    (1 ≤ unitsCount helloDoc ∧
    helloStart.reply = .firstChunk (unitsCount helloDoc) ((unitTexts helloDoc).getD 0 []) ∧
    ∃ steps, runSubmits helloStart.server [(utf8 "Hola", demoEnv)] = some steps ∧
      steps.length = [(utf8 "Hola", demoEnv)].length ∧
      (∀ k, k + 1 < [(utf8 "Hola", demoEnv)].length → ∃ st, steps[k]? = some st ∧
        st.reply = .nextChunk (k + 1) (unitsCount helloDoc)
          ((unitTexts helloDoc).getD (k + 1) []) ∧
        st.written = none) ∧
      ∃ st, steps[[(utf8 "Hola", demoEnv)].length - 1]? = some st ∧
        st.written = some (dropEmptyPTags (rebuild
          (substituteUnits (tokenize helloDoc) ([(utf8 "Hola", demoEnv)].map Prod.fst))))) :=
  have hstart : LegacyStarted helloDoc helloStart :=
    ⟨⟨1, utf8 "Hello", rfl⟩,
      Or.inl ⟨idleServer, utf8 "in.txt", utf8 "out.txt", utf8 "es", helloEnv, rfl, by decide⟩⟩
  ⟨⟨hstart, by decide, by decide⟩, by decide, by decide,
    legacy_end_to_end helloDoc helloStart [(utf8 "Hola", demoEnv)] hstart (by decide)
      (by decide)⟩

/-- C11: for a bulk session at finalization (its unit indices and slots
aligned with its tokens), both save functions end normally and the text they
hand to the persistence collaborator is `dropEmptyPTags` of the concatenation
of the token values in which each unit has its stored translation when that
is not empty and its original text otherwise (`saveBulkToWordPress` hands
nothing over only when no connection can be opened); the tokens keep their
number, order and kinds and every token that is not a unit keeps its value. -/
theorem bulk_reassembly (s : MCPServer) (b : BulkTranslationSession) (env : Env)
    (hal : b.Aligned) :
    (∃ st, saveBulkToFile s b env = some st ∧
      st.written = some (dropEmptyPTags (rebuild (mergeUnits b.Tokens b.Translations)))) ∧
    (∃ st, saveBulkToWordPress s b env = some st ∧
      (st.written = some (dropEmptyPTags (rebuild (mergeUnits b.Tokens b.Translations))) ∨
        (st.written = none ∧ s.wpDB = false ∧ env.connect = false))) ∧
    SameStructure b.Tokens (mergeUnits b.Tokens b.Translations) ∧
    (∀ (i idx : Nat), b.ChunkIndices[i]? = some idx →
      ∃ (t : Token) (x : Str), b.Tokens[idx]? = some t ∧ b.Translations[i]? = some x ∧
        (mergeUnits b.Tokens b.Translations)[idx]?
          = some (if x ≠ [] then { t with Value := x } else t)) := by
  have happly := applyBulkTranslations_aligned b hal
  refine ⟨?_, ?_, mergeUnits_sameStructure _ _, ?_⟩
  · simp only [saveBulkToFile, happly]
    by_cases hw : env.writeFile = true
    · simp [hw]
    · simp [hw]
  · simp only [saveBulkToWordPress, happly, getWordPressDB]
    by_cases hdb : s.wpDB = true
    · by_cases hu : env.updatePost = true
      · simp [hdb, hu]
      · simp [hdb, hu]
    · by_cases hc : env.connect = true
      · by_cases hu : env.updatePost = true
        · simp [hdb, hc, hu]
        · simp [hdb, hc, hu]
      · simp [hdb, hc]
  · intro i idx hi
    obtain ⟨hci, hlen⟩ := hal
    have hi2 := hi
    rw [hci] at hi2
    obtain ⟨t, -, h1, -, h3⟩ := mergeUnits_getElem b.Tokens 0 b.Translations i idx hi2
    have hilt : i < b.Translations.length := by
      obtain ⟨hlt, -⟩ := List.getElem?_eq_some_iff.mp hi
      omega
    have hx : b.Translations[i]? = some b.Translations[i] := List.getElem?_eq_getElem hilt
    refine ⟨t, b.Translations[i], by simpa using h1, hx, ?_⟩
    rw [hx] at h3
    simpa using h3

theorem bulk_reassembly_witness :
    demoBulkDone.Aligned ∧
    dropEmptyPTags (rebuild (mergeUnits demoBulkDone.Tokens demoBulkDone.Translations))
      = utf8 "[et_pb_text]Hola[/et_pb_text]World" ∧
    ((∃ st, saveBulkToFile demoServer demoBulkDone demoEnv = some st ∧
      st.written = some (dropEmptyPTags (rebuild
        (mergeUnits demoBulkDone.Tokens demoBulkDone.Translations)))) ∧
    (∃ st, saveBulkToWordPress demoServer demoBulkDone demoEnv = some st ∧
      (st.written = some (dropEmptyPTags (rebuild
          (mergeUnits demoBulkDone.Tokens demoBulkDone.Translations))) ∨
        (st.written = none ∧ demoServer.wpDB = false ∧ demoEnv.connect = false))) ∧
    SameStructure demoBulkDone.Tokens
      (mergeUnits demoBulkDone.Tokens demoBulkDone.Translations) ∧
    (∀ (i idx : Nat), demoBulkDone.ChunkIndices[i]? = some idx →
      ∃ (t : Token) (x : Str), demoBulkDone.Tokens[idx]? = some t ∧ demoBulkDone.Translations[i]? = some x ∧
        (mergeUnits demoBulkDone.Tokens demoBulkDone.Translations)[idx]?
          = some (if x ≠ [] then { t with Value := x } else t))) :=
  have hal : demoBulkDone.Aligned := ⟨by decide, by decide⟩
  ⟨hal, by decide, bulk_reassembly demoServer demoBulkDone demoEnv hal⟩

/-- C12 (the code at the failing input): the last unit of the legacy session
on `helloDoc`, and the last part of the bulk session `demoBulk`, are submitted
while `os.WriteFile` fails. Both calls answer with the save error and hand
the text over, but the session slot is not empty afterwards: the legacy
session stays with `CurrentChunk = TotalChunks = 1` and the bulk session with
`CurrentPart = Parts = 1`, and the next submit call panics on an index out of
range. -/
theorem write_failure_keeps_session :
    ((handleSubmitTranslation helloStart.server (utf8 "Hola") failEnv).map
        (fun st => (st.reply, st.written,
          st.server.session.map (fun t => (t.CurrentChunk, t.TotalChunks))))
      = some (.saveFailed, some (utf8 "[et_pb_text]Hola[/et_pb_text]"), some (1, 1))) ∧
    ((handleSubmitTranslation helloStart.server (utf8 "Hola") failEnv).bind
        (fun st => handleSubmitTranslation st.server (utf8 "Hola") demoEnv) = none) ∧
    ((handleSubmitBulkTranslation demoServer demoPayload failEnv).map
        (fun st => (st.reply, st.written,
          st.server.bulkSession.map (fun t => (t.CurrentPart, t.Parts))))
      = some (.saveFailed, some (utf8 "[et_pb_text]Hola[/et_pb_text]Mundo"),
          some (1, 1))) ∧
    ((handleSubmitBulkTranslation demoServer demoPayload failEnv).bind
        (fun st => handleSubmitBulkTranslation st.server demoPayload demoEnv) = none) := by
  refine ⟨by decide, by decide, by decide, by decide⟩

/-- C13: for every document, the list of unit indices computed by both
`initSession` and `initBulkSession` is strictly increasing and holds exactly
the indices of the tokens of kind "text" whose trimmed value is not empty;
each initialiser creates no session exactly when there is no such token, and
otherwise stores that list, its length as `TotalChunks`, and `TotalChunks`
translation slots. -/
theorem unit_count_invariant (s : MCPServer)
    (content targetLang sourceType inputPath outputPath : Str) (postID : Int)
    (backupPath : Str) :
    (collectChunkIndices (tokenize content) 0).Pairwise (· < ·) ∧
    (∀ i, i ∈ collectChunkIndices (tokenize content) 0 ↔
      ∃ t, (tokenize content)[i]? = some t ∧ t.Kind = kindText ∧ trimSpace t.Value ≠ []) ∧
    (collectChunkIndices (tokenize content) 0).length = unitsCount content ∧
    ((initSession s content targetLang sourceType inputPath outputPath postID
        backupPath).session = none ↔ unitsCount content = 0) ∧
    ((initBulkSession s content targetLang sourceType inputPath outputPath postID
        backupPath).bulkSession = none ↔ unitsCount content = 0) ∧
    (∀ t, (initSession s content targetLang sourceType inputPath outputPath postID
        backupPath).session = some t →
      t.ChunkIndices = collectChunkIndices (tokenize content) 0 ∧
      t.TotalChunks = unitsCount content ∧ t.Translations.length = t.TotalChunks ∧
      t.TextChunks = unitTexts content) ∧
    (∀ b, (initBulkSession s content targetLang sourceType inputPath outputPath postID
        backupPath).bulkSession = some b →
      b.ChunkIndices = collectChunkIndices (tokenize content) 0 ∧
      b.TotalChunks = unitsCount content ∧ b.Translations.length = b.TotalChunks) := by
  have hlen : (collectChunkIndices (tokenize content) 0).length = unitsCount content :=
    collectChunkIndices_length _ _
  have htc : (collectTextChunks (tokenize content)).length = unitsCount content := by
    rw [collectTextChunks_eq]; simp [unitsCount]
  refine ⟨collectChunkIndices_pairwise _ _, ?_, hlen, ?_, ?_, ?_, ?_⟩
  · intro i
    rw [collectChunkIndices_mem]
    simp only [Nat.zero_le, true_and, Nat.sub_zero, isUnit_iff]
  · unfold initSession
    by_cases hz : (collectTextChunks (tokenize content)).length = 0
    · simp only [hz, if_true, true_iff]; omega
    · simp only [hz, if_false]
      constructor
      · intro h; cases h
      · intro h; omega
  · unfold initBulkSession
    by_cases hz : (collectChunkIndices (tokenize content) 0).length = 0
    · simp only [hz, if_true, true_iff]; omega
    · simp only [hz, if_false]
      constructor
      · intro h; cases h
      · intro h; omega
  · intro t ht
    obtain ⟨-, hfields⟩ := initSession_session_some ht
    rw [hfields]
    simp only [List.length_replicate, and_self, hlen]
  · intro b hb
    obtain ⟨-, -, hci, hn, -, -, -, htr⟩ := initBulkSession_some hb
    refine ⟨hci, by rw [hn, hlen], ?_⟩
    rw [htr]; simp

/-- C17 (as stated, refuted): the unit of `edgeDoc` has the original text
"\nHello\n"; a submitted body that is a single blank trims to the empty
text, and the stored translation is "\n", not "\n" ++ "" ++ "\n". -/
theorem edge_restoration_counterexample :
    (initBulkSession idleServer edgeDoc (utf8 "es") (utf8 "file") (utf8 "in.txt")
        (utf8 "out.txt") 0 []).bulkSession = some edgeBulk ∧
    originalText edgeBulk 0 = utf8 "\nHello\n" ∧
    (parseBulkTranslation edgeBulk blankBody).2 = .ok ∧
    (parseBulkTranslation edgeBulk blankBody).1.Translations = [utf8 "\n"] ∧
    edgesAsClaimed (utf8 "\nHello\n") (trimSpace (utf8 " ")) = utf8 "\n\n" := by
  decide

/-- C17 (amended): when an iteration of `parseBulkTranslation` stores a
translation for a unit with original text `o`, the stored text is
`pre ++ T ++ post`, where `T` is the white-space-trimmed text found between
the unit's markers, `pre` is "\n" if `o` starts with a line break and `T`
does not (else empty), and `post` is "\n" if `o` ends with a line break and
`pre ++ T` does not (else empty). For a non-empty `T` this is the text with
`post` decided on `T` itself; for an empty `T` it is "\n" if `o` starts or
ends with a line break and the empty text otherwise. -/
theorem edge_restoration (text : Str) (s : BulkTranslationSession) (i : Nat)
    (hok : (parseUnit text s i).2 = .ok) :
    ∃ a e chunkIdx tok,
      stringsIndex (chunkMarker (i + 1)) text = some a ∧
      stringsIndex (chunkEndMarker (i + 1)) text = some e ∧
      s.ChunkIndices[i]? = some chunkIdx ∧ s.Tokens[chunkIdx]? = some tok ∧
      (parseUnit text s i).1.Translations[i]?
        = some (restoreEdges tok.Value
            (trimSpace (slice text (a + (chunkMarker (i + 1)).length) e))) ∧
      (∀ t : Str, restoreEdges tok.Value t =
        (if hasPrefix tok.Value [10] && !hasPrefix t [10] then [10] else []) ++ t ++
        (if hasSuffix tok.Value [10] &&
            !hasSuffix ((if hasPrefix tok.Value [10] && !hasPrefix t [10] then [10] else [])
              ++ t) [10]
          then [10] else [])) ∧
      (∀ t : Str, t ≠ [] → restoreEdges tok.Value t = edgesAsClaimed tok.Value t) ∧
      restoreEdges tok.Value []
        = if hasPrefix tok.Value [10] || hasSuffix tok.Value [10] then [10] else [] := by
  obtain ⟨a, e, chunkIdx, tok, hM, hE, -, -, hci, htok, -, hstored⟩ := parseUnit_ok hok
  exact ⟨a, e, chunkIdx, tok, hM, hE, hci, htok, hstored,
    fun t => restoreEdges_eq tok.Value t,
    fun t ht => restoreEdges_of_ne_nil tok.Value t ht, restoreEdges_nil tok.Value⟩

theorem edge_restoration_witness :
    (parseUnit blankBody edgeBulk 0).2 = .ok ∧
    ∃ a e chunkIdx tok,
      stringsIndex (chunkMarker (0 + 1)) blankBody = some a ∧
      stringsIndex (chunkEndMarker (0 + 1)) blankBody = some e ∧
      edgeBulk.ChunkIndices[0]? = some chunkIdx ∧ edgeBulk.Tokens[chunkIdx]? = some tok ∧
      (parseUnit blankBody edgeBulk 0).1.Translations[0]?
        = some (restoreEdges tok.Value
            (trimSpace (slice blankBody (a + (chunkMarker (0 + 1)).length) e))) ∧
      (∀ t : Str, restoreEdges tok.Value t =
        (if hasPrefix tok.Value [10] && !hasPrefix t [10] then [10] else []) ++ t ++
        (if hasSuffix tok.Value [10] &&
            !hasSuffix ((if hasPrefix tok.Value [10] && !hasPrefix t [10] then [10] else [])
              ++ t) [10]
          then [10] else [])) ∧
      (∀ t : Str, t ≠ [] → restoreEdges tok.Value t = edgesAsClaimed tok.Value t) ∧
      restoreEdges tok.Value []
        = if hasPrefix tok.Value [10] || hasSuffix tok.Value [10] then [10] else [] :=
  ⟨by decide, edge_restoration blankBody edgeBulk 0 (by decide)⟩

/-- C18: for all texts `a` and `b` that contain none of the three
empty-paragraph patterns, `dropEmptyPTags (a ++ "<p></p>" ++ b) = a ++ b`:
the inserted tag is removed and nothing else is altered. -/
theorem dropEmptyPTags_inserted_tag (a b : Str)
    (ha : ∀ q ∈ emptyPTags, ¬ q <:+: a) (hb : ∀ q ∈ emptyPTags, ¬ q <:+: b) :
    dropEmptyPTags (a ++ utf8 "<p></p>" ++ b) = a ++ b := by
  unfold dropEmptyPTags
  rw [List.append_assoc,
    replacer_copy emptyPTags (utf8 "<p></p>" ++ b) a _ (by simp) (no_match_before_tag a b ha)]
  have hfuel : (a ++ (utf8 "<p></p>" ++ b)).length - a.length = (6 + b.length) + 1 := by
    have : (utf8 "<p></p>").length = 7 := by decide
    simp only [List.length_append, this]
    omega
  rw [hfuel, dropEmptyPTags_tag b hb]

theorem dropEmptyPTags_inserted_tag_witness :
    ((∀ q ∈ emptyPTags, ¬ q <:+: utf8 "<div><p>") ∧
      (∀ q ∈ emptyPTags, ¬ q <:+: utf8 "</p></div>")) ∧
    dropEmptyPTags (utf8 "<div><p>" ++ utf8 "<p></p>" ++ utf8 "</p></div>")
      = utf8 "<div><p>" ++ utf8 "</p></div>" :=
  ⟨⟨by decide, by decide⟩,
    dropEmptyPTags_inserted_tag (utf8 "<div><p>") (utf8 "</p></div>") (by decide) (by decide)⟩

/-- C19 (the code at the failing input): the session `edgeBulk` is valid and
has the single unit 1 in its current part; in the submitted text
"{{/CHUNK_001}}{{CHUNK_001}}" both markers of the part occur, the opening one
at offset 14 and the closing one at offset 0, so the content would start at
27 and end at 0: the slice bounds are violated and `parseBulkTranslation`
neither returns a missing-marker error nor completes, it panics, and so does
the submit call. -/
theorem reversed_markers_out_of_bounds :
    (initBulkSession idleServer edgeDoc (utf8 "es") (utf8 "file") (utf8 "in.txt")
        (utf8 "out.txt") 0 []).bulkSession = some edgeBulk ∧
    edgeBulk.PartRanges[edgeBulk.CurrentPart]? = some (0, 1) ∧
    stringsIndex (chunkMarker 1) reversedMarkers = some 14 ∧
    stringsIndex (chunkEndMarker 1) reversedMarkers = some 0 ∧
    14 + (chunkMarker 1).length = 27 ∧
    (parseBulkTranslation edgeBulk reversedMarkers).2 = .panic ∧
    handleSubmitBulkTranslation ⟨none, some edgeBulk, false⟩ reversedMarkers demoEnv = none := by
  decide

/-- C20 (the code at the failing input): the document
`[et_pb_text title="<p></p>"]Hello` has the shortcode token
`[et_pb_text title="<p></p>"]` and the unit "Hello". In legacy mode,
submitting "Hola" completes the session and the text handed to the file write
is `[et_pb_text title=""]Hola`; in bulk mode, submitting the block of unit 1
with the body "Hola" gives the same text. Both calls answer with the
completion message, which says that the shortcodes were kept intact, but the
shortcode value of the original document does not occur in the text written:
the cleanup pass removed the `<p></p>` inside the shortcode, outside every
translated span. -/
theorem cleanup_alters_shortcode :
    tokenize tagDoc
      = [⟨kindShortcode, utf8 "[et_pb_text title=\"<p></p>\"]"⟩, ⟨kindText, utf8 "Hello"⟩] ∧
    ((handleStartTranslation idleServer (utf8 "in.txt") (utf8 "out.txt") (utf8 "es") tagEnv).bind
        (fun st => handleSubmitTranslation st.server (utf8 "Hola") tagEnv)).map
          (fun st => (st.reply, st.written))
      = some (.completed 1, some (utf8 "[et_pb_text title=\"\"]Hola")) ∧
    ((handleExtractDiviText idleServer (utf8 "in.txt") (utf8 "out.txt") (utf8 "es") tagEnv).bind
        (fun st => handleSubmitBulkTranslation st.server
          (chunkMarker 1 ++ utf8 "Hola" ++ chunkEndMarker 1) tagEnv)).map
          (fun st => (st.reply, st.written))
      = some (.completed 1, some (utf8 "[et_pb_text title=\"\"]Hola")) ∧
    stringsIndex (utf8 "[et_pb_text title=\"<p></p>\"]") (utf8 "[et_pb_text title=\"\"]Hola")
      = none := by
  refine ⟨by decide, by decide, by decide, by decide⟩

/-- Reassembly up to the cleanup: for a legacy session `t` and a bulk session `b` at
finalization (unit indices and slots aligned with the tokens), the save
functions end normally and the text they hand to the persistence collaborator
is `dropEmptyPTags` of the concatenation of token values in which only units
were given a new value: the tokens keep their number, order and kinds, and
every token that is not a unit, so every shortcode token, keeps its value at
its index. When none of the three empty-paragraph patterns occurs in that
concatenation, the text handed over is the concatenation itself; otherwise
the cleanup removes the patterns wherever they stand, shortcodes included.
`saveToWordPress` and `saveBulkToWordPress` hand nothing over only when no
connection can be opened. -/
theorem reassembly_keeps_structure (s : MCPServer) (t : TranslationSession)
    (b : BulkTranslationSession) (env : Env) (ht : t.Aligned) (hb : b.Aligned) :
    (∃ toks, SameStructure t.Tokens toks ∧
      (∀ (k : Nat) (tok : Token), t.Tokens[k]? = some tok → tok.Kind = kindShortcode →
        toks[k]? = some tok) ∧
      (∃ st, saveTranslatedFile s t env = some st ∧
        st.written = some (dropEmptyPTags (rebuild toks))) ∧
      (∃ st, saveToWordPress s t env = some st ∧
        (st.written = some (dropEmptyPTags (rebuild toks)) ∨
          (st.written = none ∧ s.wpDB = false ∧ env.connect = false))) ∧
      ((∀ q ∈ emptyPTags, ¬ q <:+: rebuild toks) → dropEmptyPTags (rebuild toks) = rebuild toks)) ∧
    (∃ toks, SameStructure b.Tokens toks ∧
      (∀ (k : Nat) (tok : Token), b.Tokens[k]? = some tok → tok.Kind = kindShortcode →
        toks[k]? = some tok) ∧
      (∃ st, saveBulkToFile s b env = some st ∧
        st.written = some (dropEmptyPTags (rebuild toks))) ∧
      (∃ st, saveBulkToWordPress s b env = some st ∧
        (st.written = some (dropEmptyPTags (rebuild toks)) ∨
          (st.written = none ∧ s.wpDB = false ∧ env.connect = false))) ∧
      ((∀ q ∈ emptyPTags, ¬ q <:+: rebuild toks) → dropEmptyPTags (rebuild toks) = rebuild toks)) := by
  have keep : ∀ (ts1 ts2 : List Token), SameStructure ts1 ts2 →
      ∀ (k : Nat) (tok : Token), ts1[k]? = some tok → tok.Kind = kindShortcode →
        ts2[k]? = some tok := by
    intro ts1 ts2 h k tok hk hkind
    obtain ⟨t2, h2, -, heq⟩ := sameStructure_getElem h k tok hk
    rw [h2, heq (isUnit_shortcode tok hkind)]
  constructor
  · have happly := applyTranslations_aligned t ht
    have hss := substituteUnits_sameStructure t.Tokens t.Translations
    refine ⟨substituteUnits t.Tokens t.Translations, hss, keep _ _ hss, ?_, ?_,
      (dropEmptyPTags_fixed_iff _).mpr⟩
    · simp only [saveTranslatedFile, happly]
      by_cases hw : env.writeFile = true
      · simp [hw]
      · simp [hw]
    · simp only [saveToWordPress, happly, getWordPressDB]
      by_cases hdb : s.wpDB = true
      · by_cases hu : env.updatePost = true
        · simp [hdb, hu]
        · simp [hdb, hu]
      · by_cases hc : env.connect = true
        · by_cases hu : env.updatePost = true
          · simp [hdb, hc, hu]
          · simp [hdb, hc, hu]
        · simp [hdb, hc]
  · have happly := applyBulkTranslations_aligned b hb
    have hss := mergeUnits_sameStructure b.Tokens b.Translations
    refine ⟨mergeUnits b.Tokens b.Translations, hss, keep _ _ hss, ?_, ?_,
      (dropEmptyPTags_fixed_iff _).mpr⟩
    · simp only [saveBulkToFile, happly]
      by_cases hw : env.writeFile = true
      · simp [hw]
      · simp [hw]
    · simp only [saveBulkToWordPress, happly, getWordPressDB]
      by_cases hdb : s.wpDB = true
      · by_cases hu : env.updatePost = true
        · simp [hdb, hu]
        · simp [hdb, hu]
      · by_cases hc : env.connect = true
        · by_cases hu : env.updatePost = true
          · simp [hdb, hc, hu]
          · simp [hdb, hc, hu]
        · simp [hdb, hc]

theorem reassembly_keeps_structure_witness :
    (helloSessionDone.Aligned ∧ demoBulkDone.Aligned) ∧
    saveTranslatedFile demoServer helloSessionDone demoEnv
      = some ⟨demoServer, .completed 1, some (utf8 "[et_pb_text]Hola[/et_pb_text]")⟩ ∧
    ((∃ toks, SameStructure helloSessionDone.Tokens toks ∧
      (∀ (k : Nat) (tok : Token), helloSessionDone.Tokens[k]? = some tok →
        tok.Kind = kindShortcode → toks[k]? = some tok) ∧
      (∃ st, saveTranslatedFile demoServer helloSessionDone demoEnv = some st ∧
        st.written = some (dropEmptyPTags (rebuild toks))) ∧
      (∃ st, saveToWordPress demoServer helloSessionDone demoEnv = some st ∧
        (st.written = some (dropEmptyPTags (rebuild toks)) ∨
          (st.written = none ∧ demoServer.wpDB = false ∧ demoEnv.connect = false))) ∧
      ((∀ q ∈ emptyPTags, ¬ q <:+: rebuild toks) → dropEmptyPTags (rebuild toks) = rebuild toks)) ∧
    (∃ toks, SameStructure demoBulkDone.Tokens toks ∧
      (∀ (k : Nat) (tok : Token), demoBulkDone.Tokens[k]? = some tok →
        tok.Kind = kindShortcode → toks[k]? = some tok) ∧
      (∃ st, saveBulkToFile demoServer demoBulkDone demoEnv = some st ∧
        st.written = some (dropEmptyPTags (rebuild toks))) ∧
      (∃ st, saveBulkToWordPress demoServer demoBulkDone demoEnv = some st ∧
        (st.written = some (dropEmptyPTags (rebuild toks)) ∨
          (st.written = none ∧ demoServer.wpDB = false ∧ demoEnv.connect = false))) ∧
      ((∀ q ∈ emptyPTags, ¬ q <:+: rebuild toks) → dropEmptyPTags (rebuild toks) = rebuild toks))) :=
  have ht : helloSessionDone.Aligned := ⟨by decide, by decide⟩
  have hb : demoBulkDone.Aligned := ⟨by decide, by decide⟩
  ⟨⟨ht, hb⟩, by decide,
    reassembly_keeps_structure demoServer helloSessionDone demoBulkDone demoEnv ht hb⟩

/-- C15: for every input `s`, every token of `tokenize s` of kind "shortcode"
has a value that starts with "[et_" or with "[/et_", is `body ++ "]"` for a
`body` without any "]" (so it ends with "]" and holds no other one), and
occurs in `s`. -/
theorem shortcode_tokens_shape (s : Str) (tok : Token) (hmem : tok ∈ tokenize s)
    (hkind : tok.Kind = kindShortcode) :
    (hasPrefix tok.Value openDelim = true ∨ hasPrefix tok.Value closeDelim = true) ∧
    (∃ body, tok.Value = body ++ [93] ∧ 93 ∉ body) ∧
    tok.Value <:+: s := by
  have hne : kindText ≠ kindShortcode := by decide
  have hall := tokenizeLoop_shortcodes s
    (fun t => t.Kind = kindShortcode →
      (hasPrefix t.Value openDelim = true ∨ hasPrefix t.Value closeDelim = true) ∧
      (∃ body, t.Value = body ++ [93] ∧ 93 ∉ body) ∧ t.Value <:+: s)
    (fun v hk => absurd hk hne)
    (fun i rel e hd he _ => shortcode_span s i rel e hd he)
    (s.length + 1) 0 [] (fun t ht => absurd ht (List.not_mem_nil t))
  exact hall tok hmem hkind

theorem shortcode_tokens_shape_witness :
    (⟨kindShortcode, utf8 "[/et_pb_text]"⟩ : Token) ∈ tokenize helloDoc ∧
    ((hasPrefix (utf8 "[/et_pb_text]") openDelim = true ∨
        hasPrefix (utf8 "[/et_pb_text]") closeDelim = true) ∧
      (∃ body, utf8 "[/et_pb_text]" = body ++ [93] ∧ 93 ∉ body) ∧
      utf8 "[/et_pb_text]" <:+: helloDoc) :=
  ⟨by decide, shortcode_tokens_shape helloDoc ⟨kindShortcode, utf8 "[/et_pb_text]"⟩ (by decide) rfl⟩

/-- C14: let `s = pre ++ suf` where `suf` holds no "]" and `pre` is empty or
ends with "]" (so `suf` is the part of `s` after its last "]", or all of `s`),
and let `d` be the offset in `suf` of the first occurrence of "[et_" or
"[/et_". Then `tokenize s` returns a token list whose last token has kind
"text" and whose value is the suffix of `s` that starts at that occurrence:
it begins with the unterminated delimiter and runs to the end of the input. -/
theorem malformed_trailing_text (pre suf : Str) (d : Nat)
    (hpre : pre = [] ∨ pre.getLast? = some 93) (hsuf : 93 ∉ suf)
    (hocc : openDelim <+: suf.drop d ∨ closeDelim <+: suf.drop d)
    (hfirst : ∀ j, j < d → ¬ openDelim <+: suf.drop j ∧ ¬ closeDelim <+: suf.drop j) :
    ∃ toks, tokenize (pre ++ suf)
        = toks ++ [⟨kindText, (pre ++ suf).drop (pre.length + d)⟩] ∧
      (pre ++ suf).drop (pre.length + d) = suf.drop d ∧
      (hasPrefix (suf.drop d) openDelim = true ∨ hasPrefix (suf.drop d) closeDelim = true) := by
  have hd : firstDelim (stringsIndex openDelim suf) (stringsIndex closeDelim suf) = some d := by
    cases hfd : firstDelim (stringsIndex openDelim suf) (stringsIndex closeDelim suf) with
    | none =>
      have hno := firstDelim_none _ _ _ hfd d
      rcases hocc with h | h
      · exact absurd h hno.1
      · exact absurd h hno.2
    | some r =>
      obtain ⟨hR, hRmin⟩ := firstDelim_spec _ _ _ _ hfd
      have hrd : r = d := by
        by_contra hne
        rcases Nat.lt_or_gt_of_ne hne with hlt | hgt
        · have := hfirst r hlt
          rcases hR with h | h
          · exact this.1 h
          · exact this.2 h
        · have := hRmin d hgt
          rcases hocc with h | h
          · exact this.1 h
          · exact this.2 h
      rw [hrd]
  have hdrop : (pre ++ suf).drop (pre.length + d) = suf.drop d := by
    rw [List.drop_append]
  obtain ⟨toks, htoks⟩ := tokenizeLoop_malformed pre suf d hpre hsuf hd
    ((pre ++ suf).length + 1) 0 [] (Nat.zero_le _) (by omega)
  refine ⟨toks, ?_, hdrop, ?_⟩
  · rw [hdrop]
    exact htoks
  · simpa [hasPrefix, List.isPrefixOf_iff_prefix] using hocc

theorem malformed_trailing_text_witness :
    ((utf8 "[et_pb_text]" = [] ∨ (utf8 "[et_pb_text]").getLast? = some 93) ∧
      93 ∉ utf8 "Hi [et_pb_b and [/et_c" ∧
      (openDelim <+: (utf8 "Hi [et_pb_b and [/et_c").drop 3 ∨
        closeDelim <+: (utf8 "Hi [et_pb_b and [/et_c").drop 3) ∧
      (∀ j, j < 3 → ¬ openDelim <+: (utf8 "Hi [et_pb_b and [/et_c").drop j ∧
        ¬ closeDelim <+: (utf8 "Hi [et_pb_b and [/et_c").drop j)) ∧
    tokenize (utf8 "[et_pb_text]" ++ utf8 "Hi [et_pb_b and [/et_c")
      = [⟨kindShortcode, utf8 "[et_pb_text]"⟩, ⟨kindText, utf8 "Hi "⟩,
          ⟨kindText, utf8 "[et_pb_b and [/et_c"⟩] ∧
    (∃ toks, tokenize (utf8 "[et_pb_text]" ++ utf8 "Hi [et_pb_b and [/et_c")
        = toks ++ [⟨kindText, (utf8 "[et_pb_text]" ++ utf8 "Hi [et_pb_b and [/et_c").drop
            ((utf8 "[et_pb_text]").length + 3)⟩] ∧
      (utf8 "[et_pb_text]" ++ utf8 "Hi [et_pb_b and [/et_c").drop
          ((utf8 "[et_pb_text]").length + 3)
        = (utf8 "Hi [et_pb_b and [/et_c").drop 3 ∧
      (hasPrefix ((utf8 "Hi [et_pb_b and [/et_c").drop 3) openDelim = true ∨
        hasPrefix ((utf8 "Hi [et_pb_b and [/et_c").drop 3) closeDelim = true)) :=
  ⟨⟨by decide, by decide, by decide, by decide⟩, by decide,
    malformed_trailing_text (utf8 "[et_pb_text]") (utf8 "Hi [et_pb_b and [/et_c") 3
      (by decide) (by decide) (by decide) (by decide)⟩

/-- C16 (counterexample): the document made of the block "x[et_]" written
1000 times has 1000 units; `initBulkSession` creates a session for it with
`TotalChunks = 1000` and the single part range `[0, 1000)`, so the unit index
1000 is used. The extraction payload of that part contains the opening marker
of unit 1000, which is "{{CHUNK_1000}}", and the submit loop at `i = 999`
searches for the same text; the closing marker is "{{/CHUNK_1000}}". The
number has four digits: the marker is not "{{CHUNK_" followed by three bytes
followed by "}}". -/
theorem marker_format_counterexample :
    ∃ b, (initBulkSession idleServer (unitBlocks 1000) (utf8 "es") (utf8 "file") (utf8 "in.txt")
        (utf8 "out.txt") 0 []).bulkSession = some b ∧
      b.TotalChunks = 1000 ∧
      b.PartRanges[b.CurrentPart]? = some (0, 1000) ∧
      (∃ r, generateBulkExtractResponse b = some r ∧ chunkMarker 1000 <:+: r) ∧
      parseUnit (utf8 "x") b 999 = (b, .markerNotFound (chunkMarker 1000)) ∧
      chunkMarker 1000 = utf8 "\x7b\x7bCHUNK_1000\x7d\x7d" ∧
      chunkEndMarker 1000 = utf8 "\x7b\x7b/CHUNK_1000\x7d\x7d" ∧
      ¬ ∃ d : Str, d.length = 3 ∧
        chunkMarker 1000 = utf8 "\x7b\x7bCHUNK_" ++ d ++ utf8 "\x7d\x7d" := by
  obtain ⟨b, hb, htotal, hparts, hranges⟩ := initBulkSession_of_units idleServer
    (unitBlocks 1000) (utf8 "es") (utf8 "file") (utf8 "in.txt") (utf8 "out.txt") 0 []
    (by rw [unitsCount_unitBlocks]; omega)
  rw [unitsCount_unitBlocks] at htotal
  rw [unitsCount_unitBlocks, unitsTotal_unitBlocks] at hranges
  have hone : numberOfParts 1000 = 1 := by decide
  rw [hone, computePartRanges_one] at hranges
  have hcur : b.CurrentPart = 0 := (initBulkSession_some hb).2.2.2.2.2.1
  have hr : b.PartRanges[b.CurrentPart]? = some (0, 1000) := by rw [hcur, hranges]; rfl
  have hm : chunkMarker 1000 = utf8 "\x7b\x7bCHUNK_1000\x7d\x7d" := by decide
  refine ⟨b, hb, htotal, hr, ?_, ?_, hm, by decide, ?_⟩
  · refine ⟨_, generateBulkExtractResponse_payload b (initBulkSession_valid hb) _ hr, ?_⟩
    unfold bulkPayload
    refine List.IsInfix.trans ?_ (List.suffix_append _ _).isInfix
    exact chunkBlocks_marker _ _ 999 (by rw [List.mem_range'_1]; omega)
  · have hnone : stringsIndex (chunkMarker (999 + 1)) (utf8 "x") = none := by decide
    simp only [parseUnit, hnone]
  · rintro ⟨d, hd, heq⟩
    have hlen := congrArg List.length heq
    rw [hm] at hlen
    have h1 : (utf8 "\x7b\x7bCHUNK_1000\x7d\x7d").length = 14 := by decide
    have h2 : (utf8 "\x7b\x7bCHUNK_").length = 8 := by decide
    have h3 : (utf8 "\x7d\x7d").length = 2 := by decide
    simp only [List.length_append, h1, h2, h3, hd] at hlen
    omega

/-- C16 (amended): for every unit index `n ≥ 1`, the opening marker written
into the extraction payload (`chunkBlock`) and searched for on submit (the
loop body `parseUnit` at `i = n - 1`) is "{{CHUNK_" followed by the digits of
the verb `%03d` followed by "}}", and the closing marker is the same with "/"
after "{{". For `n < 1000` the digits are the three decimal digits of `n`
with leading zeros; for `n ≥ 1000` they are the decimal digits of `n`
without padding, four or more. -/
theorem marker_format (n : Nat) (text : Str) (s : BulkTranslationSession) (hn : 1 ≤ n) :
    chunkMarker n = utf8 "\x7b\x7bCHUNK_" ++
      (if n < 1000 then [48 + n / 100, 48 + n / 10 % 10, 48 + n % 10] else fmtD n) ++
      utf8 "\x7d\x7d" ∧
    chunkEndMarker n = utf8 "\x7b\x7b/CHUNK_" ++
      (if n < 1000 then [48 + n / 100, 48 + n / 10 % 10, 48 + n % 10] else fmtD n) ++
      utf8 "\x7d\x7d" ∧
    (n < 1000 ∨ 4 ≤ (fmtD n).length) ∧
    decodeDigits (fmtD n) = n ∧
    chunkBlock n text
      = [10] ++ chunkMarker n ++ [10] ++ text ++ [10] ++ chunkEndMarker n ++ [10] ∧
    (stringsIndex (chunkMarker n) text = none →
      parseUnit text s (n - 1) = (s, .markerNotFound (chunkMarker n))) ∧
    (stringsIndex (chunkMarker n) text ≠ none → stringsIndex (chunkEndMarker n) text = none →
      parseUnit text s (n - 1) = (s, .endMarkerNotFound (chunkEndMarker n))) := by
  have hdig : fmtD03 n
      = if n < 1000 then [48 + n / 100, 48 + n / 10 % 10, 48 + n % 10] else fmtD n := by
    by_cases h : n < 1000
    · simp only [h, if_true]; exact fmtD03_three n h
    · simp only [h, if_false]; exact (fmtD03_large n (by omega)).1
  have hsub : n - 1 + 1 = n := by omega
  refine ⟨?_, ?_, ?_, decodeDigits_digitsLoop (n + 1) n (by omega), rfl, ?_, ?_⟩
  · rw [← hdig]; rfl
  · rw [← hdig]; rfl
  · by_cases h : n < 1000
    · exact Or.inl h
    · exact Or.inr (fmtD03_large n (by omega)).2
  · intro hnone
    simp only [parseUnit, hsub, hnone]
  · intro hsome hnone
    cases hidx : stringsIndex (chunkMarker n) text with
    | none => exact absurd hidx hsome
    | some k => simp only [parseUnit, hsub, hidx, hnone]

theorem marker_format_witness :
    1 ≤ 42 ∧
    chunkMarker 42 = utf8 "\x7b\x7bCHUNK_042\x7d\x7d" ∧
    chunkEndMarker 42 = utf8 "\x7b\x7b/CHUNK_042\x7d\x7d" ∧
    (chunkMarker 42 = utf8 "\x7b\x7bCHUNK_" ++
      (if 42 < 1000 then [48 + 42 / 100, 48 + 42 / 10 % 10, 48 + 42 % 10] else fmtD 42) ++
      utf8 "\x7d\x7d" ∧
    chunkEndMarker 42 = utf8 "\x7b\x7b/CHUNK_" ++
      (if 42 < 1000 then [48 + 42 / 100, 48 + 42 / 10 % 10, 48 + 42 % 10] else fmtD 42) ++
      utf8 "\x7d\x7d" ∧
    (42 < 1000 ∨ 4 ≤ (fmtD 42).length) ∧
    decodeDigits (fmtD 42) = 42 ∧
    chunkBlock 42 (utf8 "Hola")
      = [10] ++ chunkMarker 42 ++ [10] ++ utf8 "Hola" ++ [10] ++ chunkEndMarker 42 ++ [10] ∧
    (stringsIndex (chunkMarker 42) (utf8 "Hola") = none →
      parseUnit (utf8 "Hola") demoBulk (42 - 1)
        = (demoBulk, .markerNotFound (chunkMarker 42))) ∧
    (stringsIndex (chunkMarker 42) (utf8 "Hola") ≠ none →
      stringsIndex (chunkEndMarker 42) (utf8 "Hola") = none →
      parseUnit (utf8 "Hola") demoBulk (42 - 1)
        = (demoBulk, .endMarkerNotFound (chunkEndMarker 42)))) :=
  ⟨by decide, by decide, by decide, marker_format 42 (utf8 "Hola") demoBulk (by decide)⟩

/-- C21 (the code at the failing input): from the idle server,
`start_divi_translation` on `helloDoc` followed by `submit_translation` of
"Hola" while `os.WriteFile` fails answers with the save error and leaves a
legacy session present with `CurrentChunk = TotalChunks = 1` and one
translation slot, so the cursor is not below `TotalChunks`; the same happens
from `start_wordpress_translation` when `UpdatePostContent` fails. In both
states the next `submit_translation` writes `Translations[1]` out of range
and panics. -/
theorem cursor_out_of_range_after_failed_save :
    ((handleStartTranslation idleServer (utf8 "in.txt") (utf8 "out.txt") (utf8 "es") helloEnv).bind
        (fun st => handleSubmitTranslation st.server (utf8 "Hola") failEnv)).map
          (fun st => (st.reply, st.server.session.map
            (fun t => (t.CurrentChunk, t.TotalChunks, t.Translations.length))))
      = some (.saveFailed, some (1, 1, 1)) ∧
    (((handleStartTranslation idleServer (utf8 "in.txt") (utf8 "out.txt") (utf8 "es") helloEnv).bind
        (fun st => handleSubmitTranslation st.server (utf8 "Hola") failEnv)).bind
          (fun st => handleSubmitTranslation st.server (utf8 "Hola") helloEnv)) = none ∧
    ((handleStartWordPressTranslation idleServer 7 (utf8 "es") wpFailEnv).bind
        (fun st => handleSubmitTranslation st.server (utf8 "Hola") wpFailEnv)).map
          (fun st => (st.reply, st.server.session.map
            (fun t => (t.CurrentChunk, t.TotalChunks, t.Translations.length))))
      = some (.saveFailed, some (1, 1, 1)) ∧
    (((handleStartWordPressTranslation idleServer 7 (utf8 "es") wpFailEnv).bind
        (fun st => handleSubmitTranslation st.server (utf8 "Hola") wpFailEnv)).bind
          (fun st => handleSubmitTranslation st.server (utf8 "Hola") helloEnv)) = none := by
  refine ⟨by decide, by decide, by decide, by decide⟩

/-- C22 (the code at the failing input): the tokens of
`[et_pb_text]Hello[/et_pb_text]` chunked with the limit 3 give three chunks of
one token each; the second is the text token "Hello", whose cumulative text
length 5 exceeds the limit, although the comment of `chunkTokens` says that
the cumulative text length per chunk stays under the limit. -/
theorem chunkTokens_oversized_chunk :
    chunkTokens (tokenize helloDoc) 3
      = [[⟨kindShortcode, utf8 "[et_pb_text]"⟩], [⟨kindText, utf8 "Hello"⟩],
          [⟨kindShortcode, utf8 "[/et_pb_text]"⟩]] ∧
    [⟨kindText, utf8 "Hello"⟩] ∈ chunkTokens (tokenize helloDoc) 3 ∧
    chunkTextLen [⟨kindText, utf8 "Hello"⟩] = 5 ∧
    ¬ (chunkTextLen [⟨kindText, utf8 "Hello"⟩] : Int) ≤ 3 := by
  refine ⟨by decide, by decide, by decide, by decide⟩

/-- What `chunkTokens` does keep: for every token list and every limit, the chunks returned
by `chunkTokens` hold the tokens in their order, none is empty, and each
chunk either has a cumulative length of its text tokens' values that does not
exceed the limit or consists of a single token: a token is never split, so a
text token longer than the limit forms a chunk of its own. -/
theorem chunkTokens_limit_or_single (tokens : List Token) (limit : Int) :
    (chunkTokens tokens limit).flatten = tokens ∧
    ∀ chunk ∈ chunkTokens tokens limit,
      chunk ≠ [] ∧ ((chunkTextLen chunk : Int) ≤ limit ∨ ∃ t, chunk = [t]) := by
  constructor
  · have := chunkTokensLoop_flatten limit tokens [] [] 0
    simpa [chunkTokens] using this
  · exact chunkTokensLoop_chunks limit
      (fun c => c ≠ [] ∧ ((chunkTextLen c : Int) ≤ limit ∨ ∃ t, c = [t]))
      (fun t => ⟨by simp, Or.inr ⟨t, rfl⟩⟩)
      (fun c hne hfit => ⟨hne, Or.inl hfit⟩)
      tokens [] [] 0 rfl (fun c hc => absurd hc (List.not_mem_nil c)) (Or.inl rfl)

/-- C23: for every input `s` and every token of `tokenize s` of kind "text",
at position `k`: no occurrence of "[et_" or "[/et_" in the token's value has a
"]" at or after it in that value; and when the token is not the last one
(`k + 1 < len(tokens)`) its value holds no occurrence of either delimiter. -/
theorem text_tokens_hold_no_shortcode (s : Str) (k : Nat) (tok : Token)
    (hk : (tokenize s)[k]? = some tok) (hkind : tok.Kind = kindText) :
    (∀ j, (openDelim <+: tok.Value.drop j ∨ closeDelim <+: tok.Value.drop j) →
      93 ∉ tok.Value.drop j) ∧
    (k + 1 < (tokenize s).length →
      ∀ j, ¬ openDelim <+: tok.Value.drop j ∧ ¬ closeDelim <+: tok.Value.drop j) := by
  have hne : kindShortcode ≠ kindText := by decide
  have ho : openDelim ≠ [] := by decide
  have hc : closeDelim ≠ [] := by decide
  obtain ⟨front, last, heq, hlast, hfront, hlastR⟩ := tokenizeLoop_text s
    (fun t => t.Kind = kindText →
      ∀ j, ¬ openDelim <+: t.Value.drop j ∧ ¬ closeDelim <+: t.Value.drop j)
    (fun t => t.Kind = kindText →
      ∀ j, (openDelim <+: t.Value.drop j ∨ closeDelim <+: t.Value.drop j) →
        93 ∉ t.Value.drop j)
    (fun v hkv => absurd hkv hne)
    (fun i rel hd _ j => by
      have hmin := (firstDelim_spec openDelim closeDelim _ rel hd).2
      have hsl : slice s i (rel + i) = (s.drop i).take rel := by
        unfold slice
        congr 1
        omega
      show ¬ openDelim <+: (slice s i (rel + i)).drop j ∧
        ¬ closeDelim <+: (slice s i (rel + i)).drop j
      rw [hsl]
      exact ⟨no_prefix_in_gap openDelim _ rel ho (fun m hm => (hmin m hm).1) j,
        no_prefix_in_gap closeDelim _ rel hc (fun m hm => (hmin m hm).2) j⟩)
    (fun i hd _ j hocc => by
      have hno := firstDelim_none openDelim closeDelim _ hd j
      rcases hocc with h | h
      · exact absurd h hno.1
      · exact absurd h hno.2)
    (fun idx he _ j _ hmem => stringsIndexByte_none 93 _ he (List.mem_of_mem_drop hmem))
    (s.length + 1) 0 [] (fun t ht => absurd ht (List.not_mem_nil t))
  have htok : tokenize s = front ++ last := heq
  rw [htok] at hk ⊢
  by_cases hkf : k < front.length
  · rw [List.getElem?_append_left hkf] at hk
    have hq := hfront tok (List.getElem?_mem hk) hkind
    refine ⟨fun j hocc => ?_, fun _ => hq⟩
    rcases hocc with h | h
    · exact absurd h (hq j).1
    · exact absurd h (hq j).2
  · rw [List.getElem?_append_right (by omega)] at hk
    refine ⟨hlastR tok (List.getElem?_mem hk) hkind, fun hlt => ?_⟩
    rw [List.length_append] at hlt
    omega

theorem text_tokens_hold_no_shortcode_witness :
    ((tokenize (utf8 "a[et_b]c[et_d"))[3]? = some ⟨kindText, utf8 "[et_d"⟩ ∧
      (⟨kindText, utf8 "[et_d"⟩ : Token).Kind = kindText) ∧
    ((∀ j, (openDelim <+: (utf8 "[et_d").drop j ∨ closeDelim <+: (utf8 "[et_d").drop j) →
      93 ∉ (utf8 "[et_d").drop j) ∧
    (3 + 1 < (tokenize (utf8 "a[et_b]c[et_d")).length →
      ∀ j, ¬ openDelim <+: (utf8 "[et_d").drop j ∧ ¬ closeDelim <+: (utf8 "[et_d").drop j)) :=
  ⟨⟨by decide, rfl⟩,
    text_tokens_hold_no_shortcode (utf8 "a[et_b]c[et_d") 3 ⟨kindText, utf8 "[et_d"⟩
      (by decide) rfl⟩

/-- C24: for every bulk session created by `initBulkSession`, with
`n = TotalChunks` units and `P = Parts` parts, there are `P` part ranges and
`n ≥ 1`, and the range of part `p` holds at least one unit (its start is
below its end) except exactly when `P = 2`, `n = 1` and `p = 1`, or `P = 3`,
`n = 1` and `p` is 1 or 2, or `P = 3`, `n` is 2 or 4 and `p = 2`. -/
theorem empty_parts (s : MCPServer)
    (content targetLang sourceType inputPath outputPath : Str) (postID : Int)
    (backupPath : Str) (b : BulkTranslationSession)
    (h : (initBulkSession s content targetLang sourceType inputPath outputPath postID
      backupPath).bulkSession = some b) :
    b.PartRanges.length = b.Parts ∧ 1 ≤ b.TotalChunks ∧
    ∀ (p : Nat) (r : Nat × Nat), b.PartRanges[p]? = some r →
      (r.1 < r.2 ↔
        ¬ ((b.Parts = 2 ∧ b.TotalChunks = 1 ∧ p = 1) ∨
           (b.Parts = 3 ∧ b.TotalChunks = 1 ∧ (p = 1 ∨ p = 2)) ∨
           (b.Parts = 3 ∧ (b.TotalChunks = 2 ∨ b.TotalChunks = 4) ∧ p = 2))) := by
  obtain ⟨hne, -, -, hn, hp, -, hpr, -⟩ := initBulkSession_some h
  have hpos : 1 ≤ b.TotalChunks := by omega
  have hcases : b.Parts = 1 ∨ b.Parts = 2 ∨ b.Parts = 3 := by
    rw [hp]
    exact numberOfParts_cases _
  generalize b.TotalChunks = n at hpr hpos ⊢
  generalize b.Parts = parts at hpr hcases ⊢
  rcases hcases with h1 | h2 | h3
  · subst h1
    rw [hpr, computePartRanges_one]
    refine ⟨rfl, hpos, ?_⟩
    intro p r hr
    cases p with
    | zero =>
      simp only [List.getElem?_cons_zero, Option.some.injEq] at hr
      subst hr
      dsimp only
      constructor <;> intro hh <;> omega
    | succ p => simp at hr
  · subst h2
    rw [hpr, computePartRanges_two]
    refine ⟨rfl, hpos, ?_⟩
    intro p r hr
    cases p with
    | zero =>
      simp only [List.getElem?_cons_zero, Option.some.injEq] at hr
      subst hr
      dsimp only
      split <;> (constructor <;> intro hh <;> omega)
    | succ p =>
      cases p with
      | zero =>
        simp only [List.getElem?_cons_succ, List.getElem?_cons_zero, Option.some.injEq] at hr
        subst hr
        dsimp only
        split <;> (constructor <;> intro hh <;> omega)
      | succ p => simp at hr
  · subst h3
    rw [hpr, computePartRanges_three]
    refine ⟨rfl, hpos, ?_⟩
    intro p r hr
    cases p with
    | zero =>
      simp only [List.getElem?_cons_zero, Option.some.injEq] at hr
      subst hr
      dsimp only
      split <;> (constructor <;> intro hh <;> omega)
    | succ p =>
      cases p with
      | zero =>
        simp only [List.getElem?_cons_succ, List.getElem?_cons_zero, Option.some.injEq] at hr
        subst hr
        dsimp only
        split <;> (constructor <;> intro hh <;> omega)
      | succ p =>
        cases p with
        | zero =>
          simp only [List.getElem?_cons_succ, List.getElem?_cons_zero,
            Option.some.injEq] at hr
          subst hr
          dsimp only
          split <;> (constructor <;> intro hh <;> omega)
        | succ p => simp at hr

theorem empty_parts_witness :
    ∃ b, (initBulkSession idleServer oneLargeUnit (utf8 "es") (utf8 "file") (utf8 "in.txt")
        (utf8 "out.txt") 0 []).bulkSession = some b ∧
      b.Parts = 2 ∧ b.TotalChunks = 1 ∧ b.PartRanges = [(0, 1), (1, 1)] ∧
      (b.PartRanges.length = b.Parts ∧ 1 ≤ b.TotalChunks ∧
        ∀ (p : Nat) (r : Nat × Nat), b.PartRanges[p]? = some r →
          (r.1 < r.2 ↔
            ¬ ((b.Parts = 2 ∧ b.TotalChunks = 1 ∧ p = 1) ∨
               (b.Parts = 3 ∧ b.TotalChunks = 1 ∧ (p = 1 ∨ p = 2)) ∨
               (b.Parts = 3 ∧ (b.TotalChunks = 2 ∨ b.TotalChunks = 4) ∧ p = 2)))) := by
  have hc : unitsCount oneLargeUnit = 1 := unitsCount_replicate 49998
  have ht : unitsTotal oneLargeUnit = 50000 := unitsTotal_replicate 49998
  obtain ⟨b, hb, htotal, hparts, hranges⟩ := initBulkSession_of_units idleServer oneLargeUnit
    (utf8 "es") (utf8 "file") (utf8 "in.txt") (utf8 "out.txt") 0 [] (by omega)
  have h2 : numberOfParts 50000 = 2 := by decide
  rw [ht, h2] at hparts
  rw [hc] at htotal
  rw [hc, ht, h2, computePartRanges_two] at hranges
  exact ⟨b, hb, hparts, htotal, by simpa using hranges,
    empty_parts idleServer oneLargeUnit (utf8 "es") (utf8 "file") (utf8 "in.txt")
      (utf8 "out.txt") 0 [] b hb⟩

end DiviTranslation
